import Mathlib

/-!
# fast-linalg: dense square matrix multiplication kernels

Shallow embedding of `src/matmul.h` and `src/util.c`.

* A matrix is a flat row-major buffer, `Buf α := Nat → α`; element `(r, s)` of an
  `N × N` matrix lives at flat index `r * N + s`, exactly as in the C++ source.
* The element type `T` / `DTYPE` is a type parameter `α`; the operations `+`, `*`, `0`
  are taken from type classes, so results hold for exact arithmetic (commutative
  semirings, ordered fields) and, where stated, for arbitrary operations.
* Every kernel reads the buffers `a`, `b` and writes only through `c`; a kernel is a
  function of `a`, `b` and the old contents of `c` returning the new contents of `c`.
  `baseline_mem` is the same loop nest on a single address space, with the three
  pointers as offsets, and is shown to agree with the value-level `baseline`.
* `for (int i = 0; i < N; i++)` is a left fold over `List.range N`; a loop with a
  template stride `B` is `forStride`, which returns `none` when the C loop does not
  terminate (`B = 0` with `0 < N`); a loop with a positive constant stride (8,
  `BLOCK_SIZE`) is a fold over `strideList`.
* A `__m256` register is a vector of eight lanes, `Vec8 α := Fin 8 → α`; loads and
  stores move the eight consecutive cells, fused multiply-add is `x * y + z` per lane.
  Alignment of the accessed addresses is not part of this value model.
* The work-sharing loop of `parallel_tranposed_simd` runs the iterations of a tile in an
  order chosen by a schedule, any arrangement of the lexical order.
* Index arithmetic is done in `Nat`: an `N × N` buffer has to fit in memory, so no
  index computed by the kernels can wrap.
-/

namespace FastLinalg

/-! ## Buffers and loops -/

/-- Flat row-major storage: the value at every flat index. -/
def Buf (α : Type) : Type := Nat → α

/-- Assignment `m[p] = v`. -/
def Buf.write {α : Type} (m : Buf α) (p : Nat) (v : α) : Buf α :=
  fun t => if t = p then v else m t

/-- The loop `for (int i = 0; i < n; i++) body`. -/
def forRange {σ : Type} (n : Nat) (body : Nat → σ → σ) (s : σ) : σ :=
  (List.range n).foldl (fun s i => body i s) s

/-- The loop `for (int i = lo; i < hi; i++) body`. -/
def forFromTo {σ : Type} (lo hi : Nat) (body : Nat → σ → σ) (s : σ) : σ :=
  (List.range' lo (hi - lo)).foldl (fun s i => body i s) s

/-- Values taken by `i` in `for (int i = 0; i < n; i += B)` when `0 < B`. -/
def strideList (n B : Nat) : List Nat :=
  (List.range ((n + B - 1) / B)).map (fun q => q * B)

/-- The loop `for (int i = 0; i < n; i += B) body`, whose body may itself fail to
terminate. With `B = 0` and `0 < n` the loop never ends: `none`. -/
def forStride {σ : Type} (n B : Nat) (body : Nat → σ → Option σ) (s : σ) : Option σ :=
  if B = 0 ∧ 0 < n then none
  else (strideList n B).foldlM (fun s i => body i s) s

/-! ## `matmul.h`: scalar kernels -/

/-- The kernel `baseline<T, N>`:
`c[i*N+k] += a[i*N+j] * b[j*N+k]` in loop order `i`, `j`, `k`. -/
def baseline {α : Type} [Add α] [Mul α] (N : Nat) (a b c : Buf α) : Buf α :=
  forRange N (fun i c =>
    forRange N (fun j c =>
      forRange N (fun k c =>
        c.write (i * N + k) (c (i * N + k) + a (i * N + j) * b (j * N + k))) c) c) c

/-- The kernel `transposed<T, N>`:
`c[i*N+k] += a[i*N+j] * b[k*N+j]` in loop order `i`, `k`, `j`. -/
def transposed {α : Type} [Add α] [Mul α] (N : Nat) (a b c : Buf α) : Buf α :=
  forRange N (fun i c =>
    forRange N (fun k c =>
      forRange N (fun j c =>
        c.write (i * N + k) (c (i * N + k) + a (i * N + j) * b (k * N + j))) c) c) c

/-! ## `util.c` -/

/-- The function `transpose_matrix` (`N` is a macro of the missing `util.h`, taken as
a parameter): for `i < N`, `j` from `i` to `N - 1`,
`tmp = mat[j*N+i]; mat[j*N+i] = mat[i*N+j]; mat[i*N+j] = tmp`. -/
def transpose_matrix {α : Type} (N : Nat) (mat : Buf α) : Buf α :=
  forRange N (fun i mat =>
    forFromTo i N (fun j mat =>
      let tmp := mat (j * N + i)
      let mat := mat.write (j * N + i) (mat (i * N + j))
      mat.write (i * N + j) tmp) mat) mat

/-- The function `zero_matrix`: `mat[i*N+j] = 0` for all `i, j < N`. -/
def zero_matrix {α : Type} [Zero α] (N : Nat) (mat : Buf α) : Buf α :=
  forRange N (fun i mat =>
    forRange N (fun j mat => mat.write (i * N + j) 0) mat) mat

/-- The all-zero buffer. -/
def zeroBuf {α : Type} [Zero α] : Buf α := fun _ => 0

/-- Left-to-right accumulation `v += x(j) * y(j)` for `j = 0 .. n-1`. -/
def dotFrom {α : Type} [Add α] [Mul α] (n : Nat) (x y : Nat → α) (v : α) : α :=
  (List.range n).foldl (fun v j => v + x j * y j) v

/-! ## `matmul.h`: register-blocked kernel -/

/-- Assignment `m[i][j] = v` to a two-dimensional local array. -/
def write2 {α : Type} (m : Nat → Nat → α) (i j : Nat) (v : α) : Nat → Nat → α :=
  fun i' j' => if i' = i ∧ j' = j then v else m i' j'

/-- The accumulators `cx[B][B]` of `kernel<T, N, B>` after the first `K` iterations of
its reduction loop (`kernel` runs all `N` of them). The locals `ax`, `bx` are
uninitialised in C; every cell of them that is read has been written just before. -/
def kernel_cx {α : Type} [Zero α] [Add α] [Mul α] (N B : Nat) (a b : Buf α) (x y K : Nat) :
    Nat → Nat → α :=
  forRange K (fun k cx =>
    let ax : Buf α := forRange B (fun i ax => ax.write i (a ((x + i) * N + k))) zeroBuf
    let bx : Buf α := forRange B (fun j bx => bx.write j (b (k * N + y + j))) zeroBuf
    forRange B (fun i cx =>
      forRange B (fun j cx => write2 cx i j (cx i j + ax i * bx j)) cx) cx)
    (fun _ _ => 0)

/-- The kernel `kernel<T, N, B>`: reduce into `cx`, then `c[(x+i)*N+y+j] = cx[i][j]`. -/
def kernel {α : Type} [Zero α] [Add α] [Mul α] (N B : Nat) (a b c : Buf α) (x y : Nat) :
    Buf α :=
  let cx := kernel_cx N B a b x y N
  forRange B (fun i c =>
    forRange B (fun j c => c.write ((x + i) * N + y + j) (cx i j)) c) c

/-- The kernel `blocked<T, N, B>`: `kernel` at every tile origin `(i, j)`,
`i, j = 0, B, 2B, ... < N`. -/
def blocked {α : Type} [Zero α] [Add α] [Mul α] (N B : Nat) (a b c : Buf α) :
    Option (Buf α) :=
  forStride N B (fun i c =>
    forStride N B (fun j c => some (kernel N B a b c i j)) c) c

/-! ## `matmul.h`: packing and the 8x8 SIMD kernel -/

/-- The function `pack<T, N, B>`: `to[i*B+j] = from[(x+i)*N+(y+j)]`. -/
def pack {α : Type} (N B : Nat) (dst frm : Buf α) (x y : Nat) : Buf α :=
  forRange B (fun i dst =>
    forRange B (fun j dst => dst.write (i * B + j) (frm ((x + i) * N + (y + j)))) dst) dst

/-- The function `pack_transpose<T, N, B>`: `to[j*B+i] = from[(x+i)*N+(y+j)]`. -/
def pack_transpose {α : Type} (N B : Nat) (dst frm : Buf α) (x y : Nat) : Buf α :=
  forRange B (fun i dst =>
    forRange B (fun j dst => dst.write (j * B + i) (frm ((x + i) * N + (y + j)))) dst) dst

/-- A `__m256` register: eight lanes. -/
def Vec8 (α : Type) : Type := Fin 8 → α

/-- Intrinsic `_mm256_setzero_ps`. -/
def _mm256_setzero_ps {α : Type} [Zero α] : Vec8 α := fun _ => 0

/-- Intrinsic `_mm256_load_ps(&m[p])`: lanes `m[p] .. m[p+7]`. -/
def _mm256_load_ps {α : Type} (m : Buf α) (p : Nat) : Vec8 α := fun l => m (p + l.val)

/-- Intrinsic `_mm256_store_ps(&m[p], v)`: `m[p+l] = v[l]` for the eight lanes. -/
def _mm256_store_ps {α : Type} (m : Buf α) (p : Nat) (v : Vec8 α) : Buf α :=
  fun t => if h : p ≤ t ∧ t < p + 8 then v ⟨t - p, by omega⟩ else m t

/-- Intrinsic `_mm256_broadcast_ss(&x)`: all lanes equal to `x`. -/
def _mm256_broadcast_ss {α : Type} (x : α) : Vec8 α := fun _ => x

/-- Intrinsic `_mm256_fmadd_ps(x, y, z)`: lane-wise `x * y + z`. -/
def _mm256_fmadd_ps {α : Type} [Add α] [Mul α] (x y z : Vec8 α) : Vec8 α :=
  fun l => x l * y l + z l

/-- Lane `l` of a register, for a lane number given as a natural number below 8. -/
def Vec8.lane {α : Type} (v : Vec8 α) (l : Nat) : α := v ⟨l % 8, Nat.mod_lt l (by decide)⟩

/-- Contents of an uninitialised local array of registers (never read before
being written). -/
def noVecs {α : Type} [Zero α] : Buf (Vec8 α) := fun _ => _mm256_setzero_ps

/-- The function `unpack_from_vecs<T, N>`: with `to_ptr = &to[x*N+y]`, store `from[i]`
at `&to_ptr[i*N]` for `i = 0 .. 7`. -/
def unpack_from_vecs {α : Type} (N : Nat) (dst : Buf α) (frm : Buf (Vec8 α)) (x y : Nat) :
    Buf α :=
  let to_ptr := x * N + y
  let dst := _mm256_store_ps dst (to_ptr + 0 * N) (frm 0)
  let dst := _mm256_store_ps dst (to_ptr + 1 * N) (frm 1)
  let dst := _mm256_store_ps dst (to_ptr + 2 * N) (frm 2)
  let dst := _mm256_store_ps dst (to_ptr + 3 * N) (frm 3)
  let dst := _mm256_store_ps dst (to_ptr + 4 * N) (frm 4)
  let dst := _mm256_store_ps dst (to_ptr + 5 * N) (frm 5)
  let dst := _mm256_store_ps dst (to_ptr + 6 * N) (frm 6)
  _mm256_store_ps dst (to_ptr + 7 * N) (frm 7)

/-- The function `pack_into_vecs<T, N>`: `pack<float, N, 8>` into the local `from[8*8]`,
then `to[i] = _mm256_load_ps(&from[i*8])` for `i = 0 .. 7`. -/
def pack_into_vecs {α : Type} [Zero α] (N : Nat) (dst : Buf (Vec8 α)) (_from : Buf α)
    (x y : Nat) : Buf (Vec8 α) :=
  let frm : Buf α := pack N 8 zeroBuf _from x y
  let dst := dst.write 0 (_mm256_load_ps frm (0 * 8))
  let dst := dst.write 1 (_mm256_load_ps frm (1 * 8))
  let dst := dst.write 2 (_mm256_load_ps frm (2 * 8))
  let dst := dst.write 3 (_mm256_load_ps frm (3 * 8))
  let dst := dst.write 4 (_mm256_load_ps frm (4 * 8))
  let dst := dst.write 5 (_mm256_load_ps frm (5 * 8))
  let dst := dst.write 6 (_mm256_load_ps frm (6 * 8))
  dst.write 7 (_mm256_load_ps frm (7 * 8))

/-- The locals of `kernel_8x8`: the scratch tile `ax[8*8]` and the register arrays
`bv[8]`, `cv[8]`, all declared outside the reduction loop. -/
structure Regs (α : Type) where
  ax : Buf α
  bv : Buf (Vec8 α)
  cv : Buf (Vec8 α)

/-- One iteration of the reduction loop of `kernel_8x8` at chunk start `zz`:
pack the `a` tile, pack the `b` tile into registers, then for each of the eight
rows the eight broadcast / fused multiply-add pairs. -/
def kernel_8x8_step {α : Type} [Zero α] [Add α] [Mul α] (N : Nat) (a b : Buf α)
    (x y zz : Nat) (s : Regs α) : Regs α :=
  let ax := pack N 8 s.ax a x zz
  let bv := pack_into_vecs N s.bv b zz y
  let cv := forRange 8 (fun i cv =>
    let cv := cv.write i (_mm256_fmadd_ps (_mm256_broadcast_ss (ax (i * 8 + 0))) (bv 0) (cv i))
    let cv := cv.write i (_mm256_fmadd_ps (_mm256_broadcast_ss (ax (i * 8 + 1))) (bv 1) (cv i))
    let cv := cv.write i (_mm256_fmadd_ps (_mm256_broadcast_ss (ax (i * 8 + 2))) (bv 2) (cv i))
    let cv := cv.write i (_mm256_fmadd_ps (_mm256_broadcast_ss (ax (i * 8 + 3))) (bv 3) (cv i))
    let cv := cv.write i (_mm256_fmadd_ps (_mm256_broadcast_ss (ax (i * 8 + 4))) (bv 4) (cv i))
    let cv := cv.write i (_mm256_fmadd_ps (_mm256_broadcast_ss (ax (i * 8 + 5))) (bv 5) (cv i))
    let cv := cv.write i (_mm256_fmadd_ps (_mm256_broadcast_ss (ax (i * 8 + 6))) (bv 6) (cv i))
    cv.write i (_mm256_fmadd_ps (_mm256_broadcast_ss (ax (i * 8 + 7))) (bv 7) (cv i)))
    s.cv
  { ax := ax, bv := bv, cv := cv }

/-- The locals of `kernel_8x8` on entry to the reduction loop: `cv[0..7]` set to zero
one by one, `ax` and `bv` uninitialised. -/
def kernel_8x8_init {α : Type} [Zero α] : Regs α :=
  let cv : Buf (Vec8 α) := noVecs
  let cv := cv.write 0 _mm256_setzero_ps
  let cv := cv.write 1 _mm256_setzero_ps
  let cv := cv.write 2 _mm256_setzero_ps
  let cv := cv.write 3 _mm256_setzero_ps
  let cv := cv.write 4 _mm256_setzero_ps
  let cv := cv.write 5 _mm256_setzero_ps
  let cv := cv.write 6 _mm256_setzero_ps
  let cv := cv.write 7 _mm256_setzero_ps
  { ax := zeroBuf, bv := noVecs, cv := cv }

/-- The kernel `kernel_8x8<T, N, B>`: the reduction loop advances `zz` by `B`, packs
8 columns of `a` and 8 rows of `b` at `zz`, and finally stores `cv` into `c`. -/
def kernel_8x8 {α : Type} [Zero α] [Add α] [Mul α] (N B : Nat) (a b c : Buf α)
    (x y : Nat) : Option (Buf α) :=
  (forStride N B (fun zz s => some (kernel_8x8_step N a b x y zz s)) kernel_8x8_init).map
    (fun s => unpack_from_vecs N c s.cv x y)

/-- The kernel `blocked3<T, N, B>`: `kernel_8x8` at `(i, j)`, `i, j = 0, B, 2B, ... < N`. -/
def blocked3 {α : Type} [Zero α] [Add α] [Mul α] (N B : Nat) (a b c : Buf α) :
    Option (Buf α) :=
  forStride N B (fun i c =>
    forStride N B (fun j c => kernel_8x8 N B a b c i j) c) c

/-! ## `matmul.h`: the 2x2 kernel -/

/-- The accumulators `c00`, `c01`, `c10`, `c11` of `kernel_2x2`. -/
structure Acc2x2 (α : Type) where
  c00 : α
  c01 : α
  c10 : α
  c11 : α

/-- The kernel `kernel_2x2<T, N>`: four zero accumulators, the reduction over `k`, then
the four assignments to `c`. -/
def kernel_2x2 {α : Type} [Zero α] [Add α] [Mul α] (N : Nat) (a b c : Buf α) (x y : Nat) :
    Buf α :=
  let acc : Acc2x2 α := forRange N (fun k acc =>
    let a0 := a (x * N + k)
    let a1 := a ((x + 1) * N + k)
    let b0 := b (k * N + y)
    let b1 := b (k * N + y + 1)
    { c00 := acc.c00 + a0 * b0, c01 := acc.c01 + a0 * b1,
      c10 := acc.c10 + a1 * b0, c11 := acc.c11 + a1 * b1 })
    { c00 := 0, c01 := 0, c10 := 0, c11 := 0 }
  let c := c.write (x * N + y) acc.c00
  let c := c.write (x * N + y + 1) acc.c01
  let c := c.write ((x + 1) * N + y) acc.c10
  c.write ((x + 1) * N + y + 1) acc.c11

/-- The kernel `blocked_2x2<T, N>`: `kernel_2x2` at `(i, j)`, `i, j = 0, 2, 4, ... < N`. -/
def blocked_2x2 {α : Type} [Zero α] [Add α] [Mul α] (N : Nat) (a b c : Buf α) : Buf α :=
  (strideList N 2).foldl (fun c i =>
    (strideList N 2).foldl (fun c j => kernel_2x2 N a b c i j) c) c

/-! ## `matmul.h`: the packed scalar kernel -/

/-- The locals `ax[B*B]`, `bx[B*B]`, `cx[B*B]` of `kernel2`. -/
structure Regs2 (α : Type) where
  ax : Buf α
  bx : Buf α
  cx : Buf α

/-- One iteration of the reduction loop of `kernel2` at chunk start `zz`: `pack` the
tile of `a`, `pack_transpose` the tile of `b`, then
`cx[i*B+j] += ax[i*B+k] * bx[j*B+k]` in loop order `i`, `k`, `j`. -/
def kernel2_step {α : Type} [Add α] [Mul α] (N B : Nat) (a b : Buf α) (x y zz : Nat)
    (s : Regs2 α) : Regs2 α :=
  let ax := pack N B s.ax a x zz
  let bx := pack_transpose N B s.bx b zz y
  let cx := forRange B (fun i cx =>
    forRange B (fun k cx =>
      forRange B (fun j cx =>
        cx.write (i * B + j) (cx (i * B + j) + ax (i * B + k) * bx (j * B + k))) cx) cx) s.cx
  { ax := ax, bx := bx, cx := cx }

/-- The kernel `kernel2<T, N, B>`: `cx` starts at zero (`ax`, `bx` are uninitialised),
the reduction runs in chunks of `B`, and `c[(x+i)*N+(y+j)] = cx[i*B+j]` at the end. -/
def kernel2 {α : Type} [Zero α] [Add α] [Mul α] (N B : Nat) (a b c : Buf α) (x y : Nat) :
    Option (Buf α) :=
  (forStride N B (fun zz s => some (kernel2_step N B a b x y zz s))
    { ax := zeroBuf, bx := zeroBuf, cx := zeroBuf }).map (fun s =>
      forRange B (fun i c =>
        forRange B (fun j c => c.write ((x + i) * N + (y + j)) (s.cx (i * B + j))) c) c)

/-- The kernel `blocked2<T, N, B>`: `kernel2` at `(i, j)`, `i, j = 0, B, 2B, ... < N`. -/
def blocked2 {α : Type} [Zero α] [Add α] [Mul α] (N B : Nat) (a b c : Buf α) :
    Option (Buf α) :=
  forStride N B (fun i c =>
    forStride N B (fun j c => kernel2 N B a b c i j) c) c

/-! ## `matmul.h`: vectorised dot-product kernels -/

/-- The constant `BLOCK_SIZE`. -/
def BLOCK_SIZE : Nat := 32

/-- The running vector accumulator `ans` of `transpose_simd` and
`parallel_tranposed_simd` after the loop `for (j = 0; j < N; j += 8)`:
`ans = fmadd(load(&a[pa+j]), load(&b[pb+j]), ans)` starting from zero. -/
def simd_ans {α : Type} [Zero α] [Add α] [Mul α] (N : Nat) (a b : Buf α) (pa pb : Nat) :
    Vec8 α :=
  (strideList N 8).foldl (fun ans j =>
    _mm256_fmadd_ps (_mm256_load_ps a (pa + j)) (_mm256_load_ps b (pb + j)) ans)
    _mm256_setzero_ps

/-- The body shared by `transpose_simd` (at `i`, `k`) and `parallel_tranposed_simd`
(at `row`, `col`): reduce into `ans`, store it to the local `vec[8]`, and
`c[i*N+k] += vec[x]` for `x = 0 .. 7`. -/
def simd_cell {α : Type} [Zero α] [Add α] [Mul α] (N : Nat) (a b : Buf α) (i k : Nat)
    (c : Buf α) : Buf α :=
  let ans := simd_ans N a b (i * N) (k * N)
  let vec : Buf α := _mm256_store_ps zeroBuf 0 ans
  forRange 8 (fun x c => c.write (i * N + k) (c (i * N + k) + vec x)) c

/-- The kernel `transpose_simd<T, N>`. -/
def transpose_simd {α : Type} [Zero α] [Add α] [Mul α] (N : Nat) (a b c : Buf α) : Buf α :=
  forRange N (fun i c => forRange N (fun k c => simd_cell N a b i k c) c) c

/-- Iterations `(row, col)` of the collapsed work-sharing loop of one tile, in
sequential (lexical) order. -/
def tileIters (vblock hblock : Nat) : List (Nat × Nat) :=
  (List.range' vblock BLOCK_SIZE).flatMap (fun row =>
    (List.range' hblock BLOCK_SIZE).map (fun col => (row, col)))

/-- The kernel `parallel_tranposed_simd<T, N>`. The tiles are visited in the fixed
nested order `hblock`, `vblock`; inside a tile the iterations of the
`omp parallel for collapse(2)` loop run in the order `sched hblock vblock`, which the
scheduler is free to choose among the arrangements of `tileIters vblock hblock`. -/
def parallel_tranposed_simd {α : Type} [Zero α] [Add α] [Mul α]
    (sched : Nat → Nat → List (Nat × Nat)) (N : Nat) (a b c : Buf α) : Buf α :=
  (strideList N BLOCK_SIZE).foldl (fun c hblock =>
    (strideList N BLOCK_SIZE).foldl (fun c vblock =>
      (sched hblock vblock).foldl (fun c rc => simd_cell N a b rc.1 rc.2 c) c) c) c

/-! ## `matmul.h`: the cache-tiled kernels -/

/-- The kernel `tiled<T, N>`: blocks `iblock`, `kblock`, `jblock` of stride `BLOCK_SIZE`,
and inside a block `i`, `k`, `j` from the block start to the block start plus
`BLOCK_SIZE`, with `c[i*N+k] += a[i*N+j] * b[j*N+k]`. -/
def tiled {α : Type} [Add α] [Mul α] (N : Nat) (a b c : Buf α) : Buf α :=
  (strideList N BLOCK_SIZE).foldl (fun c iblock =>
    (strideList N BLOCK_SIZE).foldl (fun c kblock =>
      (strideList N BLOCK_SIZE).foldl (fun c jblock =>
        forFromTo iblock (iblock + BLOCK_SIZE) (fun i c =>
          forFromTo kblock (kblock + BLOCK_SIZE) (fun k c =>
            forFromTo jblock (jblock + BLOCK_SIZE) (fun j c =>
              c.write (i * N + k) (c (i * N + k) + a (i * N + j) * b (j * N + k))) c) c) c)
        c) c) c

/-- The body of one `(row, col)` iteration of `parallel`:
`for k: c[row*N+col] += a[row*N+k] * b[k*N+col]`. -/
def parallel_cell {α : Type} [Add α] [Mul α] (N : Nat) (a b : Buf α) (row col : Nat)
    (c : Buf α) : Buf α :=
  forRange N (fun k c =>
    c.write (row * N + col) (c (row * N + col) + a (row * N + k) * b (k * N + col))) c

/-- The kernel `parallel<T, N>`, with the iterations of the
`omp parallel for collapse(2)` loop of a tile in the order `sched hblock vblock`. -/
def parallel {α : Type} [Add α] [Mul α]
    (sched : Nat → Nat → List (Nat × Nat)) (N : Nat) (a b c : Buf α) : Buf α :=
  (strideList N BLOCK_SIZE).foldl (fun c hblock =>
    (strideList N BLOCK_SIZE).foldl (fun c vblock =>
      (sched hblock vblock).foldl (fun c rc => parallel_cell N a b rc.1 rc.2 c) c) c) c

/-! ## `util.c`: the validator -/

/-- What `check_matrix` prints before it returns `false`: the difference and its place. -/
structure Mismatch (α : Type) where
  diff : α
  i : Nat
  j : Nat

/-- The pending `return` of a loop with an early exit: `ret` when the function has
already returned, otherwise the outcome `next` of the current iteration. -/
def keepReturn {β : Type} (ret next : Option β) : Option β :=
  match ret with
  | some m => some m
  | none => next

/-- The function `check_matrix` (`N`, `ERR` are macros of the missing `util.h`, taken as
parameters). The state of the loop nest is the pending `return`: `none` while the loops
run on, `some m` once `diff > ERR` made the function print `m` and return `false`.
Falling out of the loops with `none` is `return true`. -/
def check_matrix {α : Type} [LinearOrderedRing α] (N : Nat) (ERR : α) (mat ans : Buf α) :
    Option (Mismatch α) :=
  forRange N (fun i ret =>
    forRange N (fun j ret =>
      keepReturn ret
        (let diff := |mat (i * N + j) - ans (i * N + j)|
         if diff > ERR then some ⟨diff, i, j⟩ else none)) ret) none

/-! ## `bench.cpp` and `test_program`: the harness -/

/-- The four buffers allocated by `main`. -/
structure Bench (α : Type) where
  a : Buf α
  b : Buf α
  c : Buf α
  ans : Buf α

/-- The pointer `main` passes as third argument of `test_program`: `c` or `ans`. -/
inductive OutBuf where
  | c
  | ans
  deriving DecidableEq

/-- The kernels `main` hands to `test_program`. -/
inductive KernelId where
  | baseline
  | transposed
  | transpose_simd
  | blocked3_8x8
  | parallel_tranposed_simd
  deriving DecidableEq

/-- The buffer behind the third argument of `test_program`. -/
def Bench.out {α : Type} (s : Bench α) : OutBuf → Buf α
  | OutBuf.c => s.c
  | OutBuf.ans => s.ans

/-- Writing through the third argument of `test_program`. -/
def Bench.setOut {α : Type} (s : Bench α) (o : OutBuf) (v : Buf α) : Bench α :=
  match o with
  | OutBuf.c => { s with c := v }
  | OutBuf.ans => { s with ans := v }

/-- The call `func(a, b, c)` for each kernel instantiated in `main`
(`blocked3<float, N, 8>` for `blocked3_8x8`); `none` when the kernel does not return. -/
def runKernel {α : Type} [Zero α] [Add α] [Mul α] (sched : Nat → Nat → List (Nat × Nat))
    (N : Nat) (k : KernelId) (a b c : Buf α) : Option (Buf α) :=
  match k with
  | KernelId.baseline => some (baseline N a b c)
  | KernelId.transposed => some (transposed N a b c)
  | KernelId.transpose_simd => some (transpose_simd N a b c)
  | KernelId.blocked3_8x8 => blocked3 N 8 a b c
  | KernelId.parallel_tranposed_simd => some (parallel_tranposed_simd sched N a b c)

/-- The function `test_program` of `util.c`, as `main` calls it: first and second buffer
`a` and `b`, third buffer `out`, fourth buffer `ans`. It runs `func(a, b, c)`, then
`assert(check_matrix(c, ans))`, then `zero_matrix(c)`. With `ndebug` the assertion is
compiled out; otherwise a failed assertion aborts the run (`none`). Timing and printing
are left out. -/
def test_program {α : Type} [LinearOrderedRing α] (ndebug : Bool)
    (sched : Nat → Nat → List (Nat × Nat)) (N : Nat) (ERR : α) (func : KernelId)
    (out : OutBuf) (s : Bench α) : Option (Bench α) :=
  (runKernel sched N func s.a s.b (s.out out)).bind (fun c' =>
    let s := s.setOut out c'
    if ndebug = false ∧ (check_matrix N ERR (s.out out) s.ans).isSome = true then none
    else some (s.setOut out (zero_matrix N (s.out out))))

/-- The statements of `main` after the two `rand_matrix` calls. -/
inductive Step where
  | test (k : KernelId) (out : OutBuf)
  | zero_c
  | transpose_b

/-- Lines 28 to 45 of `bench.cpp`. -/
def main_steps : List Step :=
  [Step.test KernelId.baseline OutBuf.ans,
   Step.zero_c,
   Step.transpose_b,
   Step.test KernelId.transposed OutBuf.c,
   Step.test KernelId.transpose_simd OutBuf.c,
   Step.transpose_b,
   Step.test KernelId.blocked3_8x8 OutBuf.c,
   Step.transpose_b,
   Step.test KernelId.parallel_tranposed_simd OutBuf.c]

/-- A kernel invocation: which kernel, which output buffer, and the buffers at the
moment of the call. -/
structure Call (α : Type) where
  kernel : KernelId
  out : OutBuf
  state : Bench α

/-- Runs a list of statements and records the kernel invocations that take place; the
record ends when a `test_program` call does not return. -/
def runSteps {α : Type} [LinearOrderedRing α] (ndebug : Bool)
    (sched : Nat → Nat → List (Nat × Nat)) (N : Nat) (ERR : α) :
    List Step → Bench α → List (Call α)
  | [], _ => []
  | Step.test k o :: rest, s =>
    ⟨k, o, s⟩ :: (match test_program ndebug sched N ERR k o s with
      | none => []
      | some s' => runSteps ndebug sched N ERR rest s')
  | Step.zero_c :: rest, s =>
    runSteps ndebug sched N ERR rest { s with c := zero_matrix N s.c }
  | Step.transpose_b :: rest, s =>
    runSteps ndebug sched N ERR rest { s with b := transpose_matrix N s.b }

/-- The kernel invocations of `main`, started with the buffers `s` (`a`, `b` as
generated by `rand_matrix`, `c` and `ans` as left by `aligned_alloc`). -/
def main_calls {α : Type} [LinearOrderedRing α] (ndebug : Bool)
    (sched : Nat → Nat → List (Nat × Nat)) (N : Nat) (ERR : α) (s : Bench α) :
    List (Call α) :=
  runSteps ndebug sched N ERR main_steps s

/-- The layout of the second operand that a kernel requires, given the matrix `B` as
generated: transposed for `transposed`, `transpose_simd` and `parallel_tranposed_simd`,
natural for `baseline` and `blocked3`. -/
def required_layout {α : Type} (N : Nat) (B : Buf α) : KernelId → Buf α
  | KernelId.baseline => B
  | KernelId.blocked3_8x8 => B
  | KernelId.transposed => transpose_matrix N B
  | KernelId.transpose_simd => transpose_matrix N B
  | KernelId.parallel_tranposed_simd => transpose_matrix N B

/-! ## The iteration space of the parallel kernel -/

/-- All `(row, col)` iterations of one call of `parallel_tranposed_simd`, tile after
tile (`hblock` outer, `vblock` inner), each tile in lexical order. -/
def parIters (N : Nat) : List (Nat × Nat) :=
  (strideList N BLOCK_SIZE).flatMap (fun hblock =>
    (strideList N BLOCK_SIZE).flatMap (fun vblock => tileIters vblock hblock))

/-! ## Memory accesses -/

/-- The arrays a kernel touches: the three matrices, the scratch tile `ax[8*8]` of
`kernel_8x8`, the scratch tile `from[8*8]` of `pack_into_vecs`, and the local `vec[8]` of
the vectorised dot product. -/
inductive Region where
  | a
  | b
  | c
  | ax
  | frm
  | vec
  deriving DecidableEq

/-- One memory access: the array, the index of its first element, the number of
consecutive elements it covers (1 for a scalar, 8 for a `__m256` load or store) and
whether it writes. -/
structure Access where
  region : Region
  idx : Nat
  width : Nat
  write : Bool
  deriving DecidableEq

/-- A scalar read `r[p]`. -/
def rd (r : Region) (p : Nat) : Access := { region := r, idx := p, width := 1, write := false }

/-- A scalar write `r[p] = ...`. -/
def wr (r : Region) (p : Nat) : Access := { region := r, idx := p, width := 1, write := true }

/-- A vector load `_mm256_load_ps(&r[p])`. -/
def vload (r : Region) (p : Nat) : Access :=
  { region := r, idx := p, width := 8, write := false }

/-- A vector store `_mm256_store_ps(&r[p], ...)`. -/
def vstore (r : Region) (p : Nat) : Access :=
  { region := r, idx := p, width := 8, write := true }

/-- Number of elements of an array when the matrices have side `N`. -/
def Region.size (N : Nat) : Region → Nat
  | Region.a => N * N
  | Region.b => N * N
  | Region.c => N * N
  | Region.ax => 64
  | Region.frm => 64
  | Region.vec => 8

/-- All elements covered by the access lie inside its array. -/
def Access.inBounds (N : Nat) (acc : Access) : Prop :=
  acc.idx + acc.width ≤ Region.size N acc.region

/-- A vector access starts at an offset that is a multiple of 8. -/
def Access.aligned (acc : Access) : Prop := acc.width = 8 → acc.idx % 8 = 0

/-- Accesses of `pack<T, N, B>(dst, src, x, y)`: read `src[(x+i)*N+(y+j)]`, write
`dst[i*B+j]`. -/
def pack_trace (dst src : Region) (N B x y : Nat) : List Access :=
  (List.range B).flatMap (fun i =>
    (List.range B).flatMap (fun j => [rd src ((x + i) * N + (y + j)), wr dst (i * B + j)]))

/-- Accesses of `pack_into_vecs<T, N>(to, b, x, y)`: the `pack` into `from`, then the
eight loads `_mm256_load_ps(&from[i*8])`. -/
def pack_into_vecs_trace (N x y : Nat) : List Access :=
  pack_trace Region.frm Region.b N 8 x y
    ++ (List.range 8).map (fun i => vload Region.frm (i * 8))

/-- Accesses of `unpack_from_vecs<T, N>(c, cv, x, y)`: the eight stores at
`&c[x*N+y + i*N]`. -/
def unpack_from_vecs_trace (N x y : Nat) : List Access :=
  (List.range 8).map (fun i => vstore Region.c (x * N + y + i * N))

/-- Accesses of `kernel_8x8<T, N, B>(a, b, c, x, y)` for `B ≥ 1`: per reduction chunk the
two packs and the 64 broadcasts `ax[i*8+r]`, then the final unpack. -/
def kernel_8x8_trace (N B x y : Nat) : List Access :=
  (strideList N B).flatMap (fun zz =>
    pack_trace Region.ax Region.a N 8 x zz
      ++ pack_into_vecs_trace N zz y
      ++ (List.range 8).flatMap (fun i => (List.range 8).map (fun r => rd Region.ax (i * 8 + r))))
    ++ unpack_from_vecs_trace N x y

/-- Accesses of `blocked3<T, N, B>` for `B ≥ 1`. -/
def blocked3_trace (N B : Nat) : List Access :=
  (strideList N B).flatMap (fun i =>
    (strideList N B).flatMap (fun j => kernel_8x8_trace N B i j))

/-- Accesses of the vectorised dot product for output element `(i, k)`: the loads
`&a[i*N+j]`, `&b[k*N+j]` for `j = 0, 8, ...`, the store to `vec`, and
`c[i*N+k] += vec[x]` for `x = 0 .. 7`. -/
def simd_cell_trace (N i k : Nat) : List Access :=
  (strideList N 8).flatMap (fun j => [vload Region.a (i * N + j), vload Region.b (k * N + j)])
    ++ [vstore Region.vec 0]
    ++ (List.range 8).flatMap (fun x =>
      [rd Region.c (i * N + k), rd Region.vec x, wr Region.c (i * N + k)])

/-- Accesses of `transpose_simd<T, N>`. -/
def transpose_simd_trace (N : Nat) : List Access :=
  (List.range N).flatMap (fun i => (List.range N).flatMap (fun k => simd_cell_trace N i k))

/-- Accesses of `parallel_tranposed_simd<T, N>`, iteration by iteration. -/
def parallel_tranposed_simd_trace (N : Nat) : List Access :=
  (parIters N).flatMap (fun rc => simd_cell_trace N rc.1 rc.2)

/-- The matrix accesses of one statement `c[pc] += a[pa] * b[pb]`. -/
def mac_trace (pc pa pb : Nat) : List Access :=
  [rd Region.c pc, rd Region.a pa, rd Region.b pb, wr Region.c pc]

/-- Matrix accesses of `baseline<T, N>`. -/
def baseline_trace (N : Nat) : List Access :=
  (List.range N).flatMap (fun i =>
    (List.range N).flatMap (fun j =>
      (List.range N).flatMap (fun k => mac_trace (i * N + k) (i * N + j) (j * N + k))))

/-- Matrix accesses of `transposed<T, N>`. -/
def transposed_trace (N : Nat) : List Access :=
  (List.range N).flatMap (fun i =>
    (List.range N).flatMap (fun k =>
      (List.range N).flatMap (fun j => mac_trace (i * N + k) (i * N + j) (k * N + j))))

/-- Matrix accesses of `tiled<T, N>`. -/
def tiled_trace (N : Nat) : List Access :=
  (strideList N BLOCK_SIZE).flatMap (fun iblock =>
    (strideList N BLOCK_SIZE).flatMap (fun kblock =>
      (strideList N BLOCK_SIZE).flatMap (fun jblock =>
        (List.range' iblock BLOCK_SIZE).flatMap (fun i =>
          (List.range' kblock BLOCK_SIZE).flatMap (fun k =>
            (List.range' jblock BLOCK_SIZE).flatMap (fun j =>
              mac_trace (i * N + k) (i * N + j) (j * N + k)))))))

/-- Matrix accesses of `kernel_2x2<T, N>(a, b, c, x, y)`: four reads per `k`, then the
four stores. -/
def kernel_2x2_trace (N x y : Nat) : List Access :=
  (List.range N).flatMap (fun k =>
    [rd Region.a (x * N + k), rd Region.a ((x + 1) * N + k),
      rd Region.b (k * N + y), rd Region.b (k * N + y + 1)])
    ++ [wr Region.c (x * N + y), wr Region.c (x * N + y + 1),
      wr Region.c ((x + 1) * N + y), wr Region.c ((x + 1) * N + y + 1)]

/-- Matrix accesses of `blocked_2x2<T, N>`. -/
def blocked_2x2_trace (N : Nat) : List Access :=
  (strideList N 2).flatMap (fun i =>
    (strideList N 2).flatMap (fun j => kernel_2x2_trace N i j))

/-- Matrix accesses of `kernel<T, N, B>(a, b, c, x, y)`: per `k` the reads that fill
`ax` and `bx`, then the stores of the tile. -/
def kernel_trace (N B x y : Nat) : List Access :=
  (List.range N).flatMap (fun k =>
    (List.range B).map (fun i => rd Region.a ((x + i) * N + k))
      ++ (List.range B).map (fun j => rd Region.b (k * N + y + j)))
    ++ (List.range B).flatMap (fun i =>
      (List.range B).map (fun j => wr Region.c ((x + i) * N + y + j)))

/-- Matrix accesses of `blocked<T, N, B>` for `B ≥ 1`. -/
def blocked_trace (N B : Nat) : List Access :=
  (strideList N B).flatMap (fun i =>
    (strideList N B).flatMap (fun j => kernel_trace N B i j))

/-- Matrix accesses of `kernel2<T, N, B>(a, b, c, x, y)` for `B ≥ 1`: per reduction chunk
the reads of `pack` and `pack_transpose`, then the stores of the tile. -/
def kernel2_trace (N B x y : Nat) : List Access :=
  (strideList N B).flatMap (fun zz =>
    (List.range B).flatMap (fun i =>
        (List.range B).map (fun j => rd Region.a ((x + i) * N + (zz + j))))
      ++ (List.range B).flatMap (fun i =>
        (List.range B).map (fun j => rd Region.b ((zz + i) * N + (y + j)))))
    ++ (List.range B).flatMap (fun i =>
      (List.range B).map (fun j => wr Region.c ((x + i) * N + (y + j))))

/-- Matrix accesses of `blocked2<T, N, B>` for `B ≥ 1`. -/
def blocked2_trace (N B : Nat) : List Access :=
  (strideList N B).flatMap (fun i =>
    (strideList N B).flatMap (fun j => kernel2_trace N B i j))

/-- Matrix accesses of `parallel<T, N>`, iteration by iteration. -/
def parallel_trace (N : Nat) : List Access :=
  (parIters N).flatMap (fun rc =>
    (List.range N).flatMap (fun k =>
      mac_trace (rc.1 * N + rc.2) (rc.1 * N + k) (k * N + rc.2)))

/-- The cells of `c` that a list of accesses writes, one entry per write and cell. -/
def cellsWritten (tr : List Access) : List Nat :=
  tr.flatMap (fun acc =>
    if acc.write = true ∧ acc.region = Region.c
    then (List.range acc.width).map (fun l => acc.idx + l) else [])

/-! ## Kernels on one address space -/

/-- The kernel `baseline<T, N>` on a single address space `mem`: the pointers `a`, `b`,
`c` are the offsets `pa`, `pb`, `pc`, and `c[i*N+k] += a[i*N+j] * b[j*N+k]` reads
and writes `mem` itself. -/
def baseline_mem {α : Type} [Add α] [Mul α] (N pa pb pc : Nat) (mem : Buf α) : Buf α :=
  forRange N (fun i mem =>
    forRange N (fun j mem =>
      forRange N (fun k mem =>
        mem.write (pc + (i * N + k))
          (mem (pc + (i * N + k)) + mem (pa + (i * N + j)) * mem (pb + (j * N + k))))
        mem) mem) mem

/-- The `N × N` block of `mem` that starts at offset `p`, as a buffer of its own. -/
def block {α : Type} (mem : Buf α) (p : Nat) : Buf α := fun t => mem (p + t)

/-- Two blocks of `n` cells at offsets `p` and `q` do not overlap. -/
def apart (p q n : Nat) : Prop := p + n ≤ q ∨ q + n ≤ p

instance (p q n : Nat) : Decidable (apart p q n) := by unfold apart; infer_instance

/-- One `(row, col)` iteration of `parallel_tranposed_simd` (the body shared with
`transpose_simd`) on a single address space `mem`, the pointers `a`, `b`, `c` being the
offsets `pa`, `pb`, `pc`: the vector loads read `mem` at `pa + row*N + k` and
`pb + col*N + k`, then `c[row*N+col] += vec[x]` reads and writes `mem` at
`pc + row*N + col`; `ans` and `vec` are locals. -/
def simd_cell_mem {α : Type} [Zero α] [Add α] [Mul α] (N pa pb pc row col : Nat)
    (mem : Buf α) : Buf α :=
  let ans := simd_ans N (block mem pa) (block mem pb) (row * N) (col * N)
  let vec : Buf α := _mm256_store_ps zeroBuf 0 ans
  forRange 8 (fun x mem =>
    mem.write (pc + (row * N + col)) (mem (pc + (row * N + col)) + vec x)) mem

/-! ## Inputs used to instantiate the theorems -/

/-- A sample left operand. -/
def sampleA : Buf Int := fun p => (p : Int) % 7 - 3

/-- A sample right operand. -/
def sampleB : Buf Int := fun p => ((p : Int) * 5) % 11 - 4

/-- A sample initial output. -/
def sampleC : Buf Int := fun p => (p : Int) % 3 + 1

/-- A sample left operand with rational entries. -/
def sampleQA : Buf ℚ := fun p => ((p : ℚ) + 1) / 3

/-- A sample right operand with rational entries. -/
def sampleQB : Buf ℚ := fun p => 2 / ((p : ℚ) + 5)

/-- The matrix filled with 1. -/
def onesBuf : Buf Int := fun _ => 1

/-- The matrix filled with 5. -/
def fivesBuf : Buf Int := fun _ => 5

/-- A schedule that runs the iterations of every tile in reverse lexical order. -/
def reversedSched (hblock vblock : Nat) : List (Nat × Nat) :=
  (tileIters vblock hblock).reverse

/-- The rational matrix filled with 1. -/
def onesQ : Buf ℚ := fun _ => 1

/-- The schedule that runs the iterations of every tile in lexical order. -/
def lexSched (hblock vblock : Nat) : List (Nat × Nat) := tileIters vblock hblock

/-- Buffers of `main` with `a`, `b` filled with 1, `c` arbitrary and `ans` zero-filled. -/
def benchZeroAns : Bench ℚ := { a := onesQ, b := onesQ, c := sampleQA, ans := zeroBuf }

/-- Buffers of `main` with `a`, `b` filled with 1 and `c`, `ans` holding arbitrary
non-zero values, as `aligned_alloc` may leave them. -/
def benchGarbage : Bench ℚ := { a := onesQ, b := onesQ, c := sampleQA, ans := sampleQB }

/-- The `N × N` identity matrix, row-major. -/
def identityBuf {α : Type} [Zero α] [One α] (N : Nat) : Buf α :=
  fun p => if p / N = p % N then 1 else 0

/-- The matrix filled with 1, over any scalars. -/
def allOnes {α : Type} [One α] : Buf α := fun _ => 1

/-- A sample address space. -/
def sampleMem : Buf Int := fun p => ((p : Int) * 3) % 5 - 2

/-! ## Generic loop lemmas -/

section Loops
variable {α σ ι : Type}

theorem write_apply (m : Buf α) (p : Nat) (v : α) (t : Nat) :
    m.write p v t = if t = p then v else m t := rfl

/-- Locality: when every iteration changes the value at `t` as a function of the old
value at `t` only, the whole loop does so too. -/
theorem foldl_pointwise (L : List ι) (F : ι → Buf α → Buf α) (t : Nat)
    (g : ι → α → α) (hF : ∀ k ∈ L, ∀ c, F k c t = g k (c t)) (c : Buf α) :
    (L.foldl (fun c k => F k c) c) t = L.foldl (fun v k => g k v) (c t) := by
  induction L generalizing c with
  | nil => rfl
  | cons k L ih =>
    simp only [List.foldl_cons]
    rw [ih (fun k hk => hF k (List.mem_cons_of_mem _ hk)), hF k (List.mem_cons_self _ _)]

theorem foldl_no_hit (L : List ι) (hit : ι → Prop) [DecidablePred hit]
    (G : ι → α → α) (h : ∀ k ∈ L, ¬ hit k) (v : α) :
    L.foldl (fun v k => if hit k then G k v else v) v = v := by
  induction L generalizing v with
  | nil => rfl
  | cons k L ih =>
    simp only [List.foldl_cons]
    rw [if_neg (h k (List.mem_cons_self _ _))]
    exact ih (fun k hk => h k (List.mem_cons_of_mem _ hk)) v

theorem foldl_single_hit (L : List ι) (hit : ι → Prop) [DecidablePred hit]
    (G : ι → α → α) (k0 : ι) (hnd : L.Nodup) (hk0 : k0 ∈ L) (hhit : hit k0)
    (huniq : ∀ k ∈ L, hit k → k = k0) (v : α) :
    L.foldl (fun v k => if hit k then G k v else v) v = G k0 v := by
  induction L generalizing v with
  | nil => cases hk0
  | cons k L ih =>
    simp only [List.foldl_cons]
    rw [List.nodup_cons] at hnd
    by_cases hk : k = k0
    · subst hk
      rw [if_pos hhit]
      apply foldl_no_hit
      intro k' hk' hh
      have := huniq k' (List.mem_cons_of_mem _ hk') hh
      subst this
      exact hnd.1 hk'
    · have hnh : ¬ hit k := fun hh => hk (huniq k (List.mem_cons_self _ _) hh)
      rw [if_neg hnh]
      rcases List.mem_cons.1 hk0 with h | h
      · exact absurd h.symm hk
      · exact ih hnd.2 h (fun k' hk' => huniq k' (List.mem_cons_of_mem _ hk')) v

theorem foldl_guard (L : List ι) (P : Prop) [Decidable P] (G : ι → α → α) (v : α) :
    L.foldl (fun v k => if P then G k v else v) v
      = if P then L.foldl (fun v k => G k v) v else v := by
  by_cases hP : P
  · simp [hP]
  · simp only [hP, if_false]
    induction L with
    | nil => rfl
    | cons k L ih => simp [ih]

/-- Row-major addressing is injective on in-range columns. -/
theorem idx_inj {N r s r' s' : Nat} (hs : s < N) (hs' : s' < N) :
    r * N + s = r' * N + s' ↔ r = r' ∧ s = s' := by
  constructor
  · intro h
    have h1 : (r * N + s) / N = r := by
      rw [Nat.mul_comm, Nat.mul_add_div (by omega), Nat.div_eq_of_lt hs, Nat.add_zero]
    have h2 : (r' * N + s') / N = r' := by
      rw [Nat.mul_comm, Nat.mul_add_div (by omega), Nat.div_eq_of_lt hs', Nat.add_zero]
    have hr : r = r' := by rw [← h1, ← h2, h]
    subst hr
    exact ⟨rfl, by omega⟩
  · rintro ⟨rfl, rfl⟩; rfl

/-- A loop over the columns of row `i`, updating `c[i*N+k]` from its old value. -/
theorem forRange_rowUpdate (N i r s : Nat) (hs : s < N) (upd : Nat → α → α) (c : Buf α) :
    (forRange N (fun k c => c.write (i * N + k) (upd k (c (i * N + k)))) c) (r * N + s)
      = if i = r then upd s (c (r * N + s)) else c (r * N + s) := by
  unfold forRange
  rw [foldl_pointwise (List.range N) _ (r * N + s)
    (fun k v => if r * N + s = i * N + k then upd k v else v)]
  · by_cases hi : i = r
    · subst hi
      rw [if_pos rfl]
      exact foldl_single_hit (List.range N) (fun k => i * N + s = i * N + k) upd s
        (List.nodup_range N) (List.mem_range.2 hs) rfl
        (fun k hk hh => ((idx_inj hs (List.mem_range.1 hk)).1 hh).2.symm) _
    · rw [if_neg hi]
      exact foldl_no_hit (List.range N) (fun k => r * N + s = i * N + k) upd
        (fun k hk hh => hi ((idx_inj hs (List.mem_range.1 hk)).1 hh).1.symm) _
  · intro k _ c
    rw [write_apply]
    by_cases h : r * N + s = i * N + k
    · simp only [h, if_true]
    · simp only [h, if_false]

/-- A loop that keeps updating the single cell `p`. -/
theorem forRange_cellUpdate (n p t : Nat) (upd : Nat → α → α) (c : Buf α) :
    (forRange n (fun j c => c.write p (upd j (c p))) c) t
      = if t = p then (List.range n).foldl (fun v j => upd j v) (c t) else c t := by
  unfold forRange
  rw [foldl_pointwise (List.range n) _ t (fun j v => if t = p then upd j v else v)]
  · exact foldl_guard _ _ _ _
  · intro k _ c
    rw [write_apply]
    by_cases h : t = p
    · simp only [h, if_true]
    · simp only [h, if_false]

/-- An outer loop of which exactly iteration `r` touches the cell `t`. -/
theorem forRange_select (N r : Nat) (hr : r < N) (F : Nat → Buf α → Buf α) (t : Nat)
    (G : Nat → α → α)
    (hF : ∀ i, i < N → ∀ c, F i c t = if i = r then G i (c t) else c t) (c : Buf α) :
    (forRange N F c) t = G r (c t) := by
  unfold forRange
  rw [foldl_pointwise (List.range N) F t (fun i v => if i = r then G i v else v)
    (fun i hi c => hF i (List.mem_range.1 hi) c)]
  exact foldl_single_hit (List.range N) (fun i => i = r) G r
    (List.nodup_range N) (List.mem_range.2 hr) rfl (fun k _ hh => hh) _

/-- A loop none of whose iterations changes the cell `t`. -/
theorem forRange_frame (N : Nat) (F : Nat → Buf α → Buf α) (t : Nat)
    (hF : ∀ i, i < N → ∀ c, F i c t = c t) (c : Buf α) :
    (forRange N F c) t = c t := by
  unfold forRange
  rw [foldl_pointwise (List.range N) F t (fun _ v => v)
    (fun i hi c => hF i (List.mem_range.1 hi) c)]
  induction (List.range N) with
  | nil => rfl
  | cons k L ih => simp [ih]

end Loops

/-! ## The scalar kernels, element by element -/

section Scalar
variable {α : Type}

theorem baseline_apply [Add α] [Mul α] (N : Nat) (a b c : Buf α) (r s : Nat)
    (hr : r < N) (hs : s < N) :
    baseline N a b c (r * N + s)
      = dotFrom N (fun j => a (r * N + j)) (fun j => b (j * N + s)) (c (r * N + s)) := by
  unfold baseline
  rw [forRange_select N r hr _ (r * N + s)
    (fun i v => dotFrom N (fun j => a (i * N + j)) (fun j => b (j * N + s)) v)]
  intro i _ c
  unfold forRange dotFrom
  rw [foldl_pointwise (List.range N) _ (r * N + s)
    (fun j v => if i = r then v + a (i * N + j) * b (j * N + s) else v)]
  · exact foldl_guard _ _ _ _
  · intro j _ c
    exact forRange_rowUpdate N i r s hs (fun k v => v + a (i * N + j) * b (j * N + k)) c

theorem transposed_apply [Add α] [Mul α] (N : Nat) (a b c : Buf α) (r s : Nat)
    (hr : r < N) (hs : s < N) :
    transposed N a b c (r * N + s)
      = dotFrom N (fun j => a (r * N + j)) (fun j => b (s * N + j)) (c (r * N + s)) := by
  unfold transposed
  rw [forRange_select N r hr _ (r * N + s)
    (fun i v => dotFrom N (fun j => a (i * N + j)) (fun j => b (s * N + j)) v)]
  intro i _ c
  by_cases hi : i = r
  · subst hi
    rw [if_pos rfl]
    rw [forRange_select N s hs _ (i * N + s)
      (fun _ v => dotFrom N (fun j => a (i * N + j)) (fun j => b (s * N + j)) v)]
    intro k hk c
    rw [forRange_cellUpdate N (i * N + k) (i * N + s)
      (fun j v => v + a (i * N + j) * b (k * N + j)) c]
    by_cases hks : k = s
    · subst hks; simp [dotFrom]
    · have : ¬ (i * N + s = i * N + k) := fun h => hks ((idx_inj hs hk).1 h).2.symm
      simp [this, hks]
  · rw [if_neg hi]
    apply forRange_frame
    intro k hk c
    rw [forRange_cellUpdate N (i * N + k) (r * N + s)
      (fun j v => v + a (i * N + j) * b (k * N + j)) c]
    have : ¬ (r * N + s = i * N + k) := fun h => hi ((idx_inj hs hk).1 h).1.symm
    simp [this]

theorem dotFrom_congr [Add α] [Mul α] (n : Nat) (x y x' y' : Nat → α) (v : α)
    (hx : ∀ j, j < n → x j = x' j) (hy : ∀ j, j < n → y j = y' j) :
    dotFrom n x y v = dotFrom n x' y' v := by
  unfold dotFrom
  induction n generalizing v with
  | zero => rfl
  | succ n ih =>
    rw [List.range_succ, List.foldl_append, List.foldl_append,
      ih v (fun j hj => hx j (by omega)) (fun j hj => hy j (by omega))]
    simp only [List.foldl_cons, List.foldl_nil]
    rw [hx n (by omega), hy n (by omega)]

end Scalar

/-! ## `transpose_matrix` -/

section Transpose
variable {α : Type}

theorem idx_lt {N r s : Nat} (hr : r < N) (hs : s < N) : r * N + s < N * N := by
  have h1 : r * N + N ≤ N * N := by
    have : (r + 1) * N ≤ N * N := Nat.mul_le_mul_right N hr
    rw [Nat.add_mul, Nat.one_mul] at this
    exact this
  omega

theorem foldl_frame {ι : Type} (L : List ι) (F : ι → Buf α → Buf α) (t : Nat)
    (hF : ∀ k ∈ L, ∀ c, F k c t = c t) (c : Buf α) :
    (L.foldl (fun c k => F k c) c) t = c t := by
  rw [foldl_pointwise L F t (fun _ v => v) hF]
  induction L with
  | nil => rfl
  | cons k L _ => simp

/-- One exchange `tmp = m[q]; m[q] = m[p]; m[p] = tmp`, read at a cell `t`. -/
theorem swap_apply (m : Buf α) (p q t : Nat) :
    ((m.write q (m p)).write p (m q)) t
      = if t = p then m q else if t = q then m p else m t := by
  simp only [write_apply]

/-- The inner loop of `transpose_matrix` for row `i`, started at column `lo`. -/
theorem transpose_row (N i : Nat) (hi : i < N) (n lo : Nat) (hlo : lo + n ≤ N)
    (m : Buf α) (r s : Nat) (hr : r < N) (hs : s < N) :
    ((List.range' lo n).foldl (fun mat j =>
        (mat.write (j * N + i) (mat (i * N + j))).write (i * N + j) (mat (j * N + i))) m)
      (r * N + s)
      = if (r = i ∧ lo ≤ s ∧ s < lo + n) ∨ (s = i ∧ lo ≤ r ∧ r < lo + n)
        then m (s * N + r) else m (r * N + s) := by
  induction n generalizing lo m with
  | zero =>
    simp only [List.range'_zero, List.foldl_nil]
    rw [if_neg (by omega)]
  | succ n ih =>
    have hloN : lo < N := by omega
    simp only [List.range'_succ, List.foldl_cons]
    rw [ih (lo + 1) (by omega)]
    simp only [swap_apply, idx_inj hs hloN, idx_inj hs hi, idx_inj hr hloN, idx_inj hr hi]
    split_ifs <;> first
      | rfl
      | (exfalso; omega)
      | exact congrArg₂ (fun x y => m (x * N + y)) (by omega) (by omega)

/-- After the first `I` rows of `transpose_matrix` every cell with a coordinate below
`I` has been exchanged with its mirror image. -/
theorem transpose_rows (N I : Nat) (hI : I ≤ N) (m : Buf α) (r s : Nat)
    (hr : r < N) (hs : s < N) :
    ((List.range I).foldl (fun mat i =>
        (List.range' i (N - i)).foldl (fun mat j =>
          (mat.write (j * N + i) (mat (i * N + j))).write (i * N + j) (mat (j * N + i)))
          mat) m) (r * N + s)
      = if r < I ∨ s < I then m (s * N + r) else m (r * N + s) := by
  induction I generalizing r s with
  | zero => simp
  | succ I ih =>
    rw [List.range_succ, List.foldl_append]
    simp only [List.foldl_cons, List.foldl_nil]
    rw [transpose_row N I (by omega) (N - I) I (by omega) _ r s hr hs]
    rw [ih (by omega) r s hr hs, ih (by omega) s r hs hr]
    split_ifs <;> first
      | rfl
      | (exfalso; omega)

theorem transpose_apply (N : Nat) (m : Buf α) (r s : Nat) (hr : r < N) (hs : s < N) :
    transpose_matrix N m (r * N + s) = m (s * N + r) := by
  have h := transpose_rows N N (Nat.le_refl N) m r s hr hs
  rw [if_pos (Or.inl hr)] at h
  exact h

theorem transpose_outside (N : Nat) (m : Buf α) (t : Nat) (ht : N * N ≤ t) :
    transpose_matrix N m t = m t := by
  unfold transpose_matrix forRange forFromTo
  apply foldl_frame
  intro i hi c
  apply foldl_frame
  intro j hj c
  have hi' : i < N := List.mem_range.1 hi
  have hj' : j < N := by
    have := List.mem_range'_1.1 hj
    omega
  have h1 := idx_lt hi' hj'
  have h2 := idx_lt hj' hi'
  simp only [write_apply]
  rw [if_neg (by omega), if_neg (by omega)]

theorem cell_decomp {N t : Nat} (ht : t < N * N) :
    t / N < N ∧ t % N < N ∧ t / N * N + t % N = t := by
  have hN : 0 < N := by
    rcases Nat.eq_zero_or_pos N with h | h
    · subst h; simp at ht
    · exact h
  refine ⟨Nat.div_lt_of_lt_mul ht, Nat.mod_lt _ hN, ?_⟩
  rw [Nat.mul_comm]
  exact Nat.div_add_mod t N

theorem transpose_twice (N : Nat) (m : Buf α) :
    transpose_matrix N (transpose_matrix N m) = m := by
  funext t
  by_cases ht : t < N * N
  · obtain ⟨hr, hs, e⟩ := cell_decomp ht
    rw [← e, transpose_apply N _ _ _ hr hs, transpose_apply N _ _ _ hs hr]
  · rw [transpose_outside N _ t (by omega), transpose_outside N _ t (by omega)]

end Transpose

/-! ## Tiles, strides and the register-blocked kernel -/

section Blocks
variable {α : Type}

theorem foldl_obs {ι σ β : Type} (L : List ι) (F : ι → σ → σ) (obs : σ → β)
    (g : ι → β → β) (hF : ∀ k ∈ L, ∀ s, obs (F k s) = g k (obs s)) (s : σ) :
    obs (L.foldl (fun s k => F k s) s) = L.foldl (fun v k => g k v) (obs s) := by
  induction L generalizing s with
  | nil => rfl
  | cons k L ih =>
    simp only [List.foldl_cons]
    rw [ih (fun k hk => hF k (List.mem_cons_of_mem _ hk)), hF k (List.mem_cons_self _ _)]

theorem forRange_obs {σ β : Type} (n : Nat) (F : Nat → σ → σ) (obs : σ → β)
    (g : Nat → β → β) (hF : ∀ k, k < n → ∀ s, obs (F k s) = g k (obs s)) (s : σ) :
    obs (forRange n F s) = (List.range n).foldl (fun v k => g k v) (obs s) :=
  foldl_obs (List.range n) F obs g (fun k hk => hF k (List.mem_range.1 hk)) s

/-- Filling a local array cell by cell. -/
theorem forRange_fill (n : Nat) (f : Nat → α) (m0 : Buf α) (t : Nat) :
    (forRange n (fun i m => m.write i (f i)) m0) t = if t < n then f t else m0 t := by
  unfold forRange
  rw [foldl_pointwise (List.range n) _ t (fun i v => if t = i then f i else v)
    (fun i _ c => rfl)]
  by_cases h : t < n
  · rw [if_pos h]
    exact foldl_single_hit (List.range n) (fun i => t = i) (fun i _ => f i) t
      (List.nodup_range n) (List.mem_range.2 h) rfl (fun k _ hh => hh.symm) _
  · rw [if_neg h]
    exact foldl_no_hit (List.range n) (fun i => t = i) (fun i _ => f i)
      (fun k hk hh => h (hh ▸ List.mem_range.1 hk)) _

/-- The double loop `cx[i][j] = u(i, j, cx[i][j])` over a `B × B` array of locals. -/
theorem acc_update (B i j : Nat) (hi : i < B) (hj : j < B) (u : Nat → Nat → α → α)
    (cx : Nat → Nat → α) :
    (forRange B (fun i' cx =>
        forRange B (fun j' cx => write2 cx i' j' (u i' j' (cx i' j'))) cx) cx) i j
      = u i j (cx i j) := by
  unfold forRange
  rw [foldl_obs (List.range B) _ (fun cx : Nat → Nat → α => cx i j)
    (fun i' v => if i = i' then u i' j v else v)]
  · exact foldl_single_hit (List.range B) (fun i' => i = i') (fun i' v => u i' j v) i
      (List.nodup_range B) (List.mem_range.2 hi) rfl (fun k _ hh => hh.symm) _
  · intro i' _ cx
    show (List.foldl _ cx (List.range B)) i j = _
    rw [foldl_obs (List.range B) _ (fun cx : Nat → Nat → α => cx i j)
      (fun j' v => if i = i' ∧ j = j' then u i' j' v else v)]
    · by_cases h : i = i'
      · subst h
        rw [if_pos rfl]
        exact foldl_single_hit (List.range B) (fun j' => i = i ∧ j = j')
          (fun j' v => u i j' v) j (List.nodup_range B) (List.mem_range.2 hj) ⟨rfl, rfl⟩
          (fun k _ hh => hh.2.symm) _
      · rw [if_neg h]
        exact foldl_no_hit (List.range B) (fun j' => i = i' ∧ j = j')
          (fun j' v => u i' j' v) (fun k _ hh => h hh.1) _
    · intro j' _ cx
      show write2 cx i' j' (u i' j' (cx i' j')) i j = _
      unfold write2
      by_cases h : i = i' ∧ j = j'
      · obtain ⟨h1, h2⟩ := h
        subst h1 h2
        simp
      · rw [if_neg h, if_neg h]

theorem kernel_cx_apply [Zero α] [Add α] [Mul α] (N B : Nat) (a b : Buf α)
    (x y K i j : Nat) (hi : i < B) (hj : j < B) :
    kernel_cx N B a b x y K i j
      = dotFrom K (fun k => a ((x + i) * N + k)) (fun k => b (k * N + y + j)) 0 := by
  unfold kernel_cx dotFrom
  refine forRange_obs K _ (fun cx : Nat → Nat → α => cx i j)
    (fun k v => v + a ((x + i) * N + k) * b (k * N + y + j)) ?_ _
  intro k _ cx
  show (forRange B _ cx) i j = _
  rw [acc_update B i j hi hj (fun i' j' v => v
    + (forRange B (fun i ax => ax.write i (a ((x + i) * N + k))) zeroBuf) i'
      * (forRange B (fun j bx => bx.write j (b (k * N + y + j))) zeroBuf) j') cx]
  rw [forRange_fill, forRange_fill, if_pos hi, if_pos hj]

/-- Storing a `B × B` tile of values at origin `(x, y)`. -/
theorem tile_store (N B x y : Nat) (hy : y + B ≤ N) (v : Nat → Nat → α) (c : Buf α)
    (r s : Nat) (hs : s < N) :
    (forRange B (fun i c =>
        forRange B (fun j c => c.write ((x + i) * N + y + j) (v i j)) c) c) (r * N + s)
      = if x ≤ r ∧ r < x + B ∧ y ≤ s ∧ s < y + B then v (r - x) (s - y)
        else c (r * N + s) := by
  unfold forRange
  rw [foldl_pointwise (List.range B) _ (r * N + s)
    (fun i val => if r = x + i ∧ y ≤ s ∧ s < y + B then v i (s - y) else val)]
  · by_cases h : x ≤ r ∧ r < x + B ∧ y ≤ s ∧ s < y + B
    · rw [if_pos h]
      exact foldl_single_hit (List.range B) (fun i => r = x + i ∧ y ≤ s ∧ s < y + B)
        (fun i _ => v i (s - y)) (r - x) (List.nodup_range B)
        (List.mem_range.2 (by omega)) (by omega) (fun k _ hh => by omega) _
    · rw [if_neg h]
      exact foldl_no_hit (List.range B) (fun i => r = x + i ∧ y ≤ s ∧ s < y + B)
        (fun i _ => v i (s - y))
        (fun k hk hh => h (by have := List.mem_range.1 hk; omega)) _
  · intro i _ c
    rw [foldl_pointwise (List.range B) _ (r * N + s)
      (fun j val => if r = x + i ∧ s = y + j then v i j else val)]
    · by_cases h : r = x + i ∧ y ≤ s ∧ s < y + B
      · rw [if_pos h]
        have hh := foldl_single_hit (List.range B) (fun j => r = x + i ∧ s = y + j)
          (fun j _ => v i j) (s - y) (List.nodup_range B)
          (List.mem_range.2 (by omega)) (by omega) (fun k _ hh => by omega) (c (r * N + s))
        exact hh
      · rw [if_neg h]
        exact foldl_no_hit (List.range B) (fun j => r = x + i ∧ s = y + j)
          (fun j _ => v i j)
          (fun k hk hh => h (by have := List.mem_range.1 hk; omega)) _
    · intro j hj c
      have hj' := List.mem_range.1 hj
      have e := @idx_inj N r s (x + i) (y + j) hs (by omega)
      rw [write_apply, Nat.add_assoc]
      by_cases h : r = x + i ∧ s = y + j
      · rw [if_pos (e.2 h), if_pos h]
      · rw [if_neg (fun hh => h (e.1 hh)), if_neg h]

theorem kernel_apply [Zero α] [Add α] [Mul α] (N B : Nat) (a b c : Buf α) (x y : Nat)
    (hy : y + B ≤ N) (r s : Nat) (hs : s < N) :
    kernel N B a b c x y (r * N + s)
      = if x ≤ r ∧ r < x + B ∧ y ≤ s ∧ s < y + B
        then dotFrom N (fun k => a (r * N + k)) (fun k => b (k * N + s)) 0
        else c (r * N + s) := by
  unfold kernel
  rw [tile_store N B x y hy _ c r s hs]
  by_cases h : x ≤ r ∧ r < x + B ∧ y ≤ s ∧ s < y + B
  · rw [if_pos h, if_pos h, kernel_cx_apply N B a b x y N _ _ (by omega) (by omega)]
    have e1 : x + (r - x) = r := by omega
    have e2 : ∀ k, k * N + y + (s - y) = k * N + s := fun k => by omega
    simp only [e1, e2]
  · rw [if_neg h, if_neg h]

/-! ### Loops with a stride -/

theorem foldlM_some {ι σ : Type} (L : List ι) (f : ι → σ → σ) (s : σ) :
    L.foldlM (fun s i => some (f i s)) s = some (L.foldl (fun s i => f i s) s) := by
  induction L generalizing s with
  | nil => rfl
  | cons k L ih =>
    rw [List.foldlM_cons, List.foldl_cons]
    exact ih _

theorem strideList_eq (n B : Nat) (hB : 0 < B) (hdiv : B ∣ n) :
    strideList n B = (List.range (n / B)).map (fun q => q * B) := by
  unfold strideList
  obtain ⟨m, rfl⟩ := hdiv
  have h1 : (B * m + B - 1) / B = m := by
    have : B * m + B - 1 = (B - 1) + B * m := by omega
    rw [this, Nat.add_mul_div_left _ _ hB, Nat.div_eq_of_lt (by omega)]
    omega
  rw [h1, Nat.mul_div_cancel_left m hB]

/-- A stride loop with a positive stride dividing the bound, whose body terminates, is
a loop over the tile numbers `q = 0 .. n/B - 1` at `i = q * B`. -/
theorem forStride_some {σ : Type} (n B : Nat) (hB : 0 < B) (hdiv : B ∣ n)
    (f : Nat → σ → σ) (s : σ) :
    forStride n B (fun i s => some (f i s)) s
      = some (forRange (n / B) (fun q s => f (q * B) s) s) := by
  unfold forStride forRange
  rw [if_neg (by omega), foldlM_some, strideList_eq n B hB hdiv, List.foldl_map]

theorem tile_end_le {n B q : Nat} (hq : q < n / B) : q * B + B ≤ n := by
  have h1 : (q + 1) * B ≤ n / B * B := Nat.mul_le_mul_right B hq
  have h2 := Nat.div_mul_le_self n B
  rw [Nat.add_mul, Nat.one_mul] at h1
  omega

theorem tile_hit_iff {B q r : Nat} (hB : 0 < B) :
    (q * B ≤ r ∧ r < q * B + B) ↔ q = r / B := by
  constructor
  · rintro ⟨h1, h2⟩
    have : r < (q + 1) * B := by rw [Nat.add_mul, Nat.one_mul]; exact h2
    exact (Nat.div_eq_of_lt_le h1 this).symm
  · rintro rfl
    exact ⟨Nat.div_mul_le_self r B, Nat.lt_div_mul_add hB⟩

theorem tile_index_lt {n B r : Nat} (hdiv : B ∣ n) (hr : r < n) :
    r / B < n / B := by
  apply Nat.div_lt_of_lt_mul
  rw [Nat.mul_div_cancel' hdiv]
  exact hr

theorem blocked_eq [Zero α] [Add α] [Mul α] (N B : Nat) (hB : 0 < B) (hdiv : B ∣ N)
    (a b c : Buf α) :
    blocked N B a b c
      = some (forRange (N / B) (fun qi c =>
          forRange (N / B) (fun qj c => kernel N B a b c (qi * B) (qj * B)) c) c) := by
  unfold blocked
  simp only [forStride_some N B hB hdiv]

/-- A doubly nested loop of which exactly iteration `(q1, q2)` touches the cell `t`. -/
theorem sweep_gen (n : Nat) (K : Buf α → Nat → Nat → Buf α) (t : Nat) (u : α → α)
    (q1 q2 : Nat) (h1 : q1 < n) (h2 : q2 < n)
    (hK : ∀ c qi qj, qi < n → qj < n →
      K c qi qj t = if qi = q1 ∧ qj = q2 then u (c t) else c t) (c : Buf α) :
    (forRange n (fun qi c => forRange n (fun qj c => K c qi qj) c) c) t = u (c t) := by
  rw [forRange_select n q1 h1 _ t (fun _ v => u v)]
  intro qi hqi c
  by_cases h : qi = q1
  · rw [if_pos h, forRange_select n q2 h2 _ t (fun _ v => u v)]
    intro qj hqj c
    rw [hK c qi qj hqi hqj]
    by_cases h' : qj = q2
    · rw [if_pos ⟨h, h'⟩, if_pos h']
    · rw [if_neg (fun hh => h' hh.2), if_neg h']
  · rw [if_neg h]
    apply forRange_frame
    intro qj hqj c
    rw [hK c qi qj hqi hqj, if_neg (fun hh => h hh.1)]

/-- Sweeping a tile-local overwrite `K` over all tiles gives every cell the value that
its own tile computes for it. -/
theorem sweep_apply (N B : Nat) (hB : 0 < B) (hdiv : B ∣ N) (K : Buf α → Nat → Nat → Buf α)
    (P : Nat → Nat → α) (hK : ∀ c qi qj r s, qi < N / B → qj < N / B → r < N → s < N →
      K c (qi * B) (qj * B) (r * N + s)
        = if qi * B ≤ r ∧ r < qi * B + B ∧ qj * B ≤ s ∧ s < qj * B + B then P r s
          else c (r * N + s))
    (c : Buf α) (r s : Nat) (hr : r < N) (hs : s < N) :
    (forRange (N / B) (fun qi c =>
        forRange (N / B) (fun qj c => K c (qi * B) (qj * B)) c) c) (r * N + s) = P r s := by
  rw [forRange_select (N / B) (r / B) (tile_index_lt hdiv hr) _ (r * N + s)
    (fun _ _ => P r s)]
  intro qi hqi c
  by_cases h : qi = r / B
  · rw [if_pos h]
    rw [forRange_select (N / B) (s / B) (tile_index_lt hdiv hs) _ (r * N + s)
      (fun _ _ => P r s)]
    intro qj hqj c
    rw [hK c qi qj r s hqi hqj hr hs]
    have h1 := (tile_hit_iff (q := qi) (r := r) hB)
    have h2 := (tile_hit_iff (q := qj) (r := s) hB)
    by_cases h' : qj = s / B
    · rw [if_pos h', if_pos ⟨(h1.2 h).1, (h1.2 h).2, (h2.2 h').1, (h2.2 h').2⟩]
    · rw [if_neg h', if_neg (fun hh => h' (h2.1 ⟨hh.2.2.1, hh.2.2.2⟩))]
  · rw [if_neg h]
    apply forRange_frame
    intro qj hqj c
    rw [hK c qi qj r s hqi hqj hr hs]
    have h1 := (tile_hit_iff (q := qi) (r := r) hB)
    rw [if_neg (fun hh => h (h1.1 ⟨hh.1, hh.2.1⟩))]

theorem blocked_apply [Zero α] [Add α] [Mul α] (N B : Nat) (hB : 0 < B) (hdiv : B ∣ N)
    (a b c : Buf α) :
    ∃ c', blocked N B a b c = some c' ∧ ∀ r s, r < N → s < N →
      c' (r * N + s) = dotFrom N (fun k => a (r * N + k)) (fun k => b (k * N + s)) 0 := by
  refine ⟨_, blocked_eq N B hB hdiv a b c, ?_⟩
  intro r s hr hs
  exact sweep_apply N B hB hdiv (fun c x y => kernel N B a b c x y)
    (fun r s => dotFrom N (fun k => a (r * N + k)) (fun k => b (k * N + s)) 0)
    (fun c qi qj r s _ hqj _ hs =>
      kernel_apply N B a b c (qi * B) (qj * B) (tile_end_le hqj) r s hs)
    c r s hr hs

end Blocks

/-! ## Registers, packing and unpacking -/

section Pack
variable {α : Type}

theorem store_apply (m : Buf α) (p : Nat) (v : Vec8 α) (t : Nat) :
    _mm256_store_ps m p v t = if p ≤ t ∧ t < p + 8 then v.lane (t - p) else m t := by
  unfold _mm256_store_ps Vec8.lane
  by_cases h : p ≤ t ∧ t < p + 8
  · rw [dif_pos h, if_pos h]
    congr 1
    apply Fin.ext
    show t - p = (t - p) % 8
    rw [Nat.mod_eq_of_lt (by omega)]
  · rw [dif_neg h, if_neg h]

theorem load_lane (m : Buf α) (p l : Nat) (hl : l < 8) :
    (_mm256_load_ps m p).lane l = m (p + l) := by
  unfold _mm256_load_ps Vec8.lane
  show m (p + l % 8) = m (p + l)
  rw [Nat.mod_eq_of_lt hl]

theorem store_hit {N R y r s : Nat} (hy : y + 8 ≤ N) (hs : s < N) :
    (R * N + y ≤ r * N + s ∧ r * N + s < R * N + y + 8) ↔ (r = R ∧ y ≤ s ∧ s < y + 8) := by
  constructor
  · rintro ⟨h1, h2⟩
    have e : r * N + s = R * N + (y + (r * N + s - (R * N + y))) := by omega
    have h3 := (idx_inj hs (by omega)).1 e
    omega
  · rintro ⟨rfl, h1, h2⟩
    omega

/-- The eight stores of `unpack_from_vecs` are a loop over the rows of the tile. -/
theorem unpack_eq_loop (N : Nat) (dst : Buf α) (frm : Buf (Vec8 α)) (x y : Nat) :
    unpack_from_vecs N dst frm x y
      = forRange 8 (fun i dst => _mm256_store_ps dst (x * N + y + i * N) (frm i)) dst :=
  rfl

theorem unpack_apply (N : Nat) (dst : Buf α) (frm : Buf (Vec8 α)) (x y : Nat)
    (hy : y + 8 ≤ N) (r s : Nat) (hs : s < N) :
    unpack_from_vecs N dst frm x y (r * N + s)
      = if x ≤ r ∧ r < x + 8 ∧ y ≤ s ∧ s < y + 8 then (frm (r - x)).lane (s - y)
        else dst (r * N + s) := by
  rw [unpack_eq_loop]
  unfold forRange
  rw [foldl_pointwise (List.range 8) _ (r * N + s)
    (fun i val => if r = x + i ∧ y ≤ s ∧ s < y + 8 then (frm i).lane (s - y) else val)]
  · by_cases h : x ≤ r ∧ r < x + 8 ∧ y ≤ s ∧ s < y + 8
    · rw [if_pos h]
      exact foldl_single_hit (List.range 8) (fun i => r = x + i ∧ y ≤ s ∧ s < y + 8)
        (fun i _ => (frm i).lane (s - y)) (r - x) (List.nodup_range 8)
        (List.mem_range.2 (by omega)) (by omega) (fun k _ hh => by omega) _
    · rw [if_neg h]
      exact foldl_no_hit (List.range 8) (fun i => r = x + i ∧ y ≤ s ∧ s < y + 8)
        (fun i _ => (frm i).lane (s - y))
        (fun k hk hh => h (by have := List.mem_range.1 hk; omega)) _
  · intro i _ c
    have e : x * N + y + i * N = (x + i) * N + y := by rw [Nat.add_mul]; omega
    have hh := @store_hit N (x + i) y r s hy hs
    rw [store_apply, e]
    by_cases h : r = x + i ∧ y ≤ s ∧ s < y + 8
    · rw [if_pos (hh.2 h), if_pos h]
      congr 1
      obtain ⟨h1, _, _⟩ := h
      subst h1
      omega
    · rw [if_neg (fun h' => h (hh.1 h')), if_neg h]

theorem pack_apply (N B : Nat) (dst frm : Buf α) (x y i j : Nat) (hi : i < B) (hj : j < B) :
    pack N B dst frm x y (i * B + j) = frm ((x + i) * N + (y + j)) := by
  unfold pack
  rw [forRange_select B i hi _ (i * B + j) (fun i' _ => frm ((x + i') * N + (y + j)))]
  intro i' _ c
  exact forRange_rowUpdate B i' i j hj (fun k _ => frm ((x + i') * N + (y + k))) c

/-- The eight loads of `pack_into_vecs`, register by register. -/
theorem pack_into_vecs_reg [Zero α] (N : Nat) (dst : Buf (Vec8 α)) (src : Buf α)
    (x y i : Nat) (hi : i < 8) :
    pack_into_vecs N dst src x y i = _mm256_load_ps (pack N 8 zeroBuf src x y) (i * 8) := by
  unfold pack_into_vecs
  interval_cases i <;> rfl

theorem pack_into_vecs_lane [Zero α] (N : Nat) (dst : Buf (Vec8 α)) (src : Buf α)
    (x y i l : Nat) (hi : i < 8) (hl : l < 8) :
    (pack_into_vecs N dst src x y i).lane l = src ((x + i) * N + (y + l)) := by
  rw [pack_into_vecs_reg N dst src x y i hi, load_lane _ _ _ hl,
    pack_apply N 8 _ src x y i l hi hl]

/-- Packing a tile into registers and unpacking it at the same origin. -/
theorem unpack_pack_apply [Zero α] (N : Nat) (dst : Buf (Vec8 α)) (m tgt : Buf α)
    (x y : Nat) (hy : y + 8 ≤ N) (r s : Nat) (hs : s < N) :
    unpack_from_vecs N tgt (pack_into_vecs N dst m x y) x y (r * N + s)
      = if x ≤ r ∧ r < x + 8 ∧ y ≤ s ∧ s < y + 8 then m (r * N + s)
        else tgt (r * N + s) := by
  rw [unpack_apply N tgt _ x y hy r s hs]
  by_cases h : x ≤ r ∧ r < x + 8 ∧ y ≤ s ∧ s < y + 8
  · rw [if_pos h, if_pos h,
      pack_into_vecs_lane N dst m x y (r - x) (s - y) (by omega) (by omega)]
    have e1 : x + (r - x) = r := by omega
    have e2 : y + (s - y) = s := by omega
    rw [e1, e2]
  · rw [if_neg h, if_neg h]

theorem flat_decomp (N t : Nat) (hN : 0 < N) : t / N * N + t % N = t ∧ t % N < N := by
  refine ⟨?_, Nat.mod_lt _ hN⟩
  rw [Nat.mul_comm]
  exact Nat.div_add_mod t N

theorem write_same {β : Type} (m : Buf β) (p : Nat) (v : β) : m.write p v p = v :=
  if_pos rfl

theorem write_other {β : Type} (m : Buf β) (p t : Nat) (v : β) (h : t ≠ p) :
    m.write p v t = m t :=
  if_neg h

theorem fmadd_lane [Add α] [Mul α] (u v w : Vec8 α) (l : Nat) :
    (_mm256_fmadd_ps u v w).lane l = u.lane l * v.lane l + w.lane l := rfl

theorem broadcast_lane (u : α) (l : Nat) : (_mm256_broadcast_ss u).lane l = u := rfl

theorem init_cv_lane [Zero α] (i l : Nat) :
    ((kernel_8x8_init : Regs α).cv i).lane l = 0 := by
  have h : (kernel_8x8_init : Regs α).cv i = _mm256_setzero_ps := by
    unfold kernel_8x8_init
    simp only [write_apply, noVecs]
    split_ifs <;> rfl
  rw [h]
  rfl

end Pack

/-! ## Exact arithmetic -/

section Exact
variable {α : Type} [CommSemiring α]

theorem dotFrom_eq_sum (n : Nat) (x y : Nat → α) (v : α) :
    dotFrom n x y v = v + ∑ j ∈ Finset.range n, x j * y j := by
  unfold dotFrom
  induction n with
  | zero => simp
  | succ n ih =>
    rw [List.range_succ, List.foldl_append, ih, Finset.sum_range_succ]
    simp [add_assoc]

theorem baseline_exact (N : Nat) (a b c : Buf α) (i k : Nat) (hi : i < N) (hk : k < N) :
    baseline N a b c (i * N + k)
      = c (i * N + k) + ∑ j ∈ Finset.range N, a (i * N + j) * b (j * N + k) := by
  rw [baseline_apply N a b c i k hi hk, dotFrom_eq_sum]

theorem foldl_add_eq_sum (n : Nat) (f : Nat → α) (v : α) :
    (List.range n).foldl (fun v k => v + f k) v = v + ∑ k ∈ Finset.range n, f k := by
  induction n with
  | zero => simp
  | succ n ih =>
    rw [List.range_succ, List.foldl_append, ih, Finset.sum_range_succ]
    simp [add_assoc]

/-- Summing chunk by chunk, eight terms per chunk. -/
theorem sum_chunks (m : Nat) (f : Nat → α) :
    ∑ q ∈ Finset.range m, ∑ r ∈ Finset.range 8, f (q * 8 + r)
      = ∑ k ∈ Finset.range (m * 8), f k := by
  induction m with
  | zero => simp
  | succ m ih =>
    rw [Finset.sum_range_succ, ih, Nat.add_mul, Nat.one_mul, Finset.sum_range_add]

/-- One reduction chunk of `kernel_8x8` adds, in lane `l` of `cv[i]`, the eight products
of row `x + i` of `a`, columns `zz .. zz+7`, with rows `zz .. zz+7` of `b`, column
`y + l`. -/
theorem step_cv_lane (N : Nat) (a b : Buf α) (x y zz : Nat) (s : Regs α) (i l : Nat)
    (hi : i < 8) (hl : l < 8) :
    ((kernel_8x8_step N a b x y zz s).cv i).lane l
      = (s.cv i).lane l
        + ∑ r ∈ Finset.range 8, a ((x + i) * N + (zz + r)) * b ((zz + r) * N + (y + l)) := by
  simp only [kernel_8x8_step]
  rw [forRange_obs 8 _ (fun cv : Buf (Vec8 α) => (cv i).lane l)
    (fun i' v => if i' = i then v + ∑ r ∈ Finset.range 8,
      a ((x + i) * N + (zz + r)) * b ((zz + r) * N + (y + l)) else v)]
  · exact foldl_single_hit (List.range 8) (fun i' => i' = i)
      (fun _ v => v + ∑ r ∈ Finset.range 8,
        a ((x + i) * N + (zz + r)) * b ((zz + r) * N + (y + l))) i
      (List.nodup_range 8) (List.mem_range.2 hi) rfl (fun k _ hh => hh) _
  · intro i' _ cv
    by_cases h : i' = i
    · subst h
      rw [if_pos rfl]
      simp only [write_same, fmadd_lane, broadcast_lane]
      rw [pack_apply N 8 _ a x zz i' 0 hi (by decide),
        pack_apply N 8 _ a x zz i' 1 hi (by decide),
        pack_apply N 8 _ a x zz i' 2 hi (by decide),
        pack_apply N 8 _ a x zz i' 3 hi (by decide),
        pack_apply N 8 _ a x zz i' 4 hi (by decide),
        pack_apply N 8 _ a x zz i' 5 hi (by decide),
        pack_apply N 8 _ a x zz i' 6 hi (by decide),
        pack_apply N 8 _ a x zz i' 7 hi (by decide),
        pack_into_vecs_lane N _ b zz y 0 l (by decide) hl,
        pack_into_vecs_lane N _ b zz y 1 l (by decide) hl,
        pack_into_vecs_lane N _ b zz y 2 l (by decide) hl,
        pack_into_vecs_lane N _ b zz y 3 l (by decide) hl,
        pack_into_vecs_lane N _ b zz y 4 l (by decide) hl,
        pack_into_vecs_lane N _ b zz y 5 l (by decide) hl,
        pack_into_vecs_lane N _ b zz y 6 l (by decide) hl,
        pack_into_vecs_lane N _ b zz y 7 l (by decide) hl]
      simp only [Finset.sum_range_succ, Finset.sum_range_zero]
      ring
    · rw [if_neg h]
      have h' : i ≠ i' := fun e => h e.symm
      simp only [write_other _ _ _ _ h']

theorem kernel_8x8_eq (N B : Nat) (hB : 0 < B) (hdiv : B ∣ N) (a b c : Buf α)
    (x y : Nat) :
    kernel_8x8 N B a b c x y
      = some (unpack_from_vecs N c
          (forRange (N / B) (fun q s => kernel_8x8_step N a b x y (q * B) s)
            kernel_8x8_init).cv x y) := by
  unfold kernel_8x8
  rw [forStride_some N B hB hdiv]
  rfl

/-- The accumulators of `kernel_8x8` after `m` reduction chunks of stride `B`. -/
theorem kernel_8x8_cv_lane (N B m : Nat) (a b : Buf α) (x y i l : Nat)
    (hi : i < 8) (hl : l < 8) :
    ((forRange m (fun q s => kernel_8x8_step N a b x y (q * B) s) kernel_8x8_init).cv
        i).lane l
      = ∑ q ∈ Finset.range m, ∑ r ∈ Finset.range 8,
          a ((x + i) * N + (q * B + r)) * b ((q * B + r) * N + (y + l)) := by
  rw [forRange_obs m _ (fun s : Regs α => (s.cv i).lane l)
    (fun q v => v + ∑ r ∈ Finset.range 8,
      a ((x + i) * N + (q * B + r)) * b ((q * B + r) * N + (y + l)))
    (fun q _ s => step_cv_lane N a b x y (q * B) s i l hi hl)]
  rw [foldl_add_eq_sum, init_cv_lane, zero_add]

/-- What `kernel_8x8<N, B>` leaves in `c`: inside the 8×8 tile at `(x, y)` the products
of the columns `q*B .. q*B+7` of `a` only, for each chunk start `q*B < N`; outside the
tile the old contents. -/
theorem kernel_8x8_apply (N B : Nat) (hB : 0 < B) (hdiv : B ∣ N) (a b c : Buf α)
    (x y : Nat) (hy : y + 8 ≤ N) :
    ∃ c', kernel_8x8 N B a b c x y = some c' ∧ ∀ r s, s < N →
      c' (r * N + s)
        = if x ≤ r ∧ r < x + 8 ∧ y ≤ s ∧ s < y + 8
          then ∑ q ∈ Finset.range (N / B), ∑ k ∈ Finset.range 8,
            a (r * N + (q * B + k)) * b ((q * B + k) * N + s)
          else c (r * N + s) := by
  refine ⟨_, kernel_8x8_eq N B hB hdiv a b c x y, ?_⟩
  intro r s hs
  rw [unpack_apply N c _ x y hy r s hs]
  by_cases h : x ≤ r ∧ r < x + 8 ∧ y ≤ s ∧ s < y + 8
  · rw [if_pos h, if_pos h,
      kernel_8x8_cv_lane N B (N / B) a b x y (r - x) (s - y) (by omega) (by omega)]
    have e1 : x + (r - x) = r := by omega
    have e2 : y + (s - y) = s := by omega
    rw [e1, e2]
  · rw [if_neg h, if_neg h]

/-- With chunk stride 8 the chunks tile the whole reduction dimension. -/
theorem kernel_8x8_apply8 (N : Nat) (hdiv : 8 ∣ N) (a b c : Buf α)
    (x y : Nat) (hy : y + 8 ≤ N) :
    ∃ c', kernel_8x8 N 8 a b c x y = some c' ∧ ∀ r s, s < N →
      c' (r * N + s)
        = if x ≤ r ∧ r < x + 8 ∧ y ≤ s ∧ s < y + 8
          then ∑ k ∈ Finset.range N, a (r * N + k) * b (k * N + s)
          else c (r * N + s) := by
  obtain ⟨c', h1, h2⟩ := kernel_8x8_apply N 8 (by decide) hdiv a b c x y hy
  refine ⟨c', h1, ?_⟩
  intro r s hs
  rw [h2 r s hs, sum_chunks (N / 8) (fun k => a (r * N + k) * b (k * N + s)),
    Nat.div_mul_cancel hdiv]

theorem blocked3_apply8 (N : Nat) (hdiv : 8 ∣ N) (a b c : Buf α) :
    ∃ c', blocked3 N 8 a b c = some c' ∧ ∀ r s, r < N → s < N →
      c' (r * N + s) = ∑ k ∈ Finset.range N, a (r * N + k) * b (k * N + s) := by
  have hB : 0 < 8 := by decide
  refine ⟨forRange (N / 8) (fun qi c => forRange (N / 8) (fun qj c =>
      unpack_from_vecs N c
        (forRange (N / 8) (fun q s => kernel_8x8_step N a b (qi * 8) (qj * 8) (q * 8) s)
          kernel_8x8_init).cv (qi * 8) (qj * 8)) c) c, ?_, ?_⟩
  · unfold blocked3
    simp only [kernel_8x8_eq N 8 hB hdiv, forStride_some N 8 hB hdiv]
  · intro r s hr hs
    refine sweep_apply N 8 hB hdiv
      (fun c x y => unpack_from_vecs N c
        (forRange (N / 8) (fun q s => kernel_8x8_step N a b x y (q * 8) s)
          kernel_8x8_init).cv x y)
      (fun r s => ∑ k ∈ Finset.range N, a (r * N + k) * b (k * N + s)) ?_ c r s hr hs
    intro c qi qj r s _ hqj _ hs
    obtain ⟨c', h1, h2⟩ := kernel_8x8_apply8 N hdiv a b c (qi * 8) (qj * 8) (tile_end_le hqj)
    rw [kernel_8x8_eq N 8 hB hdiv] at h1
    have h3 := Option.some.inj h1
    have h4 := h2 r s hs
    rw [← h3] at h4
    exact h4

/-! ### Vectorised dot products -/

/-- The terms of a sum whose index is congruent to `l` modulo 8. -/
theorem lane_sum_mod (m l : Nat) (hl : l < 8) (f : Nat → α) :
    ∑ q ∈ Finset.range m, f (q * 8 + l)
      = ∑ j ∈ (Finset.range (m * 8)).filter (fun j => j % 8 = l), f j := by
  rw [Finset.sum_filter, ← sum_chunks m (fun j => if j % 8 = l then f j else 0)]
  apply Finset.sum_congr rfl
  intro q _
  have h : ∀ r ∈ Finset.range 8,
      (if (q * 8 + r) % 8 = l then f (q * 8 + r) else 0)
        = if r = l then f (q * 8 + r) else 0 := by
    intro r hr
    have hr' := Finset.mem_range.1 hr
    have e : (q * 8 + r) % 8 = r := by omega
    rw [e]
  rw [Finset.sum_congr rfl h, Finset.sum_ite_eq', if_pos (Finset.mem_range.2 hl)]

/-- Lane `l` of the accumulator `ans` after the reduction loop. -/
theorem simd_ans_lane (N : Nat) (hdiv : 8 ∣ N) (a b : Buf α) (pa pb l : Nat) (hl : l < 8) :
    (simd_ans N a b pa pb).lane l
      = ∑ q ∈ Finset.range (N / 8), a (pa + (q * 8 + l)) * b (pb + (q * 8 + l)) := by
  unfold simd_ans
  rw [strideList_eq N 8 (by decide) hdiv, List.foldl_map]
  rw [foldl_obs (List.range (N / 8)) _ (fun v : Vec8 α => v.lane l)
    (fun q v => v + a (pa + (q * 8 + l)) * b (pb + (q * 8 + l)))]
  · rw [foldl_add_eq_sum]
    show (0 : α) + _ = _
    rw [zero_add]
  · intro q _ v
    show (_mm256_fmadd_ps _ _ v).lane l = _
    rw [fmadd_lane, load_lane _ _ _ hl, load_lane _ _ _ hl, add_comm, Nat.add_assoc,
      Nat.add_assoc]

/-- Summing the eight lanes gives the whole dot product. -/
theorem simd_ans_hsum (N : Nat) (hdiv : 8 ∣ N) (a b : Buf α) (pa pb : Nat) :
    ∑ l ∈ Finset.range 8, (simd_ans N a b pa pb).lane l
      = ∑ j ∈ Finset.range N, a (pa + j) * b (pb + j) := by
  have h : ∀ l ∈ Finset.range 8, (simd_ans N a b pa pb).lane l
      = ∑ q ∈ Finset.range (N / 8), a (pa + (q * 8 + l)) * b (pb + (q * 8 + l)) :=
    fun l hl => simd_ans_lane N hdiv a b pa pb l (Finset.mem_range.1 hl)
  rw [Finset.sum_congr rfl h, Finset.sum_comm,
    sum_chunks (N / 8) (fun j => a (pa + j) * b (pb + j)), Nat.div_mul_cancel hdiv]

theorem simd_cell_apply (N : Nat) (a b : Buf α) (i k : Nat) (c : Buf α) (t : Nat) :
    simd_cell N a b i k c t
      = if t = i * N + k
        then c t + ∑ l ∈ Finset.range 8, (simd_ans N a b (i * N) (k * N)).lane l
        else c t := by
  unfold simd_cell
  rw [forRange_cellUpdate 8 (i * N + k) t
    (fun x v => v + _mm256_store_ps zeroBuf 0 (simd_ans N a b (i * N) (k * N)) x) c]
  rw [foldl_add_eq_sum]
  have h : ∀ x ∈ Finset.range 8,
      _mm256_store_ps zeroBuf 0 (simd_ans N a b (i * N) (k * N)) x
        = (simd_ans N a b (i * N) (k * N)).lane x := by
    intro x hx
    have hx' := Finset.mem_range.1 hx
    rw [store_apply, if_pos (by omega)]
    rfl
  rw [Finset.sum_congr rfl h]

theorem transpose_simd_apply (N : Nat) (a b c : Buf α) (r s : Nat)
    (hr : r < N) (hs : s < N) :
    transpose_simd N a b c (r * N + s)
      = c (r * N + s)
        + ∑ l ∈ Finset.range 8, (simd_ans N a b (r * N) (s * N)).lane l := by
  unfold transpose_simd
  rw [forRange_select N r hr _ (r * N + s)
    (fun _ v => v + ∑ l ∈ Finset.range 8, (simd_ans N a b (r * N) (s * N)).lane l)]
  intro i _ c
  by_cases hi : i = r
  · subst hi
    rw [if_pos rfl]
    rw [forRange_select N s hs _ (i * N + s)
      (fun _ v => v + ∑ l ∈ Finset.range 8, (simd_ans N a b (i * N) (s * N)).lane l)]
    intro k hk c
    rw [simd_cell_apply]
    by_cases hks : k = s
    · subst hks
      rw [if_pos rfl, if_pos rfl]
    · rw [if_neg hks, if_neg (fun h => hks ((idx_inj hs hk).1 h).2.symm)]
  · rw [if_neg hi]
    apply forRange_frame
    intro k hk c
    rw [simd_cell_apply, if_neg (fun h => hi ((idx_inj hs hk).1 h).1.symm)]

/-! ### The parallel kernel -/

theorem mem_tileIters (v h : Nat) (rc : Nat × Nat) :
    rc ∈ tileIters v h ↔ (v ≤ rc.1 ∧ rc.1 < v + 32) ∧ (h ≤ rc.2 ∧ rc.2 < h + 32) := by
  obtain ⟨r, c⟩ := rc
  have e : tileIters v h = List.product (List.range' v 32) (List.range' h 32) := rfl
  rw [e]
  refine Iff.trans List.mem_product ?_
  rw [List.mem_range'_1, List.mem_range'_1]

theorem nodup_tileIters (v h : Nat) : (tileIters v h).Nodup := by
  have e : tileIters v h = List.product (List.range' v 32) (List.range' h 32) := rfl
  rw [e]
  exact List.Nodup.product (List.nodup_range' v 32) (List.nodup_range' h 32)

/-- One tile of the parallel kernel, its iterations taken in any arrangement `L`. -/
theorem par_tile_apply (N : Nat) (a b : Buf α) (v h : Nat) (L : List (Nat × Nat))
    (hL : L.Perm (tileIters v h)) (hh : h + 32 ≤ N) (c : Buf α) (r s : Nat) (hs : s < N) :
    (L.foldl (fun c rc => simd_cell N a b rc.1 rc.2 c) c) (r * N + s)
      = if (v ≤ r ∧ r < v + 32) ∧ (h ≤ s ∧ s < h + 32)
        then c (r * N + s)
          + ∑ l ∈ Finset.range 8, (simd_ans N a b (r * N) (s * N)).lane l
        else c (r * N + s) := by
  rw [foldl_pointwise L (fun rc c => simd_cell N a b rc.1 rc.2 c) (r * N + s)
    (fun rc val => if r * N + s = rc.1 * N + rc.2
      then val + ∑ l ∈ Finset.range 8, (simd_ans N a b (rc.1 * N) (rc.2 * N)).lane l
      else val)
    (fun rc _ c => simd_cell_apply N a b rc.1 rc.2 c (r * N + s))]
  have hmem : ∀ rc, rc ∈ L → r * N + s = rc.1 * N + rc.2 → rc = (r, s) := by
    intro rc hrc e
    have h1 := (mem_tileIters v h rc).1 (hL.mem_iff.1 hrc)
    have h2 := (idx_inj hs (by omega : rc.2 < N)).1 e
    exact Prod.ext h2.1.symm h2.2.symm
  by_cases hin : (v ≤ r ∧ r < v + 32) ∧ (h ≤ s ∧ s < h + 32)
  · rw [if_pos hin]
    exact foldl_single_hit L (fun rc => r * N + s = rc.1 * N + rc.2)
      (fun rc val =>
        val + ∑ l ∈ Finset.range 8, (simd_ans N a b (rc.1 * N) (rc.2 * N)).lane l)
      (r, s) (hL.nodup_iff.2 (nodup_tileIters v h))
      (hL.mem_iff.2 ((mem_tileIters v h (r, s)).2 hin)) rfl hmem _
  · rw [if_neg hin]
    refine foldl_no_hit L (fun rc => r * N + s = rc.1 * N + rc.2) _ ?_ _
    intro rc hrc e
    have h1 := (mem_tileIters v h rc).1 (hL.mem_iff.1 hrc)
    have h2 := hmem rc hrc e
    subst h2
    exact hin h1

theorem parallel_apply (N : Nat) (hdiv : 32 ∣ N) (sched : Nat → Nat → List (Nat × Nat))
    (hsched : ∀ h v, (sched h v).Perm (tileIters v h)) (a b c : Buf α) (r s : Nat)
    (hr : r < N) (hs : s < N) :
    parallel_tranposed_simd sched N a b c (r * N + s)
      = c (r * N + s)
        + ∑ l ∈ Finset.range 8, (simd_ans N a b (r * N) (s * N)).lane l := by
  have hB : 0 < 32 := by decide
  unfold parallel_tranposed_simd BLOCK_SIZE
  rw [strideList_eq N 32 hB hdiv]
  simp only [List.foldl_map]
  refine sweep_gen (N / 32)
    (fun c qh qv =>
      (sched (qh * 32) (qv * 32)).foldl (fun c rc => simd_cell N a b rc.1 rc.2 c) c)
    (r * N + s)
    (fun v => v + ∑ l ∈ Finset.range 8, (simd_ans N a b (r * N) (s * N)).lane l)
    (s / 32) (r / 32) (tile_index_lt hdiv hs) (tile_index_lt hdiv hr) ?_ c
  intro c qh qv hqh _
  show (List.foldl _ c (sched (qh * 32) (qv * 32))) (r * N + s) = _
  rw [par_tile_apply N a b (qv * 32) (qh * 32) _ (hsched _ _) (tile_end_le hqh) c r s hs]
  have h1 := @tile_hit_iff 32 qh s hB
  have h2 := @tile_hit_iff 32 qv r hB
  by_cases hc : qh = s / 32 ∧ qv = r / 32
  · rw [if_pos hc, if_pos ⟨h2.2 hc.2, h1.2 hc.1⟩]
  · rw [if_neg hc, if_neg (fun hh => hc ⟨h1.1 hh.2, h2.1 hh.1⟩)]

end Exact

/-! ## `baseline` on one address space -/

section Mem
variable {α : Type}

theorem foldl_sim {ι σ τ : Type} (L : List ι) (R : σ → τ → Prop) (F : ι → σ → σ)
    (G : ι → τ → τ) (h : ∀ k ∈ L, ∀ s t, R s t → R (F k s) (G k t)) (s : σ) (t : τ)
    (hR : R s t) : R (L.foldl (fun s k => F k s) s) (L.foldl (fun t k => G k t) t) := by
  induction L generalizing s t with
  | nil => exact hR
  | cons k L ih =>
    simp only [List.foldl_cons]
    exact ih (fun k hk => h k (List.mem_cons_of_mem _ hk)) _ _
      (h k (List.mem_cons_self _ _) s t hR)

/-- The address space `mem` with the block at `pc` replaced by the buffer `c`. -/
theorem baseline_mem_sim [Add α] [Mul α] (N pa pb pc : Nat) (mem : Buf α)
    (hca : apart pc pa (N * N)) (hcb : apart pc pb (N * N)) :
    ∀ t, baseline_mem N pa pb pc mem t
      = if pc ≤ t ∧ t < pc + N * N
        then baseline N (block mem pa) (block mem pb) (block mem pc) (t - pc)
        else mem t := by
  have key := foldl_sim (List.range N)
    (fun (m : Buf α) (c : Buf α) =>
      ∀ t, m t = if pc ≤ t ∧ t < pc + N * N then c (t - pc) else mem t)
    (fun i mem =>
      forRange N (fun j mem =>
        forRange N (fun k mem =>
          mem.write (pc + (i * N + k))
            (mem (pc + (i * N + k)) + mem (pa + (i * N + j)) * mem (pb + (j * N + k))))
          mem) mem)
    (fun i c =>
      forRange N (fun j c =>
        forRange N (fun k c =>
          c.write (i * N + k)
            (c (i * N + k) + block mem pa (i * N + j) * block mem pb (j * N + k))) c) c)
    ?_ mem (block mem pc) ?_
  · exact key
  · intro i hi m c hR
    refine foldl_sim (List.range N)
      (fun (m : Buf α) (c : Buf α) =>
        ∀ t, m t = if pc ≤ t ∧ t < pc + N * N then c (t - pc) else mem t) _ _ ?_ m c hR
    intro j hj m c hR
    refine foldl_sim (List.range N)
      (fun (m : Buf α) (c : Buf α) =>
        ∀ t, m t = if pc ≤ t ∧ t < pc + N * N then c (t - pc) else mem t) _ _ ?_ m c hR
    intro k hk m c hR t
    have hi' := List.mem_range.1 hi
    have hj' := List.mem_range.1 hj
    have hk' := List.mem_range.1 hk
    have h1 := idx_lt hi' hk'
    have h2 := idx_lt hi' hj'
    have h3 := idx_lt hj' hk'
    unfold apart at hca hcb
    have e1 : m (pc + (i * N + k)) = c (i * N + k) := by
      rw [hR, if_pos (by omega)]
      congr 1
      omega
    have e2 : m (pa + (i * N + j)) = mem (pa + (i * N + j)) := by
      rw [hR, if_neg (by omega)]
    have e3 : m (pb + (j * N + k)) = mem (pb + (j * N + k)) := by
      rw [hR, if_neg (by omega)]
    simp only [write_apply, block]
    rw [e1, e2, e3, hR t]
    by_cases ht : t = pc + (i * N + k)
    · subst ht
      rw [if_pos rfl, if_pos (by omega), if_pos (by omega)]
    · rw [if_neg ht]
      by_cases hin : pc ≤ t ∧ t < pc + N * N
      · rw [if_pos hin, if_pos hin, if_neg (by omega)]
      · rw [if_neg hin, if_neg hin]
  · intro t
    by_cases hin : pc ≤ t ∧ t < pc + N * N
    · rw [if_pos hin]
      unfold block
      congr 1
      omega
    · rw [if_neg hin]

end Mem

/-! ## Transposed packing -/

section PackT
variable {α : Type}

theorem pack_transpose_apply (N B : Nat) (dst frm : Buf α) (x y i j : Nat)
    (hi : i < B) (hj : j < B) :
    pack_transpose N B dst frm x y (j * B + i) = frm ((x + i) * N + (y + j)) := by
  unfold pack_transpose
  rw [forRange_select B i hi _ (j * B + i) (fun i' _ => frm ((x + i') * N + (y + j)))]
  intro i' hi' c
  unfold forRange
  rw [foldl_pointwise (List.range B) _ (j * B + i)
    (fun j' val => if j * B + i = j' * B + i' then frm ((x + i') * N + (y + j')) else val)
    (fun j' _ c => rfl)]
  by_cases h : i' = i
  · subst h
    rw [if_pos rfl]
    exact foldl_single_hit (List.range B) (fun j' => j * B + i' = j' * B + i')
      (fun j' _ => frm ((x + i') * N + (y + j'))) j (List.nodup_range B)
      (List.mem_range.2 hj) rfl (fun k _ hh => ((idx_inj hi hi).1 hh).1.symm) _
  · rw [if_neg h]
    exact foldl_no_hit (List.range B) (fun j' => j * B + i = j' * B + i')
      (fun j' _ => frm ((x + i') * N + (y + j')))
      (fun k _ hh => h ((idx_inj hi hi').1 hh).2.symm) _

/-- Neither `pack` nor `pack_transpose` touches a cell past the `B × B` scratch tile. -/
theorem pack_outside (N B : Nat) (dst frm : Buf α) (x y t : Nat) (ht : B * B ≤ t) :
    pack N B dst frm x y t = dst t ∧ pack_transpose N B dst frm x y t = dst t := by
  constructor
  · unfold pack forRange
    apply foldl_frame
    intro i hi c
    apply foldl_frame
    intro j hj c
    have h := idx_lt (List.mem_range.1 hi) (List.mem_range.1 hj)
    rw [write_apply, if_neg (by omega)]
  · unfold pack_transpose forRange
    apply foldl_frame
    intro i hi c
    apply foldl_frame
    intro j hj c
    have h := idx_lt (List.mem_range.1 hj) (List.mem_range.1 hi)
    rw [write_apply, if_neg (by omega)]

end PackT

/-! ## The validator -/

section Check
variable {β : Type}

/-- A loop that keeps the first `some` produced by its iterations. -/
theorem forRange_first (n : Nat) (f : Nat → Option β) :
    (forRange n (fun k ret => keepReturn ret (f k)) none = none
      ↔ ∀ k, k < n → f k = none) ∧
    (∀ m, forRange n (fun k ret => keepReturn ret (f k)) none = some m →
      ∃ k, k < n ∧ f k = some m ∧ ∀ k', k' < k → f k' = none) := by
  unfold forRange
  induction n with
  | zero =>
    refine ⟨⟨fun _ k hk => absurd hk (Nat.not_lt_zero k), fun _ => rfl⟩, ?_⟩
    intro m h
    cases h
  | succ n ih =>
    rw [List.range_succ, List.foldl_append]
    simp only [List.foldl_cons, List.foldl_nil]
    obtain ⟨ih1, ih2⟩ := ih
    cases hr : List.foldl (fun s i => keepReturn s (f i)) none (List.range n) with
    | none =>
      have hall := ih1.1 hr
      constructor
      · constructor
        · intro h k hk
          rcases Nat.lt_succ_iff_lt_or_eq.1 hk with h' | h'
          · exact hall k h'
          · rw [h']; exact h
        · intro h
          exact h n (Nat.lt_succ_self n)
      · intro m h
        exact ⟨n, Nat.lt_succ_self n, h, hall⟩
    | some m0 =>
      obtain ⟨k, hk, hfk, hbefore⟩ := ih2 m0 hr
      constructor
      · constructor
        · intro h
          cases h
        · intro h
          have := h k (Nat.lt_succ_of_lt hk)
          rw [hfk] at this
          cases this
      · intro m h
        have e : m0 = m := Option.some.inj h
        subst e
        exact ⟨k, Nat.lt_succ_of_lt hk, hfk, hbefore⟩

/-- Once a `return` is pending the remaining iterations do nothing. -/
theorem forRange_sticky (n : Nat) (f : Nat → Option β) (m : β) :
    forRange n (fun k ret => keepReturn ret (f k)) (some m) = some m := by
  unfold forRange
  induction n with
  | zero => rfl
  | succ n ih =>
    rw [List.range_succ, List.foldl_append, ih]
    rfl

/-- The verdict of `check_matrix`, row by row and cell by cell. -/
theorem check_matrix_rows {α : Type} [LinearOrderedRing α] (N : Nat) (ERR : α)
    (mat ans : Buf α) :
    check_matrix N ERR mat ans
      = forRange N (fun i ret => keepReturn ret
          (forRange N (fun j ret => keepReturn ret
            (if |mat (i * N + j) - ans (i * N + j)| > ERR
              then some ⟨|mat (i * N + j) - ans (i * N + j)|, i, j⟩ else none)) none))
          none := by
  unfold check_matrix
  congr 1
  funext i ret
  cases ret with
  | none => rfl
  | some m => exact forRange_sticky N _ m

/-- The verdict of `check_matrix`: all cells within `ERR`, or the first cell in
row-major order that is not. -/
theorem check_matrix_spec {α : Type} [LinearOrderedRing α] (N : Nat) (ERR : α)
    (mat ans : Buf α) :
    (check_matrix N ERR mat ans = none ↔
      ∀ i j, i < N → j < N → |mat (i * N + j) - ans (i * N + j)| ≤ ERR) ∧
    (∀ m, check_matrix N ERR mat ans = some m →
      m.i < N ∧ m.j < N ∧ m.diff = |mat (m.i * N + m.j) - ans (m.i * N + m.j)| ∧
      ERR < m.diff ∧
      ∀ i j, i < N → j < N → (i < m.i ∨ (i = m.i ∧ j < m.j)) →
        |mat (i * N + j) - ans (i * N + j)| ≤ ERR) := by
  have hcell : ∀ i j,
      (if |mat (i * N + j) - ans (i * N + j)| > ERR
        then some (Mismatch.mk |mat (i * N + j) - ans (i * N + j)| i j) else none) = none
      ↔ |mat (i * N + j) - ans (i * N + j)| ≤ ERR := by
    intro i j
    by_cases h : |mat (i * N + j) - ans (i * N + j)| > ERR
    · rw [if_pos h]
      exact ⟨fun h' => Option.noConfusion h', fun h' => absurd h (not_lt.2 h')⟩
    · rw [if_neg h]
      exact ⟨fun _ => not_lt.1 h, fun _ => rfl⟩
  have hrow := fun i => forRange_first N (fun j =>
    if |mat (i * N + j) - ans (i * N + j)| > ERR
    then some (Mismatch.mk |mat (i * N + j) - ans (i * N + j)| i j) else none)
  have hall := forRange_first N (fun i =>
    forRange N (fun j ret => keepReturn ret
      (if |mat (i * N + j) - ans (i * N + j)| > ERR
        then some (Mismatch.mk |mat (i * N + j) - ans (i * N + j)| i j) else none)) none)
  rw [check_matrix_rows]
  constructor
  · rw [hall.1]
    constructor
    · intro h i j hi hj
      exact (hcell i j).1 (((hrow i).1.1 (h i hi)) j hj)
    · intro h i hi
      exact (hrow i).1.2 (fun j hj => (hcell i j).2 (h i j hi hj))
  · intro m hm
    obtain ⟨i, hi, hgi, hbefore⟩ := hall.2 m hm
    obtain ⟨j, hj, hfj, hbefore'⟩ := (hrow i).2 m hgi
    by_cases hd : |mat (i * N + j) - ans (i * N + j)| > ERR
    · rw [if_pos hd] at hfj
      have e := Option.some.inj hfj
      subst e
      refine ⟨hi, hj, rfl, hd, ?_⟩
      intro i' j' hi' hj' hlt
      rcases hlt with h | ⟨h1, h2⟩
      · exact (hcell i' j').1 (((hrow i').1.1 (hbefore i' h)) j' hj')
      · have h1' : i' = i := h1
        subst h1'
        exact (hcell i' j').1 (hbefore' j' h2)
    · rw [if_neg hd] at hfj
      cases hfj

end Check

/-! ## The harness -/

section Harness
variable {α : Type}

theorem zero_matrix_apply [Zero α] (N : Nat) (m : Buf α) (r s : Nat)
    (hr : r < N) (hs : s < N) : zero_matrix N m (r * N + s) = 0 := by
  unfold zero_matrix
  rw [forRange_select N r hr _ (r * N + s) (fun _ _ => (0 : α))]
  intro i _ c
  exact forRange_rowUpdate N i r s hs (fun _ _ => (0 : α)) c

theorem forStride_pos {σ : Type} (n B : Nat) (hB : 0 < B) (f : Nat → σ → σ) (s : σ) :
    forStride n B (fun i s => some (f i s)) s
      = some ((strideList n B).foldl (fun s i => f i s) s) := by
  unfold forStride
  rw [if_neg (by omega), foldlM_some]

/-- The kernel `blocked3<N, 8>` returns for every `N`: its strides are positive. -/
theorem blocked3_8_returns [Zero α] [Add α] [Mul α] (N : Nat) (a b c : Buf α) :
    ∃ c', blocked3 N 8 a b c = some c' := by
  have hB : 0 < 8 := by decide
  have hk : ∀ c x y, kernel_8x8 N 8 a b c x y
      = some (unpack_from_vecs N c
          ((strideList N 8).foldl (fun s zz => kernel_8x8_step N a b x y zz s)
            kernel_8x8_init).cv x y) := by
    intro c x y
    unfold kernel_8x8
    rw [forStride_pos N 8 hB]
    rfl
  unfold blocked3
  simp only [hk, forStride_pos N 8 hB]
  exact ⟨_, rfl⟩

theorem runKernel_returns [Zero α] [Add α] [Mul α] (sched : Nat → Nat → List (Nat × Nat))
    (N : Nat) (k : KernelId) (a b c : Buf α) : ∃ c', runKernel sched N k a b c = some c' := by
  cases k with
  | baseline => exact ⟨_, rfl⟩
  | transposed => exact ⟨_, rfl⟩
  | transpose_simd => exact ⟨_, rfl⟩
  | blocked3_8x8 => exact blocked3_8_returns N a b c
  | parallel_tranposed_simd => exact ⟨_, rfl⟩

theorem check_matrix_self [LinearOrderedRing α] (N : Nat) (ERR : α) (hE : 0 ≤ ERR)
    (m : Buf α) : check_matrix N ERR m m = none := by
  rw [check_matrix_rows]
  refine (forRange_first N _).1.2 (fun i _ => (forRange_first N _).1.2 (fun j _ => ?_))
  rw [sub_self, abs_zero, if_neg (not_lt.2 hE)]

/-- What a returning `test_program` leaves behind: `a`, `b` and the buffer it was not
given as output are untouched, and its output buffer is zero-filled. -/
theorem test_program_some [LinearOrderedRing α] (ndebug : Bool)
    (sched : Nat → Nat → List (Nat × Nat)) (N : Nat) (ERR : α) (k : KernelId)
    (o : OutBuf) (s s' : Bench α) (h : test_program ndebug sched N ERR k o s = some s') :
    s'.a = s.a ∧ s'.b = s.b ∧
    (o = OutBuf.c → s'.ans = s.ans ∧ ∀ i j, i < N → j < N → s'.c (i * N + j) = 0) ∧
    (o = OutBuf.ans → s'.c = s.c ∧ ∀ i j, i < N → j < N → s'.ans (i * N + j) = 0) := by
  unfold test_program at h
  obtain ⟨c', hc'⟩ := runKernel_returns sched N k s.a s.b (s.out o)
  rw [hc'] at h
  simp only [Option.some_bind] at h
  split at h
  · cases h
  · have e := Option.some.inj h
    subst e
    cases o with
    | c =>
      refine ⟨rfl, rfl, fun _ => ⟨rfl, fun i j hi hj => ?_⟩, fun h' => OutBuf.noConfusion h'⟩
      exact zero_matrix_apply N _ i j hi hj
    | ans =>
      refine ⟨rfl, rfl, fun h' => OutBuf.noConfusion h', fun _ => ⟨rfl, fun i j hi hj => ?_⟩⟩
      exact zero_matrix_apply N _ i j hi hj

/-- Without assertions `test_program` always returns. -/
theorem test_program_ndebug [LinearOrderedRing α] (sched : Nat → Nat → List (Nat × Nat))
    (N : Nat) (ERR : α) (k : KernelId) (o : OutBuf) (s : Bench α) :
    ∃ s', test_program true sched N ERR k o s = some s' := by
  unfold test_program
  obtain ⟨c', hc'⟩ := runKernel_returns sched N k s.a s.b (s.out o)
  rw [hc']
  simp only [Option.some_bind]
  rw [if_neg (fun hh => by cases hh.1)]
  exact ⟨_, rfl⟩

/-- The baseline run validates `ans` against itself and therefore returns. -/
theorem test_program_baseline [LinearOrderedRing α] (ndebug : Bool)
    (sched : Nat → Nat → List (Nat × Nat)) (N : Nat) (ERR : α) (hE : 0 ≤ ERR)
    (s : Bench α) :
    ∃ s', test_program ndebug sched N ERR KernelId.baseline OutBuf.ans s = some s' := by
  unfold test_program
  simp only [runKernel, Option.some_bind, Bench.setOut, Bench.out]
  rw [check_matrix_self N ERR hE, if_neg (fun hh => by cases hh.2)]
  exact ⟨_, rfl⟩

/-- Every kernel invocation of `main`: the baseline call runs on the initial buffers
with output `ans`; every later call has output `c`, finds `c` and `ans` zero-filled, `a`
as generated and `b` in the layout of `required_layout`. -/
theorem main_calls_spec [LinearOrderedRing α] (ndebug : Bool)
    (sched : Nat → Nat → List (Nat × Nat)) (N : Nat) (ERR : α) (s0 : Bench α)
    (call : Call α) (h : call ∈ main_calls ndebug sched N ERR s0) :
    call.state.a = s0.a ∧ call.state.b = required_layout N s0.b call.kernel ∧
    ((call.kernel = KernelId.baseline ∧ call.out = OutBuf.ans ∧ call.state = s0) ∨
     (call.kernel ≠ KernelId.baseline ∧ call.out = OutBuf.c ∧
      (∀ i j, i < N → j < N → call.state.c (i * N + j) = 0) ∧
      (∀ i j, i < N → j < N → call.state.ans (i * N + j) = 0))) := by
  unfold main_calls main_steps at h
  simp only [runSteps] at h
  rcases List.mem_cons.1 h with h | h
  · subst h
    exact ⟨rfl, rfl, Or.inl ⟨rfl, rfl, rfl⟩⟩
  cases h1 : test_program ndebug sched N ERR KernelId.baseline OutBuf.ans s0 with
  | none =>
    rw [h1] at h
    cases h
  | some s1 =>
    rw [h1] at h
    obtain ⟨a1, b1, -, r1⟩ := test_program_some ndebug sched N ERR _ _ s0 s1 h1
    obtain ⟨-, z1⟩ := r1 rfl
    rcases List.mem_cons.1 h with h | h
    · subst h
      refine ⟨a1, ?_, Or.inr ⟨fun e => KernelId.noConfusion e, rfl,
        fun i j hi hj => zero_matrix_apply N _ i j hi hj, z1⟩⟩
      show transpose_matrix N s1.b = transpose_matrix N s0.b
      rw [b1]
    cases h2 : test_program ndebug sched N ERR KernelId.transposed OutBuf.c
        { a := s1.a, b := transpose_matrix N s1.b, c := zero_matrix N s1.c, ans := s1.ans } with
    | none =>
      rw [h2] at h
      cases h
    | some s2 =>
      rw [h2] at h
      obtain ⟨a2, b2, r2, -⟩ := test_program_some ndebug sched N ERR _ _ _ s2 h2
      obtain ⟨n2, z2⟩ := r2 rfl
      have a2' : s2.a = s0.a := a2.trans a1
      have b2' : s2.b = transpose_matrix N s0.b := by rw [b2, b1]
      have n2' : ∀ i j, i < N → j < N → s2.ans (i * N + j) = 0 := by rw [n2]; exact z1
      rcases List.mem_cons.1 h with h | h
      · subst h
        exact ⟨a2', b2', Or.inr ⟨fun e => KernelId.noConfusion e, rfl, z2, n2'⟩⟩
      cases h3 : test_program ndebug sched N ERR KernelId.transpose_simd OutBuf.c s2 with
      | none =>
        rw [h3] at h
        cases h
      | some s3 =>
        rw [h3] at h
        obtain ⟨a3, b3, r3, -⟩ := test_program_some ndebug sched N ERR _ _ _ s3 h3
        obtain ⟨n3, z3⟩ := r3 rfl
        have a3' : s3.a = s0.a := a3.trans a2'
        have b3' : transpose_matrix N s3.b = s0.b := by
          rw [b3, b2', transpose_twice]
        have n3' : ∀ i j, i < N → j < N → s3.ans (i * N + j) = 0 := by rw [n3]; exact n2'
        rcases List.mem_cons.1 h with h | h
        · subst h
          exact ⟨a3', b3', Or.inr ⟨fun e => KernelId.noConfusion e, rfl, z3, n3'⟩⟩
        cases h4 : test_program ndebug sched N ERR KernelId.blocked3_8x8 OutBuf.c
            { a := s3.a, b := transpose_matrix N s3.b, c := s3.c, ans := s3.ans } with
        | none =>
          rw [h4] at h
          cases h
        | some s4 =>
          rw [h4] at h
          obtain ⟨a4, b4, r4, -⟩ := test_program_some ndebug sched N ERR _ _ _ s4 h4
          obtain ⟨n4, z4⟩ := r4 rfl
          have a4' : s4.a = s0.a := a4.trans a3'
          have b4' : transpose_matrix N s4.b = transpose_matrix N s0.b := by
            rw [b4]
            show transpose_matrix N (transpose_matrix N s3.b) = _
            rw [b3']
          have n4' : ∀ i j, i < N → j < N → s4.ans (i * N + j) = 0 := by
            rw [n4]; exact n3'
          rcases List.mem_cons.1 h with h | h
          · subst h
            exact ⟨a4', b4', Or.inr ⟨fun e => KernelId.noConfusion e, rfl, z4, n4'⟩⟩
          cases h5 : test_program ndebug sched N ERR KernelId.parallel_tranposed_simd
              OutBuf.c
              { a := s4.a, b := transpose_matrix N s4.b, c := s4.c, ans := s4.ans } with
          | none =>
            rw [h5] at h
            cases h
          | some s5 =>
            rw [h5] at h
            cases h

theorem main_calls_head [LinearOrderedRing α] (ndebug : Bool)
    (sched : Nat → Nat → List (Nat × Nat)) (N : Nat) (ERR : α) (s0 : Bench α) :
    (main_calls ndebug sched N ERR s0).head?
      = some { kernel := KernelId.baseline, out := OutBuf.ans, state := s0 } := by
  unfold main_calls main_steps
  simp only [runSteps]
  rfl

/-- The second kernel invocation of `main` takes place whenever `0 ≤ ERR`: it is the
`transposed` run, and at that moment `ans` has already been zero-filled. -/
theorem main_calls_second [LinearOrderedRing α] (ndebug : Bool)
    (sched : Nat → Nat → List (Nat × Nat)) (N : Nat) (ERR : α) (hE : 0 ≤ ERR)
    (s0 : Bench α) :
    ∃ call, (main_calls ndebug sched N ERR s0).get? 1 = some call ∧
      call.kernel = KernelId.transposed ∧ call.state.a = s0.a ∧
      call.state.b = transpose_matrix N s0.b ∧
      (∀ i j, i < N → j < N → call.state.c (i * N + j) = 0) ∧
      (∀ i j, i < N → j < N → call.state.ans (i * N + j) = 0) := by
  obtain ⟨s1, h1⟩ := test_program_baseline ndebug sched N ERR hE s0
  obtain ⟨a1, b1, -, r1⟩ := test_program_some ndebug sched N ERR _ _ s0 s1 h1
  obtain ⟨-, z1⟩ := r1 rfl
  refine ⟨Call.mk KernelId.transposed OutBuf.c
    (Bench.mk s1.a (transpose_matrix N s1.b) (zero_matrix N s1.c) s1.ans),
    ?_, rfl, a1, ?_, fun i j hi hj => zero_matrix_apply N _ i j hi hj, z1⟩
  · unfold main_calls main_steps
    simp only [runSteps, h1]
    rfl
  · show transpose_matrix N s1.b = transpose_matrix N s0.b
    rw [b1]

/-- Without assertions all five kernel invocations of `main` take place, in order. -/
theorem main_calls_ndebug [LinearOrderedRing α] (sched : Nat → Nat → List (Nat × Nat))
    (N : Nat) (ERR : α) (s0 : Bench α) :
    (main_calls true sched N ERR s0).map Call.kernel
      = [KernelId.baseline, KernelId.transposed, KernelId.transpose_simd,
         KernelId.blocked3_8x8, KernelId.parallel_tranposed_simd] := by
  unfold main_calls main_steps
  simp only [runSteps]
  obtain ⟨s1, h1⟩ := test_program_ndebug sched N ERR KernelId.baseline OutBuf.ans s0
  simp only [h1]
  obtain ⟨s2, h2⟩ := test_program_ndebug sched N ERR KernelId.transposed OutBuf.c
    { a := s1.a, b := transpose_matrix N s1.b, c := zero_matrix N s1.c, ans := s1.ans }
  simp only [h2]
  obtain ⟨s3, h3⟩ := test_program_ndebug sched N ERR KernelId.transpose_simd OutBuf.c s2
  simp only [h3]
  obtain ⟨s4, h4⟩ := test_program_ndebug sched N ERR KernelId.blocked3_8x8 OutBuf.c
    { a := s3.a, b := transpose_matrix N s3.b, c := s3.c, ans := s3.ans }
  simp only [h4]
  obtain ⟨s5, h5⟩ := test_program_ndebug sched N ERR KernelId.parallel_tranposed_simd
    OutBuf.c { a := s4.a, b := transpose_matrix N s4.b, c := s4.c, ans := s4.ans }
  simp only [h5]
  rfl

/-- With assertions enabled, validating an output whose cell `(i, j)` is farther than
`ERR` from `ans` aborts the run. -/
theorem test_program_aborts [LinearOrderedRing α] (sched : Nat → Nat → List (Nat × Nat))
    (N : Nat) (ERR : α) (k : KernelId) (s : Bench α) (c' : Buf α)
    (hk : runKernel sched N k s.a s.b s.c = some c') (i j : Nat) (hi : i < N) (hj : j < N)
    (hbad : ERR < |c' (i * N + j) - s.ans (i * N + j)|) :
    test_program false sched N ERR k OutBuf.c s = none := by
  unfold test_program
  simp only [Bench.out]
  rw [hk]
  simp only [Option.some_bind, Bench.setOut, Bench.out]
  cases hchk : check_matrix N ERR c' s.ans with
  | none =>
    exfalso
    exact absurd ((check_matrix_spec N ERR c' s.ans).1.1 hchk i j hi hj) (not_le.2 hbad)
  | some m =>
    rw [if_pos ⟨trivial, rfl⟩]

end Harness

/-! ## The iteration space of the parallel kernel -/

section Partition
variable {α : Type}

theorem foldl_flatMap_eq {ι κ σ : Type} (L : List ι) (f : ι → List κ) (g : σ → κ → σ)
    (s : σ) :
    (L.flatMap f).foldl g s = L.foldl (fun s x => (f x).foldl g s) s := by
  induction L generalizing s with
  | nil => rfl
  | cons x L ih => rw [List.flatMap_cons, List.foldl_append, ih, List.foldl_cons]

theorem nodup_flatMap_of_disjoint {ι κ : Type} (L : List ι) (f : ι → List κ)
    (hL : L.Nodup) (hf : ∀ x ∈ L, (f x).Nodup)
    (hd : ∀ x ∈ L, ∀ y ∈ L, x ≠ y → ∀ t, t ∈ f x → t ∈ f y → False) :
    (L.flatMap f).Nodup := by
  rw [List.nodup_flatMap]
  refine ⟨hf, hL.pairwise_of_forall_ne ?_⟩
  intro x hx y hy hne t h1 h2
  exact hd x hx y hy hne t h1 h2

theorem mem_strideList (n B : Nat) (hB : 0 < B) (hdiv : B ∣ n) (i : Nat) :
    i ∈ strideList n B ↔ ∃ q, q < n / B ∧ i = q * B := by
  rw [strideList_eq n B hB hdiv, List.mem_map]
  constructor
  · rintro ⟨q, hq, rfl⟩
    exact ⟨q, List.mem_range.1 hq, rfl⟩
  · rintro ⟨q, hq, rfl⟩
    exact ⟨q, List.mem_range.2 hq, rfl⟩

theorem nodup_strideList (n B : Nat) (hB : 0 < B) : (strideList n B).Nodup := by
  unfold strideList
  refine List.Nodup.map ?_ (List.nodup_range _)
  intro q q' h
  exact Nat.eq_of_mul_eq_mul_right hB h

theorem count_one_of_nodup_mem {κ : Type} [BEq κ] [LawfulBEq κ] (l : List κ) (a : κ)
    (hl : l.Nodup) (ha : a ∈ l) : l.count a = 1 := by
  induction l with
  | nil => cases ha
  | cons b l ih =>
    rw [List.nodup_cons] at hl
    rw [List.count_cons]
    by_cases hb : b = a
    · subst hb
      rw [List.count_eq_zero_of_not_mem hl.1]
      simp
    · rcases List.mem_cons.1 ha with h | h
      · exact absurd h.symm hb
      · rw [ih hl.2 h]
        simp [hb]

/-- The sequential kernel runs exactly the iterations of `parIters`, in that order. -/
theorem parallel_lex_eq [Zero α] [Add α] [Mul α] (N : Nat) (a b c : Buf α) :
    parallel_tranposed_simd lexSched N a b c
      = (parIters N).foldl (fun c rc => simd_cell N a b rc.1 rc.2 c) c := by
  unfold parallel_tranposed_simd parIters lexSched
  rw [foldl_flatMap_eq]
  congr 1
  funext c hblock
  rw [foldl_flatMap_eq]

theorem mem_parIters (N : Nat) (hdiv : 32 ∣ N) (rc : Nat × Nat) :
    rc ∈ parIters N ↔ rc.1 < N ∧ rc.2 < N := by
  have hB : 0 < 32 := by decide
  unfold parIters BLOCK_SIZE
  simp only [List.mem_flatMap, mem_strideList N 32 hB hdiv, mem_tileIters]
  constructor
  · rintro ⟨h, ⟨qh, hqh, rfl⟩, v, ⟨qv, hqv, rfl⟩, hr, hc⟩
    have h1 := tile_end_le hqh
    have h2 := tile_end_le hqv
    omega
  · rintro ⟨hr, hc⟩
    refine ⟨rc.2 / 32 * 32, ⟨rc.2 / 32, tile_index_lt hdiv hc, rfl⟩,
      rc.1 / 32 * 32, ⟨rc.1 / 32, tile_index_lt hdiv hr, rfl⟩, ?_, ?_⟩
    · exact (@tile_hit_iff 32 (rc.1 / 32) rc.1 hB).2 rfl
    · exact (@tile_hit_iff 32 (rc.2 / 32) rc.2 hB).2 rfl

theorem nodup_parIters (N : Nat) (hdiv : 32 ∣ N) : (parIters N).Nodup := by
  have hB : 0 < 32 := by decide
  unfold parIters BLOCK_SIZE
  refine nodup_flatMap_of_disjoint _ _ (nodup_strideList N 32 hB) ?_ ?_
  · intro h _
    refine nodup_flatMap_of_disjoint _ _ (nodup_strideList N 32 hB)
      (fun v _ => nodup_tileIters v h) ?_
    intro v hv v' hv' hne rc h1 h2
    obtain ⟨q, _, rfl⟩ := (mem_strideList N 32 hB hdiv v).1 hv
    obtain ⟨q', _, rfl⟩ := (mem_strideList N 32 hB hdiv v').1 hv'
    have e1 := (@tile_hit_iff 32 q rc.1 hB).1 ((mem_tileIters _ _ rc).1 h1).1
    have e2 := (@tile_hit_iff 32 q' rc.1 hB).1 ((mem_tileIters _ _ rc).1 h2).1
    exact hne (by rw [e1, e2])
  · intro h hh h' hh' hne rc h1 h2
    obtain ⟨q, _, rfl⟩ := (mem_strideList N 32 hB hdiv h).1 hh
    obtain ⟨q', _, rfl⟩ := (mem_strideList N 32 hB hdiv h').1 hh'
    obtain ⟨v, _, m1⟩ := List.mem_flatMap.1 h1
    obtain ⟨v', _, m2⟩ := List.mem_flatMap.1 h2
    have e1 := (@tile_hit_iff 32 q rc.2 hB).1 ((mem_tileIters _ _ rc).1 m1).2
    have e2 := (@tile_hit_iff 32 q' rc.2 hB).1 ((mem_tileIters _ _ rc).1 m2).2
    exact hne (by rw [e1, e2])

/-- One iteration on one address space writes the cell of its own output element only,
and leaves there what the value-level body computes. -/
theorem simd_cell_mem_apply [Zero α] [Add α] [Mul α] (N pa pb pc row col : Nat)
    (mem : Buf α) :
    (∀ t, t ≠ pc + (row * N + col) → simd_cell_mem N pa pb pc row col mem t = mem t) ∧
    simd_cell_mem N pa pb pc row col mem (pc + (row * N + col))
      = simd_cell N (block mem pa) (block mem pb) row col (block mem pc)
          (row * N + col) := by
  unfold simd_cell_mem simd_cell
  constructor
  · intro t ht
    rw [forRange_cellUpdate 8 (pc + (row * N + col)) t
      (fun x v => v + _mm256_store_ps zeroBuf 0
        (simd_ans N (block mem pa) (block mem pb) (row * N) (col * N)) x) mem,
      if_neg ht]
  · rw [forRange_cellUpdate 8 (pc + (row * N + col)) (pc + (row * N + col))
      (fun x v => v + _mm256_store_ps zeroBuf 0
        (simd_ans N (block mem pa) (block mem pb) (row * N) (col * N)) x) mem,
      if_pos rfl,
      forRange_cellUpdate 8 (row * N + col) (row * N + col)
      (fun x v => v + _mm256_store_ps zeroBuf 0
        (simd_ans N (block mem pa) (block mem pb) (row * N) (col * N)) x) (block mem pc),
      if_pos rfl]
    rfl

end Partition

/-! ## Memory accesses of the vectorised kernels -/

section Traces

theorem row_end_le {N r : Nat} (hr : r < N) : r * N + N ≤ N * N := by
  have h : (r + 1) * N ≤ N * N := Nat.mul_le_mul_right N hr
  rw [Nat.add_mul, Nat.one_mul] at h
  exact h

theorem scalar_aligned (r : Region) (p : Nat) : (rd r p).aligned ∧ (wr r p).aligned :=
  ⟨fun h => absurd (show (1 : Nat) = 8 from h) (by decide),
    fun h => absurd (show (1 : Nat) = 8 from h) (by decide)⟩

theorem pack_trace_ok (dst src : Region) (N x y : Nat) (hdst : Region.size N dst = 64)
    (hsrc : Region.size N src = N * N) (hx : x + 8 ≤ N) (hy : y + 8 ≤ N) (acc : Access)
    (h : acc ∈ pack_trace dst src N 8 x y) : acc.inBounds N ∧ acc.aligned := by
  simp only [pack_trace, List.mem_flatMap, List.mem_range, List.mem_cons,
    List.not_mem_nil, or_false] at h
  obtain ⟨i, hi, j, hj, h⟩ := h
  rcases h with rfl | rfl
  · refine ⟨?_, (scalar_aligned _ _).1⟩
    show (x + i) * N + (y + j) + 1 ≤ Region.size N src
    have := @idx_lt N (x + i) (y + j) (by omega) (by omega)
    rw [hsrc]
    omega
  · refine ⟨?_, (scalar_aligned _ _).2⟩
    show i * 8 + j + 1 ≤ Region.size N dst
    rw [hdst]
    omega

theorem pack_into_vecs_trace_ok (N x y : Nat) (hx : x + 8 ≤ N) (hy : y + 8 ≤ N)
    (acc : Access) (h : acc ∈ pack_into_vecs_trace N x y) :
    acc.inBounds N ∧ acc.aligned := by
  unfold pack_into_vecs_trace at h
  rcases List.mem_append.1 h with h | h
  · exact pack_trace_ok Region.frm Region.b N x y rfl rfl hx hy acc h
  · obtain ⟨i, hi, rfl⟩ := List.mem_map.1 h
    have hi' := List.mem_range.1 hi
    constructor
    · show i * 8 + 8 ≤ 64
      omega
    · intro _
      show i * 8 % 8 = 0
      omega

theorem unpack_from_vecs_trace_ok (N x y : Nat) (hdiv : 8 ∣ N) (hx : x + 8 ≤ N)
    (hy : y + 8 ≤ N) (hdy : 8 ∣ y) (acc : Access)
    (h : acc ∈ unpack_from_vecs_trace N x y) : acc.inBounds N ∧ acc.aligned := by
  obtain ⟨i, hi, rfl⟩ := List.mem_map.1 h
  have hi' := List.mem_range.1 hi
  have e : x * N + y + i * N = (x + i) * N + y := by rw [Nat.add_mul]; omega
  constructor
  · show x * N + y + i * N + 8 ≤ N * N
    have := @row_end_le N (x + i) (by omega)
    rw [e]
    omega
  · intro _
    show (x * N + y + i * N) % 8 = 0
    rw [e]
    exact Nat.mod_eq_zero_of_dvd
      (Nat.dvd_add (Dvd.dvd.mul_left hdiv (x + i)) hdy)

theorem kernel_8x8_trace_ok (N : Nat) (hdiv : 8 ∣ N) (x y : Nat) (hx : x + 8 ≤ N)
    (hy : y + 8 ≤ N) (hdy : 8 ∣ y) (acc : Access) (h : acc ∈ kernel_8x8_trace N 8 x y) :
    acc.inBounds N ∧ acc.aligned := by
  unfold kernel_8x8_trace at h
  rcases List.mem_append.1 h with h | h
  · obtain ⟨zz, hzz, h⟩ := List.mem_flatMap.1 h
    obtain ⟨q, hq, rfl⟩ := (mem_strideList N 8 (by decide) hdiv zz).1 hzz
    have hz := tile_end_le hq
    rcases List.mem_append.1 h with h | h
    · rcases List.mem_append.1 h with h | h
      · exact pack_trace_ok Region.ax Region.a N x (q * 8) rfl rfl hx hz acc h
      · exact pack_into_vecs_trace_ok N (q * 8) y hz hy acc h
    · simp only [List.mem_flatMap, List.mem_map, List.mem_range] at h
      obtain ⟨i, hi, r, hr, rfl⟩ := h
      refine ⟨?_, (scalar_aligned _ _).1⟩
      show i * 8 + r + 1 ≤ 64
      omega
  · exact unpack_from_vecs_trace_ok N x y hdiv hx hy hdy acc h

theorem blocked3_trace_ok (N : Nat) (hdiv : 8 ∣ N) (acc : Access)
    (h : acc ∈ blocked3_trace N 8) : acc.inBounds N ∧ acc.aligned := by
  unfold blocked3_trace at h
  obtain ⟨i, hi, h⟩ := List.mem_flatMap.1 h
  obtain ⟨j, hj, h⟩ := List.mem_flatMap.1 h
  obtain ⟨qi, hqi, rfl⟩ := (mem_strideList N 8 (by decide) hdiv i).1 hi
  obtain ⟨qj, hqj, rfl⟩ := (mem_strideList N 8 (by decide) hdiv j).1 hj
  exact kernel_8x8_trace_ok N hdiv (qi * 8) (qj * 8) (tile_end_le hqi) (tile_end_le hqj)
    (Dvd.intro_left qj rfl) acc h

theorem simd_cell_trace_ok (N : Nat) (hdiv : 8 ∣ N) (i k : Nat) (hi : i < N) (hk : k < N)
    (acc : Access) (h : acc ∈ simd_cell_trace N i k) : acc.inBounds N ∧ acc.aligned := by
  unfold simd_cell_trace at h
  have hcell := idx_lt hi hk
  rcases List.mem_append.1 h with h | h
  · rcases List.mem_append.1 h with h | h
    · obtain ⟨j, hj, h⟩ := List.mem_flatMap.1 h
      obtain ⟨q, hq, rfl⟩ := (mem_strideList N 8 (by decide) hdiv j).1 hj
      have hz := tile_end_le hq
      have hal : ∀ r, (r * N + q * 8) % 8 = 0 := fun r =>
        Nat.mod_eq_zero_of_dvd (Nat.dvd_add (Dvd.dvd.mul_left hdiv r) (Dvd.intro_left q rfl))
      simp only [List.mem_cons, List.not_mem_nil, or_false] at h
      rcases h with rfl | rfl
      · refine ⟨?_, fun _ => hal i⟩
        show i * N + q * 8 + 8 ≤ N * N
        have := row_end_le hi
        omega
      · refine ⟨?_, fun _ => hal k⟩
        show k * N + q * 8 + 8 ≤ N * N
        have := row_end_le hk
        omega
    · simp only [List.mem_cons, List.not_mem_nil, or_false] at h
      subst h
      exact ⟨Nat.le_refl 8, fun _ => rfl⟩
  · simp only [List.mem_flatMap, List.mem_range, List.mem_cons, List.not_mem_nil,
      or_false] at h
    obtain ⟨x, hx, h⟩ := h
    rcases h with rfl | rfl | rfl
    · refine ⟨?_, (scalar_aligned _ _).1⟩
      show i * N + k + 1 ≤ N * N
      omega
    · refine ⟨?_, (scalar_aligned _ _).1⟩
      show x + 1 ≤ 8
      omega
    · refine ⟨?_, (scalar_aligned _ _).2⟩
      show i * N + k + 1 ≤ N * N
      omega

theorem transpose_simd_trace_ok (N : Nat) (hdiv : 8 ∣ N) (acc : Access)
    (h : acc ∈ transpose_simd_trace N) : acc.inBounds N ∧ acc.aligned := by
  unfold transpose_simd_trace at h
  obtain ⟨i, hi, h⟩ := List.mem_flatMap.1 h
  obtain ⟨k, hk, h⟩ := List.mem_flatMap.1 h
  exact simd_cell_trace_ok N hdiv i k (List.mem_range.1 hi) (List.mem_range.1 hk) acc h

theorem parallel_tranposed_simd_trace_ok (N : Nat) (hdiv : 32 ∣ N) (acc : Access)
    (h : acc ∈ parallel_tranposed_simd_trace N) : acc.inBounds N ∧ acc.aligned := by
  unfold parallel_tranposed_simd_trace at h
  obtain ⟨rc, hrc, h⟩ := List.mem_flatMap.1 h
  have hin := (mem_parIters N hdiv rc).1 hrc
  exact simd_cell_trace_ok N (Nat.dvd_trans (by decide) hdiv) rc.1 rc.2 hin.1 hin.2 acc h

/-! ### The cells written by `blocked3` -/

theorem cellsWritten_append (t1 t2 : List Access) :
    cellsWritten (t1 ++ t2) = cellsWritten t1 ++ cellsWritten t2 := by
  unfold cellsWritten
  rw [List.flatMap_append]

theorem cellsWritten_flatMap {ι : Type} (L : List ι) (f : ι → List Access) :
    cellsWritten (L.flatMap f) = L.flatMap (fun x => cellsWritten (f x)) := by
  unfold cellsWritten
  rw [List.flatMap_assoc]

theorem cellsWritten_none (tr : List Access)
    (h : ∀ acc ∈ tr, ¬ (acc.write = true ∧ acc.region = Region.c)) :
    cellsWritten tr = [] := by
  induction tr with
  | nil => rfl
  | cons acc tr ih =>
    unfold cellsWritten at ih ⊢
    rw [List.flatMap_cons, if_neg (h acc (List.mem_cons_self _ _)),
      ih (fun a ha => h a (List.mem_cons_of_mem _ ha))]
    rfl

theorem mem_cellsWritten (tr : List Access) (t : Nat) :
    t ∈ cellsWritten tr ↔ ∃ acc ∈ tr, acc.write = true ∧ acc.region = Region.c ∧
      acc.idx ≤ t ∧ t < acc.idx + acc.width := by
  unfold cellsWritten
  rw [List.mem_flatMap]
  constructor
  · rintro ⟨acc, hacc, h⟩
    by_cases hc : acc.write = true ∧ acc.region = Region.c
    · rw [if_pos hc] at h
      obtain ⟨l, hl, rfl⟩ := List.mem_map.1 h
      have := List.mem_range.1 hl
      exact ⟨acc, hacc, hc.1, hc.2, by omega, by omega⟩
    · rw [if_neg hc] at h
      cases h
  · rintro ⟨acc, hacc, h1, h2, h3, h4⟩
    refine ⟨acc, hacc, ?_⟩
    rw [if_pos ⟨h1, h2⟩]
    exact List.mem_map.2 ⟨t - acc.idx, List.mem_range.2 (by omega), by omega⟩

/-- The reduction chunks of `kernel_8x8` write no cell of `c`. -/
theorem chunk_writes_none (N x y zz : Nat) :
    cellsWritten (pack_trace Region.ax Region.a N 8 x zz
      ++ pack_into_vecs_trace N zz y
      ++ (List.range 8).flatMap (fun i =>
        (List.range 8).map (fun r => rd Region.ax (i * 8 + r)))) = [] := by
  apply cellsWritten_none
  intro acc h
  rcases List.mem_append.1 h with h | h
  · rcases List.mem_append.1 h with h | h
    · simp only [pack_trace, List.mem_flatMap, List.mem_range, List.mem_cons,
        List.not_mem_nil, or_false] at h
      obtain ⟨i, _, j, _, h⟩ := h
      rcases h with rfl | rfl
      · exact fun hh => Bool.noConfusion (show false = true from hh.1)
      · exact fun hh => Region.noConfusion (show Region.ax = Region.c from hh.2)
    · unfold pack_into_vecs_trace at h
      rcases List.mem_append.1 h with h | h
      · simp only [pack_trace, List.mem_flatMap, List.mem_range, List.mem_cons,
          List.not_mem_nil, or_false] at h
        obtain ⟨i, _, j, _, h⟩ := h
        rcases h with rfl | rfl
        · exact fun hh => Bool.noConfusion (show false = true from hh.1)
        · exact fun hh => Region.noConfusion (show Region.frm = Region.c from hh.2)
      · obtain ⟨i, _, rfl⟩ := List.mem_map.1 h
        exact fun hh => Bool.noConfusion (show false = true from hh.1)
  · simp only [List.mem_flatMap, List.mem_map, List.mem_range] at h
    obtain ⟨i, _, r, _, rfl⟩ := h
    exact fun hh => Bool.noConfusion (show false = true from hh.1)

/-- One call of `kernel_8x8` writes the cells that its eight stores cover. -/
theorem kernel_8x8_cells (N B x y : Nat) :
    cellsWritten (kernel_8x8_trace N B x y)
      = (List.range 8).flatMap (fun i =>
          (List.range 8).map (fun l => x * N + y + i * N + l)) := by
  unfold kernel_8x8_trace
  rw [cellsWritten_append, cellsWritten_flatMap]
  have h0 : (strideList N B).flatMap (fun zz =>
      cellsWritten (pack_trace Region.ax Region.a N 8 x zz
        ++ pack_into_vecs_trace N zz y
        ++ (List.range 8).flatMap (fun i =>
          (List.range 8).map (fun r => rd Region.ax (i * 8 + r))))) = [] := by
    simp only [chunk_writes_none]
    induction (strideList N B) with
    | nil => rfl
    | cons z L ih => rw [List.flatMap_cons, ih]; rfl
  rw [h0, List.nil_append]
  unfold unpack_from_vecs_trace cellsWritten
  rw [List.flatMap_map]
  rfl

theorem mem_kernel_8x8_cells (N B x y t : Nat) :
    t ∈ cellsWritten (kernel_8x8_trace N B x y)
      ↔ ∃ i l, i < 8 ∧ l < 8 ∧ t = (x + i) * N + (y + l) := by
  rw [kernel_8x8_cells]
  simp only [List.mem_flatMap, List.mem_map, List.mem_range]
  constructor
  · rintro ⟨i, hi, l, hl, rfl⟩
    refine ⟨i, l, hi, hl, ?_⟩
    rw [Nat.add_mul]
    omega
  · rintro ⟨i, l, hi, hl, rfl⟩
    refine ⟨i, hi, l, hl, ?_⟩
    rw [Nat.add_mul]
    omega

theorem nodup_kernel_8x8_cells (N B x y : Nat) (hN : 8 ≤ N) :
    (cellsWritten (kernel_8x8_trace N B x y)).Nodup := by
  rw [kernel_8x8_cells]
  refine nodup_flatMap_of_disjoint _ _ (List.nodup_range 8) ?_ ?_
  · intro i _
    refine List.Nodup.map ?_ (List.nodup_range 8)
    intro l l' h
    exact Nat.add_left_cancel h
  · intro i _ i' _ hne t h1 h2
    obtain ⟨l, hl, rfl⟩ := List.mem_map.1 h1
    obtain ⟨l', hl', e⟩ := List.mem_map.1 h2
    have hl1 := List.mem_range.1 hl
    have hl2 := List.mem_range.1 hl'
    have e' : i' * N + l' = i * N + l := by omega
    exact hne ((idx_inj (by omega) (by omega)).1 e').1.symm

theorem blocked3_cells (N : Nat) :
    cellsWritten (blocked3_trace N 8)
      = (strideList N 8).flatMap (fun i =>
          (strideList N 8).flatMap (fun j => cellsWritten (kernel_8x8_trace N 8 i j))) := by
  unfold blocked3_trace
  rw [cellsWritten_flatMap]
  simp only [cellsWritten_flatMap]

theorem mem_blocked3_cells (N : Nat) (hdiv : 8 ∣ N) (t : Nat) :
    t ∈ cellsWritten (blocked3_trace N 8) ↔ ∃ r s, r < N ∧ s < N ∧ t = r * N + s := by
  have hB : 0 < 8 := by decide
  rw [blocked3_cells]
  simp only [List.mem_flatMap, mem_strideList N 8 hB hdiv, mem_kernel_8x8_cells]
  constructor
  · rintro ⟨x, ⟨qi, hqi, rfl⟩, y, ⟨qj, hqj, rfl⟩, i, l, hi, hl, rfl⟩
    have h1 := tile_end_le hqi
    have h2 := tile_end_le hqj
    exact ⟨qi * 8 + i, qj * 8 + l, by omega, by omega, rfl⟩
  · rintro ⟨r, s, hr, hs, rfl⟩
    have h1 := (@tile_hit_iff 8 (r / 8) r hB).2 rfl
    have h2 := (@tile_hit_iff 8 (s / 8) s hB).2 rfl
    refine ⟨r / 8 * 8, ⟨r / 8, tile_index_lt hdiv hr, rfl⟩,
      s / 8 * 8, ⟨s / 8, tile_index_lt hdiv hs, rfl⟩,
      r - r / 8 * 8, s - s / 8 * 8, by omega, by omega, ?_⟩
    have e1 : r / 8 * 8 + (r - r / 8 * 8) = r := by omega
    have e2 : s / 8 * 8 + (s - s / 8 * 8) = s := by omega
    rw [e1, e2]

theorem nodup_blocked3_cells (N : Nat) (hdiv : 8 ∣ N) :
    (cellsWritten (blocked3_trace N 8)).Nodup := by
  have hB : 0 < 8 := by decide
  rw [blocked3_cells]
  have key : ∀ qi qj qi' qj' t, qj < N / 8 → qj' < N / 8 →
      t ∈ cellsWritten (kernel_8x8_trace N 8 (qi * 8) (qj * 8)) →
      t ∈ cellsWritten (kernel_8x8_trace N 8 (qi' * 8) (qj' * 8)) →
      qi = qi' ∧ qj = qj' := by
    intro qi qj qi' qj' t hqj hqj' h1 h2
    obtain ⟨i, l, hi, hl, rfl⟩ := (mem_kernel_8x8_cells N 8 _ _ _).1 h1
    obtain ⟨i', l', hi', hl', e⟩ := (mem_kernel_8x8_cells N 8 _ _ _).1 h2
    have b1 := tile_end_le hqj
    have b2 := tile_end_le hqj'
    have h3 := (idx_inj (by omega) (by omega)).1 e
    omega
  refine nodup_flatMap_of_disjoint _ _ (nodup_strideList N 8 hB) ?_ ?_
  · intro x hx
    obtain ⟨qi, hqi, rfl⟩ := (mem_strideList N 8 hB hdiv x).1 hx
    refine nodup_flatMap_of_disjoint _ _ (nodup_strideList N 8 hB) ?_ ?_
    · intro y hy
      obtain ⟨qj, hqj, rfl⟩ := (mem_strideList N 8 hB hdiv y).1 hy
      have := tile_end_le hqj
      exact nodup_kernel_8x8_cells N 8 _ _ (by omega)
    · intro y hy y' hy' hne t h1 h2
      obtain ⟨qj, hqj, rfl⟩ := (mem_strideList N 8 hB hdiv y).1 hy
      obtain ⟨qj', hqj', rfl⟩ := (mem_strideList N 8 hB hdiv y').1 hy'
      have := (key qi qj qi qj' t hqj hqj' h1 h2).2
      exact hne (by rw [this])
  · intro x hx x' hx' hne t h1 h2
    obtain ⟨qi, hqi, rfl⟩ := (mem_strideList N 8 hB hdiv x).1 hx
    obtain ⟨qi', hqi', rfl⟩ := (mem_strideList N 8 hB hdiv x').1 hx'
    obtain ⟨y, hy, m1⟩ := List.mem_flatMap.1 h1
    obtain ⟨y', hy', m2⟩ := List.mem_flatMap.1 h2
    obtain ⟨qj, hqj, rfl⟩ := (mem_strideList N 8 hB hdiv y).1 hy
    obtain ⟨qj', hqj', rfl⟩ := (mem_strideList N 8 hB hdiv y').1 hy'
    have := (key qi qj qi' qj' t hqj hqj' m1 m2).1
    exact hne (by rw [this])

/-- Every store of `unpack_from_vecs` in a visited tile is an access of `blocked3`. -/
theorem unpack_store_mem (N B x y i : Nat) (hx : x ∈ strideList N B)
    (hy : y ∈ strideList N B) (hi : i < 8) :
    vstore Region.c (x * N + y + i * N) ∈ blocked3_trace N B := by
  unfold blocked3_trace kernel_8x8_trace unpack_from_vecs_trace
  exact List.mem_flatMap.2 ⟨x, hx, List.mem_flatMap.2 ⟨y, hy,
    List.mem_append_right _ (List.mem_map.2 ⟨i, List.mem_range.2 hi, rfl⟩)⟩⟩

end Traces

/-! ## The 2x2 kernel and the packed scalar kernel -/

section MoreKernels
variable {α : Type}

theorem kernel_2x2_apply [Zero α] [Add α] [Mul α] (N : Nat) (a b c : Buf α) (x y : Nat)
    (hy : y + 2 ≤ N) (r s : Nat) (hs : s < N) :
    kernel_2x2 N a b c x y (r * N + s)
      = if x ≤ r ∧ r < x + 2 ∧ y ≤ s ∧ s < y + 2
        then dotFrom N (fun k => a (r * N + k)) (fun k => b (k * N + s)) 0
        else c (r * N + s) := by
  have h00 := forRange_obs N (fun k (acc : Acc2x2 α) =>
      ({ c00 := acc.c00 + a (x * N + k) * b (k * N + y),
         c01 := acc.c01 + a (x * N + k) * b (k * N + y + 1),
         c10 := acc.c10 + a ((x + 1) * N + k) * b (k * N + y),
         c11 := acc.c11 + a ((x + 1) * N + k) * b (k * N + y + 1) } : Acc2x2 α))
    Acc2x2.c00 (fun k v => v + a (x * N + k) * b (k * N + y)) (fun _ _ _ => rfl)
    { c00 := 0, c01 := 0, c10 := 0, c11 := 0 }
  have h01 := forRange_obs N (fun k (acc : Acc2x2 α) =>
      ({ c00 := acc.c00 + a (x * N + k) * b (k * N + y),
         c01 := acc.c01 + a (x * N + k) * b (k * N + y + 1),
         c10 := acc.c10 + a ((x + 1) * N + k) * b (k * N + y),
         c11 := acc.c11 + a ((x + 1) * N + k) * b (k * N + y + 1) } : Acc2x2 α))
    Acc2x2.c01 (fun k v => v + a (x * N + k) * b (k * N + y + 1)) (fun _ _ _ => rfl)
    { c00 := 0, c01 := 0, c10 := 0, c11 := 0 }
  have h10 := forRange_obs N (fun k (acc : Acc2x2 α) =>
      ({ c00 := acc.c00 + a (x * N + k) * b (k * N + y),
         c01 := acc.c01 + a (x * N + k) * b (k * N + y + 1),
         c10 := acc.c10 + a ((x + 1) * N + k) * b (k * N + y),
         c11 := acc.c11 + a ((x + 1) * N + k) * b (k * N + y + 1) } : Acc2x2 α))
    Acc2x2.c10 (fun k v => v + a ((x + 1) * N + k) * b (k * N + y)) (fun _ _ _ => rfl)
    { c00 := 0, c01 := 0, c10 := 0, c11 := 0 }
  have h11 := forRange_obs N (fun k (acc : Acc2x2 α) =>
      ({ c00 := acc.c00 + a (x * N + k) * b (k * N + y),
         c01 := acc.c01 + a (x * N + k) * b (k * N + y + 1),
         c10 := acc.c10 + a ((x + 1) * N + k) * b (k * N + y),
         c11 := acc.c11 + a ((x + 1) * N + k) * b (k * N + y + 1) } : Acc2x2 α))
    Acc2x2.c11 (fun k v => v + a ((x + 1) * N + k) * b (k * N + y + 1)) (fun _ _ _ => rfl)
    { c00 := 0, c01 := 0, c10 := 0, c11 := 0 }
  have e1 := @idx_inj N r s x y hs (by omega)
  have e2 := @idx_inj N r s x (y + 1) hs (by omega)
  have e3 := @idx_inj N r s (x + 1) y hs (by omega)
  have e4 := @idx_inj N r s (x + 1) (y + 1) hs (by omega)
  unfold kernel_2x2
  simp only [write_apply]
  rw [h00, h01, h10, h11]
  by_cases c4 : r * N + s = (x + 1) * N + y + 1
  · obtain ⟨hr, hs'⟩ := e4.1 c4
    subst hr hs'
    rw [if_pos c4, if_pos (by omega)]
    rfl
  rw [if_neg c4]
  by_cases c3 : r * N + s = (x + 1) * N + y
  · obtain ⟨hr, hs'⟩ := e3.1 c3
    subst hr hs'
    rw [if_pos c3, if_pos (by omega)]
    rfl
  rw [if_neg c3]
  by_cases c2 : r * N + s = x * N + y + 1
  · obtain ⟨hr, hs'⟩ := e2.1 c2
    subst hr hs'
    rw [if_pos c2, if_pos (by omega)]
    rfl
  rw [if_neg c2]
  by_cases c1 : r * N + s = x * N + y
  · obtain ⟨hr, hs'⟩ := e1.1 c1
    subst hr hs'
    rw [if_pos c1, if_pos (by omega)]
    rfl
  rw [if_neg c1, if_neg]
  intro hin
  have hr : r = x ∨ r = x + 1 := by omega
  have hs' : s = y ∨ s = y + 1 := by omega
  rcases hr with hr | hr <;> rcases hs' with hs' | hs'
  · exact c1 (e1.2 ⟨hr, hs'⟩)
  · exact c2 (e2.2 ⟨hr, hs'⟩)
  · exact c3 (e3.2 ⟨hr, hs'⟩)
  · exact c4 (e4.2 ⟨hr, hs'⟩)

theorem blocked_2x2_apply [Zero α] [Add α] [Mul α] (N : Nat) (hdiv : 2 ∣ N)
    (a b c : Buf α) (r s : Nat) (hr : r < N) (hs : s < N) :
    blocked_2x2 N a b c (r * N + s)
      = dotFrom N (fun k => a (r * N + k)) (fun k => b (k * N + s)) 0 := by
  have hB : 0 < 2 := by decide
  unfold blocked_2x2
  rw [strideList_eq N 2 hB hdiv]
  simp only [List.foldl_map]
  exact sweep_apply N 2 hB hdiv (fun c x y => kernel_2x2 N a b c x y)
    (fun r s => dotFrom N (fun k => a (r * N + k)) (fun k => b (k * N + s)) 0)
    (fun c qi qj r s _ hqj _ hs =>
      kernel_2x2_apply N a b c (qi * 2) (qj * 2) (tile_end_le hqj) r s hs)
    c r s hr hs

/-! ### The packed scalar kernel `kernel2` -/

/-- Summing chunk by chunk, `B` terms per chunk. -/
theorem sum_chunks_of [CommSemiring α] (B m : Nat) (f : Nat → α) :
    ∑ q ∈ Finset.range m, ∑ r ∈ Finset.range B, f (q * B + r)
      = ∑ k ∈ Finset.range (m * B), f k := by
  induction m with
  | zero => simp
  | succ m ih =>
    rw [Finset.sum_range_succ, ih, Nat.add_mul, Nat.one_mul, Finset.sum_range_add]

/-- The multiply-accumulate loop nest `i`, `k`, `j` of `kernel2` on packed tiles. -/
theorem tile_mac [CommSemiring α] (B : Nat) (ax bx cx : Buf α) (i j : Nat)
    (hi : i < B) (hj : j < B) :
    (forRange B (fun i cx => forRange B (fun k cx => forRange B (fun j cx =>
        cx.write (i * B + j) (cx (i * B + j) + ax (i * B + k) * bx (j * B + k))) cx) cx) cx)
        (i * B + j)
      = cx (i * B + j) + ∑ k ∈ Finset.range B, ax (i * B + k) * bx (j * B + k) := by
  rw [forRange_select B i hi _ (i * B + j)
    (fun i' v => v + ∑ k ∈ Finset.range B, ax (i' * B + k) * bx (j * B + k))]
  intro i' _ c
  have h := forRange_obs B (fun k cx => forRange B (fun j' cx =>
        cx.write (i' * B + j') (cx (i' * B + j') + ax (i' * B + k) * bx (j' * B + k))) cx)
    (fun cx : Buf α => cx (i * B + j))
    (fun k v => if i' = i then v + ax (i' * B + k) * bx (j * B + k) else v)
    (fun k _ cx => forRange_rowUpdate B i' i j hj
      (fun j' v => v + ax (i' * B + k) * bx (j' * B + k)) cx) c
  have h2 : (forRange B (fun k cx => forRange B (fun j' cx =>
        cx.write (i' * B + j') (cx (i' * B + j') + ax (i' * B + k) * bx (j' * B + k))) cx) c)
        (i * B + j)
      = (List.range B).foldl
          (fun v k => if i' = i then v + ax (i' * B + k) * bx (j * B + k) else v)
          (c (i * B + j)) := h
  rw [h2, foldl_guard]
  by_cases e : i' = i
  · rw [if_pos e, if_pos e, foldl_add_eq_sum]
  · rw [if_neg e, if_neg e]

/-- One reduction chunk of `kernel2` adds to `cx[i*B+j]` the `B` products of row `x + i`
of `a`, columns `zz .. zz+B-1`, with rows `zz .. zz+B-1` of `b`, column `y + j`. -/
theorem kernel2_step_cx [CommSemiring α] (N B : Nat) (a b : Buf α) (x y zz : Nat)
    (s : Regs2 α) (i j : Nat) (hi : i < B) (hj : j < B) :
    (kernel2_step N B a b x y zz s).cx (i * B + j)
      = s.cx (i * B + j)
        + ∑ k ∈ Finset.range B, a ((x + i) * N + (zz + k)) * b ((zz + k) * N + (y + j)) := by
  simp only [kernel2_step]
  rw [tile_mac B _ _ s.cx i j hi hj]
  congr 1
  apply Finset.sum_congr rfl
  intro k hk
  rw [pack_apply N B _ a x zz i k hi (Finset.mem_range.1 hk),
    pack_transpose_apply N B _ b zz y k j (Finset.mem_range.1 hk) hj]

theorem kernel2_eq [Zero α] [Add α] [Mul α] (N B : Nat) (hB : 0 < B) (hdiv : B ∣ N)
    (a b c : Buf α) (x y : Nat) :
    kernel2 N B a b c x y
      = some (forRange B (fun i c =>
          forRange B (fun j c => c.write ((x + i) * N + (y + j))
            ((forRange (N / B) (fun q s => kernel2_step N B a b x y (q * B) s)
              { ax := zeroBuf, bx := zeroBuf, cx := zeroBuf }).cx (i * B + j))) c) c) := by
  unfold kernel2
  rw [forStride_some N B hB hdiv]
  rfl

/-- The accumulators of `kernel2` after `m` reduction chunks. -/
theorem kernel2_cx [CommSemiring α] (N B m : Nat) (a b : Buf α) (x y i j : Nat)
    (hi : i < B) (hj : j < B) :
    (forRange m (fun q s => kernel2_step N B a b x y (q * B) s)
        { ax := zeroBuf, bx := zeroBuf, cx := zeroBuf }).cx (i * B + j)
      = ∑ q ∈ Finset.range m, ∑ k ∈ Finset.range B,
          a ((x + i) * N + (q * B + k)) * b ((q * B + k) * N + (y + j)) := by
  have h := forRange_obs m (fun q s => kernel2_step N B a b x y (q * B) s)
    (fun s : Regs2 α => s.cx (i * B + j))
    (fun q v => v + ∑ k ∈ Finset.range B,
      a ((x + i) * N + (q * B + k)) * b ((q * B + k) * N + (y + j)))
    (fun q _ s => kernel2_step_cx N B a b x y (q * B) s i j hi hj)
    { ax := zeroBuf, bx := zeroBuf, cx := zeroBuf }
  have h2 : (forRange m (fun q s => kernel2_step N B a b x y (q * B) s)
        { ax := zeroBuf, bx := zeroBuf, cx := zeroBuf }).cx (i * B + j)
      = (List.range m).foldl (fun v q => v + ∑ k ∈ Finset.range B,
          a ((x + i) * N + (q * B + k)) * b ((q * B + k) * N + (y + j))) 0 := h
  rw [h2, foldl_add_eq_sum, zero_add]

/-- Storing a `B × B` tile of values at origin `(x, y)`, with the index written
`(x+i)*N+(y+j)`. -/
theorem tile_store_assoc (N B x y : Nat) (hy : y + B ≤ N) (v : Nat → Nat → α) (c : Buf α)
    (r s : Nat) (hs : s < N) :
    (forRange B (fun i c =>
        forRange B (fun j c => c.write ((x + i) * N + (y + j)) (v i j)) c) c) (r * N + s)
      = if x ≤ r ∧ r < x + B ∧ y ≤ s ∧ s < y + B then v (r - x) (s - y)
        else c (r * N + s) := by
  have e : (fun i (c : Buf α) =>
        forRange B (fun j c => c.write ((x + i) * N + (y + j)) (v i j)) c)
      = (fun i (c : Buf α) =>
        forRange B (fun j c => c.write ((x + i) * N + y + j) (v i j)) c) := by
    funext i c
    congr 1
    funext j c
    rw [Nat.add_assoc]
  rw [e]
  exact tile_store N B x y hy v c r s hs

/-- What `kernel2<N, B>` leaves in `c`: inside the tile the full dot products, outside
the tile the old contents. -/
theorem kernel2_apply [CommSemiring α] (N B : Nat) (hB : 0 < B) (hdiv : B ∣ N)
    (a b c : Buf α) (x y : Nat) (hy : y + B ≤ N) :
    ∃ c', kernel2 N B a b c x y = some c' ∧ ∀ r s, s < N →
      c' (r * N + s)
        = if x ≤ r ∧ r < x + B ∧ y ≤ s ∧ s < y + B
          then ∑ k ∈ Finset.range N, a (r * N + k) * b (k * N + s)
          else c (r * N + s) := by
  refine ⟨_, kernel2_eq N B hB hdiv a b c x y, ?_⟩
  intro r s hs
  rw [tile_store_assoc N B x y hy (fun i j =>
    (forRange (N / B) (fun q s => kernel2_step N B a b x y (q * B) s)
      { ax := zeroBuf, bx := zeroBuf, cx := zeroBuf }).cx (i * B + j)) c r s hs]
  by_cases h : x ≤ r ∧ r < x + B ∧ y ≤ s ∧ s < y + B
  · rw [if_pos h, if_pos h]
    show (forRange (N / B) (fun q s => kernel2_step N B a b x y (q * B) s)
      { ax := zeroBuf, bx := zeroBuf, cx := zeroBuf }).cx ((r - x) * B + (s - y)) = _
    rw [kernel2_cx N B (N / B) a b x y (r - x) (s - y) (by omega) (by omega)]
    have e1 : x + (r - x) = r := by omega
    have e2 : y + (s - y) = s := by omega
    rw [e1, e2, sum_chunks_of B (N / B) (fun k => a (r * N + k) * b (k * N + s)),
      Nat.div_mul_cancel hdiv]
  · rw [if_neg h, if_neg h]

theorem blocked2_apply [CommSemiring α] (N B : Nat) (hB : 0 < B) (hdiv : B ∣ N)
    (a b c : Buf α) :
    ∃ c', blocked2 N B a b c = some c' ∧ ∀ r s, r < N → s < N →
      c' (r * N + s) = ∑ k ∈ Finset.range N, a (r * N + k) * b (k * N + s) := by
  refine ⟨forRange (N / B) (fun qi c => forRange (N / B) (fun qj c =>
      forRange B (fun i c =>
        forRange B (fun j c => c.write ((qi * B + i) * N + (qj * B + j))
          ((forRange (N / B) (fun q s => kernel2_step N B a b (qi * B) (qj * B) (q * B) s)
            { ax := zeroBuf, bx := zeroBuf, cx := zeroBuf }).cx (i * B + j))) c) c) c) c,
    ?_, ?_⟩
  · unfold blocked2
    simp only [kernel2_eq N B hB hdiv, forStride_some N B hB hdiv]
  · intro r s hr hs
    refine sweep_apply N B hB hdiv
      (fun c x y => forRange B (fun i c =>
        forRange B (fun j c => c.write ((x + i) * N + (y + j))
          ((forRange (N / B) (fun q s => kernel2_step N B a b x y (q * B) s)
            { ax := zeroBuf, bx := zeroBuf, cx := zeroBuf }).cx (i * B + j))) c) c)
      (fun r s => ∑ k ∈ Finset.range N, a (r * N + k) * b (k * N + s)) ?_ c r s hr hs
    intro c qi qj r s _ hqj _ hs
    obtain ⟨c', h1, h2⟩ := kernel2_apply N B hB hdiv a b c (qi * B) (qj * B) (tile_end_le hqj)
    rw [kernel2_eq N B hB hdiv] at h1
    have h3 := Option.some.inj h1
    have h4 := h2 r s hs
    rw [← h3] at h4
    exact h4

/-! ### The cache-tiled kernels `tiled` and `parallel` -/

theorem forFromTo_shift {σ : Type} (lo n : Nat) (body : Nat → σ → σ) (s : σ) :
    forFromTo lo (lo + n) body s = forRange n (fun i s => body (lo + i) s) s := by
  unfold forFromTo forRange
  rw [Nat.add_sub_cancel_left, List.range'_eq_map_range, List.foldl_map]

/-- A loop nest over the cells of the `B × B` tile at `(x, y)` whose body at `(i, j)`
updates the cell `(x+i, y+j)` only. -/
theorem tile_sweep (N B x y : Nat) (hy : y + B ≤ N) (F : Nat → Nat → Buf α → Buf α)
    (u : Nat → Nat → α → α)
    (hF : ∀ i j c t, i < B → j < B →
      F i j c t = if t = (x + i) * N + (y + j) then u i j (c t) else c t)
    (c : Buf α) (r s : Nat) (hs : s < N) :
    (forRange B (fun i c => forRange B (fun j c => F i j c) c) c) (r * N + s)
      = if x ≤ r ∧ r < x + B ∧ y ≤ s ∧ s < y + B then u (r - x) (s - y) (c (r * N + s))
        else c (r * N + s) := by
  by_cases hin : x ≤ r ∧ r < x + B ∧ y ≤ s ∧ s < y + B
  · rw [if_pos hin, forRange_select B (r - x) (by omega) _ (r * N + s)
      (fun i v => u i (s - y) v)]
    intro i hi c
    by_cases e : i = r - x
    · rw [if_pos e, forRange_select B (s - y) (by omega) _ (r * N + s) (fun j v => u i j v)]
      intro j hj c
      rw [hF i j c _ hi hj]
      have hh := @idx_inj N r s (x + i) (y + j) hs (by omega)
      by_cases e' : j = s - y
      · rw [if_pos e', if_pos (hh.2 ⟨by omega, by omega⟩)]
      · rw [if_neg e', if_neg (fun h => e' (by have := (hh.1 h).2; omega))]
    · rw [if_neg e]
      apply forRange_frame
      intro j hj c
      rw [hF i j c _ hi hj]
      have hh := @idx_inj N r s (x + i) (y + j) hs (by omega)
      rw [if_neg (fun h => e (by have := (hh.1 h).1; omega))]
  · rw [if_neg hin]
    apply forRange_frame
    intro i hi c
    apply forRange_frame
    intro j hj c
    rw [hF i j c _ hi hj]
    have hh := @idx_inj N r s (x + i) (y + j) hs (by omega)
    rw [if_neg (fun h => hin (by have := hh.1 h; omega))]

/-- One block `(iblock, kblock, jblock)` of `tiled`: every cell of the tile at
`(iblock, kblock)` gains the 32 products of the columns `jblock .. jblock+31`. -/
theorem tiled_block_apply [CommSemiring α] (N : Nat) (a b : Buf α) (i0 k0 j0 : Nat)
    (hk0 : k0 + 32 ≤ N) (c : Buf α) (r s : Nat) (hs : s < N) :
    (forFromTo i0 (i0 + 32) (fun i c =>
        forFromTo k0 (k0 + 32) (fun k c =>
          forFromTo j0 (j0 + 32) (fun j c =>
            c.write (i * N + k) (c (i * N + k) + a (i * N + j) * b (j * N + k))) c) c) c)
        (r * N + s)
      = if i0 ≤ r ∧ r < i0 + 32 ∧ k0 ≤ s ∧ s < k0 + 32
        then c (r * N + s)
          + ∑ j ∈ Finset.range 32, a (r * N + (j0 + j)) * b ((j0 + j) * N + s)
        else c (r * N + s) := by
  simp only [forFromTo_shift]
  rw [tile_sweep N 32 i0 k0 hk0
    (fun i k c => forRange 32 (fun j c =>
      c.write ((i0 + i) * N + (k0 + k))
        (c ((i0 + i) * N + (k0 + k))
          + a ((i0 + i) * N + (j0 + j)) * b ((j0 + j) * N + (k0 + k)))) c)
    (fun i k v => v + ∑ j ∈ Finset.range 32,
      a ((i0 + i) * N + (j0 + j)) * b ((j0 + j) * N + (k0 + k)))
    ?_ c r s hs]
  · by_cases hin : i0 ≤ r ∧ r < i0 + 32 ∧ k0 ≤ s ∧ s < k0 + 32
    · rw [if_pos hin, if_pos hin]
      have e1 : i0 + (r - i0) = r := by omega
      have e2 : k0 + (s - k0) = s := by omega
      simp only [e1, e2]
    · rw [if_neg hin, if_neg hin]
  · intro i k c t _ _
    show (forRange 32 (fun j c =>
      c.write ((i0 + i) * N + (k0 + k))
        (c ((i0 + i) * N + (k0 + k))
          + a ((i0 + i) * N + (j0 + j)) * b ((j0 + j) * N + (k0 + k)))) c) t = _
    rw [forRange_cellUpdate 32 ((i0 + i) * N + (k0 + k)) t
      (fun j v => v + a ((i0 + i) * N + (j0 + j)) * b ((j0 + j) * N + (k0 + k))) c,
      foldl_add_eq_sum]

theorem tiled_apply [CommSemiring α] (N : Nat) (hdiv : 32 ∣ N) (a b c : Buf α)
    (r s : Nat) (hr : r < N) (hs : s < N) :
    tiled N a b c (r * N + s)
      = c (r * N + s) + ∑ j ∈ Finset.range N, a (r * N + j) * b (j * N + s) := by
  have hB : 0 < 32 := by decide
  unfold tiled BLOCK_SIZE
  rw [strideList_eq N 32 hB hdiv]
  simp only [List.foldl_map]
  refine sweep_gen (N / 32)
    (fun c qi qk => (List.range (N / 32)).foldl (fun c qj =>
      forFromTo (qi * 32) (qi * 32 + 32) (fun i c =>
        forFromTo (qk * 32) (qk * 32 + 32) (fun k c =>
          forFromTo (qj * 32) (qj * 32 + 32) (fun j c =>
            c.write (i * N + k) (c (i * N + k) + a (i * N + j) * b (j * N + k))) c) c) c) c)
    (r * N + s)
    (fun v => v + ∑ j ∈ Finset.range N, a (r * N + j) * b (j * N + s))
    (r / 32) (s / 32) (tile_index_lt hdiv hr) (tile_index_lt hdiv hs) ?_ c
  intro c qi qk _ hqk
  show (List.foldl _ c (List.range (N / 32))) (r * N + s) = _
  rw [foldl_pointwise (List.range (N / 32)) _ (r * N + s)
    (fun qj v => if qi * 32 ≤ r ∧ r < qi * 32 + 32 ∧ qk * 32 ≤ s ∧ s < qk * 32 + 32
      then v + ∑ j ∈ Finset.range 32, a (r * N + (qj * 32 + j)) * b ((qj * 32 + j) * N + s)
      else v)
    (fun qj _ c => tiled_block_apply N a b (qi * 32) (qk * 32) (qj * 32) (tile_end_le hqk)
      c r s hs)]
  rw [foldl_guard]
  have h1 := @tile_hit_iff 32 qi r hB
  have h2 := @tile_hit_iff 32 qk s hB
  by_cases hc : qi = r / 32 ∧ qk = s / 32
  · rw [if_pos hc, if_pos ⟨(h1.2 hc.1).1, (h1.2 hc.1).2, (h2.2 hc.2).1, (h2.2 hc.2).2⟩,
      foldl_add_eq_sum, sum_chunks_of 32 (N / 32) (fun j => a (r * N + j) * b (j * N + s)),
      Nat.div_mul_cancel hdiv]
  · rw [if_neg hc, if_neg (fun hh => hc ⟨h1.1 ⟨hh.1, hh.2.1⟩, h2.1 ⟨hh.2.2.1, hh.2.2.2⟩⟩)]

theorem parallel_cell_apply [CommSemiring α] (N : Nat) (a b : Buf α) (i k : Nat)
    (c : Buf α) (t : Nat) :
    parallel_cell N a b i k c t
      = if t = i * N + k
        then c t + ∑ j ∈ Finset.range N, a (i * N + j) * b (j * N + k)
        else c t := by
  unfold parallel_cell
  rw [forRange_cellUpdate N (i * N + k) t (fun j v => v + a (i * N + j) * b (j * N + k)) c,
    foldl_add_eq_sum]

/-- One tile of `parallel`, its iterations taken in any arrangement `L`. -/
theorem parallel_tile_apply [CommSemiring α] (N : Nat) (a b : Buf α) (v h : Nat)
    (L : List (Nat × Nat)) (hL : L.Perm (tileIters v h)) (hh : h + 32 ≤ N) (c : Buf α)
    (r s : Nat) (hs : s < N) :
    (L.foldl (fun c rc => parallel_cell N a b rc.1 rc.2 c) c) (r * N + s)
      = if (v ≤ r ∧ r < v + 32) ∧ (h ≤ s ∧ s < h + 32)
        then c (r * N + s) + ∑ j ∈ Finset.range N, a (r * N + j) * b (j * N + s)
        else c (r * N + s) := by
  rw [foldl_pointwise L (fun rc c => parallel_cell N a b rc.1 rc.2 c) (r * N + s)
    (fun rc val => if r * N + s = rc.1 * N + rc.2
      then val + ∑ j ∈ Finset.range N, a (rc.1 * N + j) * b (j * N + rc.2)
      else val)
    (fun rc _ c => parallel_cell_apply N a b rc.1 rc.2 c (r * N + s))]
  have hmem : ∀ rc, rc ∈ L → r * N + s = rc.1 * N + rc.2 → rc = (r, s) := by
    intro rc hrc e
    have h1 := (mem_tileIters v h rc).1 (hL.mem_iff.1 hrc)
    have h2 := (idx_inj hs (by omega : rc.2 < N)).1 e
    exact Prod.ext h2.1.symm h2.2.symm
  by_cases hin : (v ≤ r ∧ r < v + 32) ∧ (h ≤ s ∧ s < h + 32)
  · rw [if_pos hin]
    exact foldl_single_hit L (fun rc => r * N + s = rc.1 * N + rc.2)
      (fun rc val => val + ∑ j ∈ Finset.range N, a (rc.1 * N + j) * b (j * N + rc.2))
      (r, s) (hL.nodup_iff.2 (nodup_tileIters v h))
      (hL.mem_iff.2 ((mem_tileIters v h (r, s)).2 hin)) rfl hmem _
  · rw [if_neg hin]
    refine foldl_no_hit L (fun rc => r * N + s = rc.1 * N + rc.2) _ ?_ _
    intro rc hrc e
    have h1 := (mem_tileIters v h rc).1 (hL.mem_iff.1 hrc)
    have h2 := hmem rc hrc e
    subst h2
    exact hin h1

theorem parallel_scalar_apply [CommSemiring α] (N : Nat) (hdiv : 32 ∣ N)
    (sched : Nat → Nat → List (Nat × Nat))
    (hsched : ∀ h v, (sched h v).Perm (tileIters v h)) (a b c : Buf α) (r s : Nat)
    (hr : r < N) (hs : s < N) :
    parallel sched N a b c (r * N + s)
      = c (r * N + s) + ∑ j ∈ Finset.range N, a (r * N + j) * b (j * N + s) := by
  have hB : 0 < 32 := by decide
  unfold parallel BLOCK_SIZE
  rw [strideList_eq N 32 hB hdiv]
  simp only [List.foldl_map]
  refine sweep_gen (N / 32)
    (fun c qh qv =>
      (sched (qh * 32) (qv * 32)).foldl (fun c rc => parallel_cell N a b rc.1 rc.2 c) c)
    (r * N + s)
    (fun v => v + ∑ j ∈ Finset.range N, a (r * N + j) * b (j * N + s))
    (s / 32) (r / 32) (tile_index_lt hdiv hs) (tile_index_lt hdiv hr) ?_ c
  intro c qh qv hqh _
  show (List.foldl _ c (sched (qh * 32) (qv * 32))) (r * N + s) = _
  rw [parallel_tile_apply N a b (qv * 32) (qh * 32) _ (hsched _ _) (tile_end_le hqh) c r s hs]
  have h1 := @tile_hit_iff 32 qh s hB
  have h2 := @tile_hit_iff 32 qv r hB
  by_cases hc : qh = s / 32 ∧ qv = r / 32
  · rw [if_pos hc, if_pos ⟨h2.2 hc.2, h1.2 hc.1⟩]
  · rw [if_neg hc, if_neg (fun hh => hc ⟨h1.1 hh.2, h2.1 hh.1⟩)]

end MoreKernels

/-! ## Memory accesses of the scalar kernels -/

section ScalarTraces

theorem mac_trace_ok (N pc pa pb : Nat) (hc : pc < N * N) (ha : pa < N * N)
    (hb : pb < N * N) (acc : Access) (h : acc ∈ mac_trace pc pa pb) : acc.inBounds N := by
  simp only [mac_trace, List.mem_cons, List.not_mem_nil, or_false] at h
  rcases h with rfl | rfl | rfl | rfl
  · exact hc
  · exact ha
  · exact hb
  · exact hc

theorem baseline_trace_ok (N : Nat) (acc : Access) (h : acc ∈ baseline_trace N) :
    acc.inBounds N := by
  unfold baseline_trace at h
  obtain ⟨i, hi, h⟩ := List.mem_flatMap.1 h
  obtain ⟨j, hj, h⟩ := List.mem_flatMap.1 h
  obtain ⟨k, hk, h⟩ := List.mem_flatMap.1 h
  have hi' := List.mem_range.1 hi
  have hj' := List.mem_range.1 hj
  have hk' := List.mem_range.1 hk
  exact mac_trace_ok N _ _ _ (idx_lt hi' hk') (idx_lt hi' hj') (idx_lt hj' hk') acc h

theorem transposed_trace_ok (N : Nat) (acc : Access) (h : acc ∈ transposed_trace N) :
    acc.inBounds N := by
  unfold transposed_trace at h
  obtain ⟨i, hi, h⟩ := List.mem_flatMap.1 h
  obtain ⟨k, hk, h⟩ := List.mem_flatMap.1 h
  obtain ⟨j, hj, h⟩ := List.mem_flatMap.1 h
  have hi' := List.mem_range.1 hi
  have hj' := List.mem_range.1 hj
  have hk' := List.mem_range.1 hk
  exact mac_trace_ok N _ _ _ (idx_lt hi' hk') (idx_lt hi' hj') (idx_lt hk' hj') acc h

theorem mem_block_lt {N q i : Nat} (hq : q < N / 32)
    (hi : i ∈ List.range' (q * 32) BLOCK_SIZE) : i < N := by
  have h1 := (List.mem_range'_1.1 hi).2
  have h2 := tile_end_le hq
  unfold BLOCK_SIZE at h1
  omega

theorem tiled_trace_ok (N : Nat) (hdiv : 32 ∣ N) (acc : Access) (h : acc ∈ tiled_trace N) :
    acc.inBounds N := by
  have hB : 0 < 32 := by decide
  unfold tiled_trace at h
  obtain ⟨ib, hib, h1⟩ := List.mem_flatMap.1 h
  obtain ⟨kb, hkb, h2⟩ := List.mem_flatMap.1 h1
  obtain ⟨jb, hjb, h3⟩ := List.mem_flatMap.1 h2
  obtain ⟨qi, hqi, rfl⟩ := (mem_strideList N 32 hB hdiv ib).1 hib
  obtain ⟨qk, hqk, rfl⟩ := (mem_strideList N 32 hB hdiv kb).1 hkb
  obtain ⟨qj, hqj, rfl⟩ := (mem_strideList N 32 hB hdiv jb).1 hjb
  obtain ⟨i, hi, h4⟩ := List.mem_flatMap.1 h3
  obtain ⟨k, hk, h5⟩ := List.mem_flatMap.1 h4
  obtain ⟨j, hj, h⟩ := List.mem_flatMap.1 h5
  have hi' := mem_block_lt hqi hi
  have hk' := mem_block_lt hqk hk
  have hj' := mem_block_lt hqj hj
  exact mac_trace_ok N _ _ _ (idx_lt hi' hk') (idx_lt hi' hj') (idx_lt hj' hk') acc h

theorem parallel_trace_ok (N : Nat) (hdiv : 32 ∣ N) (acc : Access)
    (h : acc ∈ parallel_trace N) : acc.inBounds N := by
  unfold parallel_trace at h
  obtain ⟨rc, hrc, h⟩ := List.mem_flatMap.1 h
  obtain ⟨k, hk, h⟩ := List.mem_flatMap.1 h
  have hin := (mem_parIters N hdiv rc).1 hrc
  have hk' := List.mem_range.1 hk
  exact mac_trace_ok N _ _ _ (idx_lt hin.1 hin.2) (idx_lt hin.1 hk') (idx_lt hk' hin.2) acc h

theorem kernel_2x2_trace_ok (N x y : Nat) (hx : x + 2 ≤ N) (hy : y + 2 ≤ N) (acc : Access)
    (h : acc ∈ kernel_2x2_trace N x y) : acc.inBounds N := by
  unfold kernel_2x2_trace at h
  have c00 := @idx_lt N x y (by omega) (by omega)
  have c01 := @idx_lt N x (y + 1) (by omega) (by omega)
  have c10 := @idx_lt N (x + 1) y (by omega) (by omega)
  have c11 := @idx_lt N (x + 1) (y + 1) (by omega) (by omega)
  rcases List.mem_append.1 h with h | h
  · obtain ⟨k, hk, h⟩ := List.mem_flatMap.1 h
    have hk' := List.mem_range.1 hk
    have a0 := @idx_lt N x k (by omega) hk'
    have a1 := @idx_lt N (x + 1) k (by omega) hk'
    have b0 := @idx_lt N k y hk' (by omega)
    have b1 := @idx_lt N k (y + 1) hk' (by omega)
    simp only [List.mem_cons, List.not_mem_nil, or_false] at h
    rcases h with rfl | rfl | rfl | rfl
    · exact a0
    · exact a1
    · exact b0
    · exact b1
  · simp only [List.mem_cons, List.not_mem_nil, or_false] at h
    rcases h with rfl | rfl | rfl | rfl
    · exact c00
    · exact c01
    · exact c10
    · exact c11

theorem blocked_2x2_trace_ok (N : Nat) (hdiv : 2 ∣ N) (acc : Access)
    (h : acc ∈ blocked_2x2_trace N) : acc.inBounds N := by
  unfold blocked_2x2_trace at h
  obtain ⟨i, hi, h⟩ := List.mem_flatMap.1 h
  obtain ⟨j, hj, h⟩ := List.mem_flatMap.1 h
  obtain ⟨qi, hqi, rfl⟩ := (mem_strideList N 2 (by decide) hdiv i).1 hi
  obtain ⟨qj, hqj, rfl⟩ := (mem_strideList N 2 (by decide) hdiv j).1 hj
  exact kernel_2x2_trace_ok N (qi * 2) (qj * 2) (tile_end_le hqi) (tile_end_le hqj) acc h

theorem kernel_trace_ok (N B x y : Nat) (hx : x + B ≤ N) (hy : y + B ≤ N) (acc : Access)
    (h : acc ∈ kernel_trace N B x y) : acc.inBounds N := by
  unfold kernel_trace at h
  rcases List.mem_append.1 h with h | h
  · obtain ⟨k, hk, h⟩ := List.mem_flatMap.1 h
    have hk' := List.mem_range.1 hk
    rcases List.mem_append.1 h with h | h
    · obtain ⟨i, hi, rfl⟩ := List.mem_map.1 h
      have hi' := List.mem_range.1 hi
      exact @idx_lt N (x + i) k (by omega) hk'
    · obtain ⟨j, hj, rfl⟩ := List.mem_map.1 h
      have hj' := List.mem_range.1 hj
      have := @idx_lt N k (y + j) hk' (by omega)
      show k * N + y + j + 1 ≤ N * N
      omega
  · obtain ⟨i, hi, h⟩ := List.mem_flatMap.1 h
    obtain ⟨j, hj, rfl⟩ := List.mem_map.1 h
    have hi' := List.mem_range.1 hi
    have hj' := List.mem_range.1 hj
    have := @idx_lt N (x + i) (y + j) (by omega) (by omega)
    show (x + i) * N + y + j + 1 ≤ N * N
    omega

theorem blocked_trace_ok (N B : Nat) (hB : 0 < B) (hdiv : B ∣ N) (acc : Access)
    (h : acc ∈ blocked_trace N B) : acc.inBounds N := by
  unfold blocked_trace at h
  obtain ⟨i, hi, h⟩ := List.mem_flatMap.1 h
  obtain ⟨j, hj, h⟩ := List.mem_flatMap.1 h
  obtain ⟨qi, hqi, rfl⟩ := (mem_strideList N B hB hdiv i).1 hi
  obtain ⟨qj, hqj, rfl⟩ := (mem_strideList N B hB hdiv j).1 hj
  exact kernel_trace_ok N B (qi * B) (qj * B) (tile_end_le hqi) (tile_end_le hqj) acc h

theorem kernel2_trace_ok (N B x y : Nat) (hB : 0 < B) (hdiv : B ∣ N) (hx : x + B ≤ N)
    (hy : y + B ≤ N) (acc : Access) (h : acc ∈ kernel2_trace N B x y) : acc.inBounds N := by
  unfold kernel2_trace at h
  rcases List.mem_append.1 h with h | h
  · obtain ⟨zz, hzz, h⟩ := List.mem_flatMap.1 h
    obtain ⟨q, hq, rfl⟩ := (mem_strideList N B hB hdiv zz).1 hzz
    have hz := tile_end_le hq
    rcases List.mem_append.1 h with h | h
    · obtain ⟨i, hi, h⟩ := List.mem_flatMap.1 h
      obtain ⟨j, hj, rfl⟩ := List.mem_map.1 h
      have hi' := List.mem_range.1 hi
      have hj' := List.mem_range.1 hj
      exact @idx_lt N (x + i) (q * B + j) (by omega) (by omega)
    · obtain ⟨i, hi, h⟩ := List.mem_flatMap.1 h
      obtain ⟨j, hj, rfl⟩ := List.mem_map.1 h
      have hi' := List.mem_range.1 hi
      have hj' := List.mem_range.1 hj
      exact @idx_lt N (q * B + i) (y + j) (by omega) (by omega)
  · obtain ⟨i, hi, h⟩ := List.mem_flatMap.1 h
    obtain ⟨j, hj, rfl⟩ := List.mem_map.1 h
    have hi' := List.mem_range.1 hi
    have hj' := List.mem_range.1 hj
    exact @idx_lt N (x + i) (y + j) (by omega) (by omega)

theorem blocked2_trace_ok (N B : Nat) (hB : 0 < B) (hdiv : B ∣ N) (acc : Access)
    (h : acc ∈ blocked2_trace N B) : acc.inBounds N := by
  unfold blocked2_trace at h
  obtain ⟨i, hi, h⟩ := List.mem_flatMap.1 h
  obtain ⟨j, hj, h⟩ := List.mem_flatMap.1 h
  obtain ⟨qi, hqi, rfl⟩ := (mem_strideList N B hB hdiv i).1 hi
  obtain ⟨qj, hqj, rfl⟩ := (mem_strideList N B hB hdiv j).1 hj
  exact kernel2_trace_ok N B (qi * B) (qj * B) hB hdiv (tile_end_le hqi) (tile_end_le hqj)
    acc h

/-! ### Row 16 of a 16 × 16 matrix -/

theorem zero_mem_strideList_16 : 0 ∈ strideList 16 BLOCK_SIZE := by decide

theorem row16_mem_parIters : ((16, 0) : Nat × Nat) ∈ parIters 16 := by
  unfold parIters
  exact List.mem_flatMap.2 ⟨0, zero_mem_strideList_16,
    List.mem_flatMap.2 ⟨0, zero_mem_strideList_16,
      (mem_tileIters 0 0 (16, 0)).2 ⟨⟨by decide, by decide⟩, ⟨by decide, by decide⟩⟩⟩⟩

theorem wr_mem_mac_trace (pc pa pb : Nat) : wr Region.c pc ∈ mac_trace pc pa pb :=
  List.mem_cons_of_mem _ (List.mem_cons_of_mem _ (List.mem_cons_of_mem _
    (List.mem_cons_self _ _)))

/-- At `N = 16` the kernel `tiled` runs `i` up to 31 and stores to `c[16*16+0]`. -/
theorem tiled_trace_16_row16 : wr Region.c (16 * 16 + 0) ∈ tiled_trace 16 := by
  unfold tiled_trace
  have h16 : 16 ∈ List.range' 0 BLOCK_SIZE := List.mem_range'_1.2 ⟨by decide, by decide⟩
  have h0 : 0 ∈ List.range' 0 BLOCK_SIZE := List.mem_range'_1.2 ⟨by decide, by decide⟩
  exact List.mem_flatMap.2 ⟨0, zero_mem_strideList_16,
    List.mem_flatMap.2 ⟨0, zero_mem_strideList_16,
      List.mem_flatMap.2 ⟨0, zero_mem_strideList_16,
        List.mem_flatMap.2 ⟨16, h16,
          List.mem_flatMap.2 ⟨0, h0,
            List.mem_flatMap.2 ⟨0, h0, wr_mem_mac_trace _ _ _⟩⟩⟩⟩⟩⟩

/-- At `N = 16` the kernel `parallel` runs `row` up to 31 and stores to `c[16*16+0]`. -/
theorem parallel_trace_16_row16 : wr Region.c (16 * 16 + 0) ∈ parallel_trace 16 := by
  unfold parallel_trace
  exact List.mem_flatMap.2 ⟨(16, 0), row16_mem_parIters,
    List.mem_flatMap.2 ⟨0, List.mem_range.2 (by decide), wr_mem_mac_trace _ _ _⟩⟩

/-- At `N = 16` the kernel `parallel_tranposed_simd` runs `row` up to 31 and loads the
eight floats at `&a[16*16+0]`. -/
theorem parallel_tranposed_simd_trace_16_row16 :
    vload Region.a (16 * 16 + 0) ∈ parallel_tranposed_simd_trace 16 := by
  unfold parallel_tranposed_simd_trace
  refine List.mem_flatMap.2 ⟨(16, 0), row16_mem_parIters, ?_⟩
  unfold simd_cell_trace
  refine List.mem_append_left _ (List.mem_append_left _ ?_)
  exact List.mem_flatMap.2 ⟨0, by decide, List.mem_cons_self _ _⟩

/-! ### The identity matrix as left operand -/

theorem identityBuf_apply {α : Type} [Zero α] [One α] (N r k : Nat) (hk : k < N) :
    (identityBuf N (r * N + k) : α) = if r = k then 1 else 0 := by
  unfold identityBuf
  have h1 : (r * N + k) / N = r := by
    rw [Nat.mul_comm, Nat.mul_add_div (by omega), Nat.div_eq_of_lt hk, Nat.add_zero]
  have h2 : (r * N + k) % N = k := by
    rw [Nat.mul_comm, Nat.mul_add_mod, Nat.mod_eq_of_lt hk]
  rw [h1, h2]

theorem identity_row_sum {α : Type} [CommSemiring α] (N r : Nat) (hr : r < N)
    (f : Nat → α) :
    ∑ k ∈ Finset.range N, identityBuf N (r * N + k) * f k = f r := by
  rw [Finset.sum_eq_single r]
  · rw [identityBuf_apply N r r hr, if_pos rfl, one_mul]
  · intro k hk hne
    rw [identityBuf_apply N r k (Finset.mem_range.1 hk), if_neg (fun e => hne e.symm),
      zero_mul]
  · intro h
    exact absurd (Finset.mem_range.2 hr) h

/-- Row `i` of the identity times a column of ones. -/
theorem identity_ones_dot {α : Type} [CommSemiring α] (N i k : Nat) (hi : i < N) :
    ∑ j ∈ Finset.range N, (identityBuf N (i * N + j) : α) * allOnes (j * N + k) = 1 :=
  identity_row_sum N i hi (fun j => allOnes (j * N + k))

/-- Row `i` of the identity times a row of ones (transposed second operand). -/
theorem identity_ones_dotT {α : Type} [CommSemiring α] (N i k : Nat) (hi : i < N) :
    ∑ j ∈ Finset.range N, (identityBuf N (i * N + j) : α) * allOnes (k * N + j) = 1 :=
  identity_row_sum N i hi (fun j => allOnes (k * N + j))

end ScalarTraces


/-! ## Claims -/

/-- C1. For every side length `N` and all `N × N` matrices `A`, `B`, `C` over exact
arithmetic, `baseline` leaves `A` and `B` unchanged and yields
`C'[i][k] = C[i][k] + Σ_{j<N} A[i][j]·B[j][k]`. Stated on one address space in which
the block of `C` overlaps neither the block of `A` nor that of `B`: every cell outside
the block of `C` (in particular every cell of `A` and `B`) keeps its value, and the
cells of `C` receive the sum; the block of `C` is what the value-level `baseline`
returns. -/
theorem C1_baseline_contract {α : Type} [CommSemiring α] (N pa pb pc : Nat) (mem : Buf α)
    (hca : apart pc pa (N * N)) (hcb : apart pc pb (N * N)) :
    (∀ t, t < N * N → baseline_mem N pa pb pc mem (pa + t) = mem (pa + t)) ∧
    (∀ t, t < N * N → baseline_mem N pa pb pc mem (pb + t) = mem (pb + t)) ∧
    (∀ t, ¬ (pc ≤ t ∧ t < pc + N * N) → baseline_mem N pa pb pc mem t = mem t) ∧
    (∀ i k, i < N → k < N →
      baseline_mem N pa pb pc mem (pc + (i * N + k))
        = mem (pc + (i * N + k))
          + ∑ j ∈ Finset.range N, mem (pa + (i * N + j)) * mem (pb + (j * N + k))) ∧
    (∀ i k, i < N → k < N →
      baseline_mem N pa pb pc mem (pc + (i * N + k))
        = baseline N (block mem pa) (block mem pb) (block mem pc) (i * N + k)) := by
  have hsim := baseline_mem_sim N pa pb pc mem hca hcb
  have hcell : ∀ i k, i < N → k < N →
      baseline_mem N pa pb pc mem (pc + (i * N + k))
        = baseline N (block mem pa) (block mem pb) (block mem pc) (i * N + k) := by
    intro i k hi hk
    have h1 := idx_lt hi hk
    rw [hsim, if_pos (by omega)]
    congr 1
    omega
  unfold apart at hca hcb
  refine ⟨?_, ?_, ?_, ?_, hcell⟩
  · intro t ht
    rw [hsim, if_neg (by omega)]
  · intro t ht
    rw [hsim, if_neg (by omega)]
  · intro t ht
    rw [hsim, if_neg ht]
  · intro i k hi hk
    rw [hcell i k hi hk, baseline_exact N _ _ _ i k hi hk]
    rfl

/-- Instance of C1: `N = 2`, blocks at offsets 0, 4 and 8, cell `(1, 0)`. -/
theorem C1_baseline_contract_witness :
    apart 8 0 (2 * 2) ∧ apart 8 4 (2 * 2) ∧
    baseline_mem 2 0 4 8 sampleMem (8 + (1 * 2 + 0))
      = sampleMem (8 + (1 * 2 + 0))
        + ∑ j ∈ Finset.range 2, sampleMem (0 + (1 * 2 + j)) * sampleMem (4 + (j * 2 + 0)) :=
  ⟨by decide, by decide,
    (C1_baseline_contract 2 0 4 8 sampleMem (by decide) (by decide)).2.2.2.1 1 0
      (by decide) (by decide)⟩

/-- C2. For every `N` that is a multiple of 8 and all `N × N` matrices `A`, `B` (`B` in
natural layout), `blocked3<N,8>` on a zero-filled `C` terminates and equals `baseline`
on a zero-filled `C` at every element in exact arithmetic (fused multiply-add as
`a·b+c`), hence differs from it by at most any `ε ≥ 0`; each call of `kernel_8x8` at a
tile origin `(x, y)` stores `C[x+i][y+j] = Σ_{k<N} A[x+i][k]·B[k][y+j]` for `i, j < 8`. -/
theorem C2_blocked3_eq_baseline {α : Type} [LinearOrderedField α] (N : Nat) (hdiv : 8 ∣ N)
    (a b : Buf α) :
    (∃ c', blocked3 N 8 a b zeroBuf = some c' ∧
      ∀ i k, i < N → k < N →
        c' (i * N + k) = baseline N a b zeroBuf (i * N + k) ∧
        ∀ ε : α, 0 ≤ ε → |c' (i * N + k) - baseline N a b zeroBuf (i * N + k)| ≤ ε) ∧
    (∀ (c : Buf α) (x y : Nat), x < N → y < N → 8 ∣ x → 8 ∣ y →
      ∃ c', kernel_8x8 N 8 a b c x y = some c' ∧
        ∀ i j, i < 8 → j < 8 →
          c' ((x + i) * N + (y + j))
            = ∑ k ∈ Finset.range N, a ((x + i) * N + k) * b (k * N + (y + j))) := by
  constructor
  · obtain ⟨c', h1, h2⟩ := blocked3_apply8 N hdiv a b zeroBuf
    refine ⟨c', h1, ?_⟩
    intro i k hi hk
    have e : c' (i * N + k) = baseline N a b zeroBuf (i * N + k) := by
      rw [h2 i k hi hk, baseline_exact N a b zeroBuf i k hi hk]
      show _ = (0 : α) + _
      rw [zero_add]
    refine ⟨e, ?_⟩
    intro ε hε
    rw [e, sub_self, abs_zero]
    exact hε
  · intro c x y _ hy _ hdy
    have hyB : y + 8 ≤ N := by
      have h1 := tile_end_le (tile_index_lt hdiv hy)
      rw [Nat.div_mul_cancel hdy] at h1
      exact h1
    obtain ⟨c', h1, h2⟩ := kernel_8x8_apply8 N hdiv a b c x y hyB
    refine ⟨c', h1, ?_⟩
    intro i j hi hj
    rw [h2 (x + i) (y + j) (by omega), if_pos (by omega)]

/-- Instance of C2: `N = 8`, rational entries, cell `(3, 5)`. -/
theorem C2_blocked3_eq_baseline_witness :
    8 ∣ 8 ∧ ∃ c', blocked3 8 8 sampleQA sampleQB zeroBuf = some c' ∧
      c' (3 * 8 + 5) = baseline 8 sampleQA sampleQB zeroBuf (3 * 8 + 5) :=
  ⟨by decide,
    (C2_blocked3_eq_baseline 8 (by decide) sampleQA sampleQB).1.imp
      (fun _ h => ⟨h.1, (h.2 3 5 (by decide) (by decide)).1⟩)⟩

/-- C3, evaluated at chunk width 16. With `N = 16`, `B = 16`, `A` and `B` filled with 1
and `C` zero-filled, the full product is 16 at every element. `kernel_8x8<16,16>` at
the origin runs a single reduction chunk and packs only the columns `0 .. 7` of `A`,
so it stores 8 in `C[0][0]`; `blocked3<16,16>` visits the single tile origin `(0, 0)`,
so `C[0][0] = 8` and `C[0][8]`, `C[8][8]` keep the value 0. -/
theorem C3_chunk16_evaluated :
    (∃ c', kernel_8x8 16 16 onesBuf onesBuf zeroBuf 0 0 = some c' ∧ c' (0 * 16 + 0) = 8) ∧
    (∃ c', blocked3 16 16 onesBuf onesBuf zeroBuf = some c' ∧
      c' (0 * 16 + 0) = 8 ∧ c' (0 * 16 + 8) = 0 ∧ c' (8 * 16 + 8) = 0) ∧
    ∑ k ∈ Finset.range 16, onesBuf (0 * 16 + k) * onesBuf (k * 16 + 0) = (16 : Int) := by
  obtain ⟨c', h1, h2⟩ :=
    kernel_8x8_apply 16 16 (by decide) (by decide) onesBuf onesBuf zeroBuf 0 0 (by decide)
  have hb : blocked3 16 16 onesBuf onesBuf zeroBuf
      = kernel_8x8 16 16 onesBuf onesBuf zeroBuf 0 0 := by
    have hl : strideList 16 16 = [0] := by decide
    simp [blocked3, forStride, hl]
  have v00 : c' (0 * 16 + 0) = 8 := by
    rw [h2 0 0 (by decide), if_pos (by decide)]
    simp [onesBuf]
  have v08 : c' (0 * 16 + 8) = 0 := by
    rw [h2 0 8 (by decide), if_neg (by decide)]
    rfl
  have v88 : c' (8 * 16 + 8) = 0 := by
    rw [h2 8 8 (by decide), if_neg (by decide)]
    rfl
  refine ⟨⟨c', h1, v00⟩, ⟨c', hb.trans h1, v00, v08, v88⟩, ?_⟩
  simp [onesBuf]

/-- C4, refuted as stated. `blocked<1,1>` with `A = B = [1]` and `C = [5]` yields
`C[0][0] = 1`, not `5 + 1·1`: the tile kernel stores its accumulators over `C`. -/
theorem C4_blocked_counterexample :
    ∃ c', blocked 1 1 onesBuf onesBuf fivesBuf = some c' ∧ c' (0 * 1 + 0) = 1 ∧
      c' (0 * 1 + 0)
        ≠ fivesBuf (0 * 1 + 0)
          + ∑ j ∈ Finset.range 1, onesBuf (0 * 1 + j) * onesBuf (j * 1 + 0) := by
  obtain ⟨c', h1, h2⟩ := blocked_apply 1 1 (by decide) (by decide) onesBuf onesBuf fivesBuf
  have v : c' (0 * 1 + 0) = 1 := by
    rw [h2 0 0 (by decide) (by decide)]
    decide
  refine ⟨c', h1, v, ?_⟩
  rw [v]
  decide

/-- C4, amended. `baseline`, `transposed`, `transpose_simd` and
`parallel_tranposed_simd` add into the existing contents of `C`: for every `N` meeting
the divisibility precondition of the kernel and every initial `C`,
`K(A, B, C)[i][k] = C[i][k] + P[i][k]`, with `P[i][k] = Σ_j A[i][j]·B[j][k]` for
`baseline` and `P[i][k] = Σ_j A[i][j]·B[k][j]` for the kernels that take a transposed
second operand. `blocked<N,B>` and `blocked3<N,8>` store the product over `C`:
`K(A, B, C)[i][k] = Σ_j A[i][j]·B[j][k]` for every initial `C`. -/
theorem C4_accumulate_or_overwrite {α : Type} [CommSemiring α] (a b c : Buf α) :
    (∀ N i k, i < N → k < N →
      baseline N a b c (i * N + k)
        = c (i * N + k) + ∑ j ∈ Finset.range N, a (i * N + j) * b (j * N + k)) ∧
    (∀ N i k, i < N → k < N →
      transposed N a b c (i * N + k)
        = c (i * N + k) + ∑ j ∈ Finset.range N, a (i * N + j) * b (k * N + j)) ∧
    (∀ N i k, 8 ∣ N → i < N → k < N →
      transpose_simd N a b c (i * N + k)
        = c (i * N + k) + ∑ j ∈ Finset.range N, a (i * N + j) * b (k * N + j)) ∧
    (∀ N (sched : Nat → Nat → List (Nat × Nat)) i k, 32 ∣ N →
      (∀ h v, (sched h v).Perm (tileIters v h)) → i < N → k < N →
      parallel_tranposed_simd sched N a b c (i * N + k)
        = c (i * N + k) + ∑ j ∈ Finset.range N, a (i * N + j) * b (k * N + j)) ∧
    (∀ N B, 1 ≤ B → B ∣ N →
      ∃ c', blocked N B a b c = some c' ∧ ∀ i k, i < N → k < N →
        c' (i * N + k) = ∑ j ∈ Finset.range N, a (i * N + j) * b (j * N + k)) ∧
    (∀ N, 8 ∣ N →
      ∃ c', blocked3 N 8 a b c = some c' ∧ ∀ i k, i < N → k < N →
        c' (i * N + k) = ∑ j ∈ Finset.range N, a (i * N + j) * b (j * N + k)) := by
  refine ⟨?_, ?_, ?_, ?_, ?_, ?_⟩
  · intro N i k hi hk
    exact baseline_exact N a b c i k hi hk
  · intro N i k hi hk
    rw [transposed_apply N a b c i k hi hk, dotFrom_eq_sum]
  · intro N i k hdiv hi hk
    rw [transpose_simd_apply N a b c i k hi hk, simd_ans_hsum N hdiv]
  · intro N sched i k hdiv hsched hi hk
    rw [parallel_apply N hdiv sched hsched a b c i k hi hk,
      simd_ans_hsum N (Nat.dvd_trans (by decide) hdiv)]
  · intro N B hB hdiv
    obtain ⟨c', h1, h2⟩ := blocked_apply N B (by omega) hdiv a b c
    refine ⟨c', h1, ?_⟩
    intro i k hi hk
    rw [h2 i k hi hk, dotFrom_eq_sum, zero_add]
  · intro N hdiv
    exact blocked3_apply8 N hdiv a b c

/-- Instance of C4 (amended): `blocked<4,2>` on a non-zero `C`, cell `(3, 1)`. -/
theorem C4_accumulate_or_overwrite_witness :
    1 ≤ 2 ∧ 2 ∣ 4 ∧ ∃ c', blocked 4 2 sampleA sampleB sampleC = some c' ∧
      c' (3 * 4 + 1) = ∑ j ∈ Finset.range 4, sampleA (3 * 4 + j) * sampleB (j * 4 + 1) :=
  ⟨by decide, by decide,
    ((C4_accumulate_or_overwrite sampleA sampleB sampleC).2.2.2.2.1 4 2
      (by decide) (by decide)).imp
      (fun _ h => ⟨h.1, h.2 3 1 (by decide) (by decide)⟩)⟩

/-- C5. The transposed-access kernel does not change the arithmetic: for every `N` and
all `A`, `B`, `C`, `transposed(A, transpose_matrix(B), C)` equals `baseline(A, B, C)` at
every element. Both accumulate the products `A[i][j]·B[j][k]`, `j = 0 .. N-1`, into
`C[i][k]` from the left in the same order, so the equality needs no law of `+` or `*`;
in exact arithmetic the value is `C[i][k] + Σ_j A[i][j]·Bt[k][j]` with
`Bt[k][j] = B[j][k]`. -/
theorem C5_transposed_eq_baseline {α : Type} [Add α] [Mul α] (N : Nat) (a b c : Buf α)
    (i k : Nat) (hi : i < N) (hk : k < N) :
    transposed N a (transpose_matrix N b) c (i * N + k) = baseline N a b c (i * N + k) ∧
    transposed N a (transpose_matrix N b) c (i * N + k)
      = dotFrom N (fun j => a (i * N + j)) (fun j => b (j * N + k)) (c (i * N + k)) ∧
    baseline N a b c (i * N + k)
      = dotFrom N (fun j => a (i * N + j)) (fun j => b (j * N + k)) (c (i * N + k)) ∧
    (∀ j, j < N → transpose_matrix N b (k * N + j) = b (j * N + k)) ∧
    (∀ (β : Type) [CommSemiring β] (a b c : Buf β),
      transposed N a (transpose_matrix N b) c (i * N + k)
        = c (i * N + k)
          + ∑ j ∈ Finset.range N, a (i * N + j) * transpose_matrix N b (k * N + j)) := by
  have ht : ∀ (γ : Type) [Add γ] [Mul γ] (a b c : Buf γ),
      transposed N a (transpose_matrix N b) c (i * N + k)
        = dotFrom N (fun j => a (i * N + j)) (fun j => b (j * N + k)) (c (i * N + k)) := by
    intro γ _ _ a b c
    rw [transposed_apply N a _ c i k hi hk]
    exact dotFrom_congr N _ _ _ _ _ (fun _ _ => rfl)
      (fun j hj => transpose_apply N b k j hk hj)
  refine ⟨?_, ht α a b c, baseline_apply N a b c i k hi hk,
    fun j hj => transpose_apply N b k j hk hj, ?_⟩
  · rw [ht α a b c, baseline_apply N a b c i k hi hk]
  · intro β _ a b c
    rw [transposed_apply N a _ c i k hi hk, dotFrom_eq_sum]

/-- Instance of C5: `N = 3`, cell `(2, 1)`. -/
theorem C5_transposed_eq_baseline_witness :
    transposed 3 sampleA (transpose_matrix 3 sampleB) sampleC (2 * 3 + 1)
      = baseline 3 sampleA sampleB sampleC (2 * 3 + 1) :=
  (C5_transposed_eq_baseline 3 sampleA sampleB sampleC 2 1 (by decide) (by decide)).1

/-- C6. For every `N` that is a multiple of 8 and all `A`, `B`, `C`,
`transpose_simd(A, transpose_matrix(B), C)` adds to each `C[i][k]` the horizontal sum of
an 8-lane accumulator whose lane `l` holds the sum over `j ≡ l (mod 8)` of
`A[i][j]·Bt[k][j]`; in exact arithmetic this is `C[i][k] + Σ_{j<N} A[i][j]·B[j][k]`, so
on a zero-filled `C` the kernel equals `baseline` at every element. -/
theorem C6_transpose_simd {α : Type} [CommSemiring α] (N : Nat) (hdiv : 8 ∣ N)
    (a b c : Buf α) (i k : Nat) (hi : i < N) (hk : k < N) :
    transpose_simd N a (transpose_matrix N b) c (i * N + k)
      = c (i * N + k)
        + ∑ l ∈ Finset.range 8,
            (simd_ans N a (transpose_matrix N b) (i * N) (k * N)).lane l ∧
    (∀ l, l < 8 →
      (simd_ans N a (transpose_matrix N b) (i * N) (k * N)).lane l
        = ∑ j ∈ (Finset.range N).filter (fun j => j % 8 = l),
            a (i * N + j) * transpose_matrix N b (k * N + j)) ∧
    transpose_simd N a (transpose_matrix N b) c (i * N + k)
      = c (i * N + k) + ∑ j ∈ Finset.range N, a (i * N + j) * b (j * N + k) ∧
    transpose_simd N a (transpose_matrix N b) zeroBuf (i * N + k)
      = baseline N a b zeroBuf (i * N + k) := by
  have hsum : ∀ c : Buf α, transpose_simd N a (transpose_matrix N b) c (i * N + k)
      = c (i * N + k) + ∑ j ∈ Finset.range N, a (i * N + j) * b (j * N + k) := by
    intro c
    rw [transpose_simd_apply N a _ c i k hi hk, simd_ans_hsum N hdiv]
    congr 1
    apply Finset.sum_congr rfl
    intro j hj
    rw [transpose_apply N b k j hk (Finset.mem_range.1 hj)]
  refine ⟨transpose_simd_apply N a _ c i k hi hk, ?_, hsum c, ?_⟩
  · intro l hl
    rw [simd_ans_lane N hdiv a _ (i * N) (k * N) l hl,
      lane_sum_mod (N / 8) l hl
        (fun j => a (i * N + j) * transpose_matrix N b (k * N + j)),
      Nat.div_mul_cancel hdiv]
  · rw [hsum zeroBuf, baseline_exact N a b zeroBuf i k hi hk]

/-- Instance of C6: `N = 8`, cell `(3, 5)`. -/
theorem C6_transpose_simd_witness :
    8 ∣ 8 ∧
    transpose_simd 8 sampleA (transpose_matrix 8 sampleB) zeroBuf (3 * 8 + 5)
      = baseline 8 sampleA sampleB zeroBuf (3 * 8 + 5) :=
  ⟨by decide,
    (C6_transpose_simd 8 (by decide) sampleA sampleB sampleC 3 5
      (by decide) (by decide)).2.2.2⟩

/-- C7. For every `N` that is a multiple of `BLOCK_SIZE = 32` and all `A`, `B`,
`parallel_tranposed_simd(A, transpose_matrix(B), C)`, with the `(row, col)` iterations of
each collapsed loop executed in any order, computes for every element the same value as
`transpose_simd` on the same inputs, and equals `baseline(A, B, C)` at every element in
exact arithmetic; in particular for a zero-filled `C`. -/
theorem C7_parallel_eq_transpose_simd {α : Type} [CommSemiring α] (N : Nat)
    (hdiv : 32 ∣ N) (sched : Nat → Nat → List (Nat × Nat))
    (hsched : ∀ h v, (sched h v).Perm (tileIters v h)) (a b c : Buf α) (i k : Nat)
    (hi : i < N) (hk : k < N) :
    parallel_tranposed_simd sched N a (transpose_matrix N b) c (i * N + k)
      = transpose_simd N a (transpose_matrix N b) c (i * N + k) ∧
    parallel_tranposed_simd sched N a (transpose_matrix N b) c (i * N + k)
      = baseline N a b c (i * N + k) ∧
    parallel_tranposed_simd sched N a (transpose_matrix N b) zeroBuf (i * N + k)
      = baseline N a b zeroBuf (i * N + k) := by
  have h8 : 8 ∣ N := Nat.dvd_trans (by decide) hdiv
  have hpar : ∀ c : Buf α,
      parallel_tranposed_simd sched N a (transpose_matrix N b) c (i * N + k)
        = transpose_simd N a (transpose_matrix N b) c (i * N + k) := by
    intro c
    rw [parallel_apply N hdiv sched hsched a _ c i k hi hk,
      transpose_simd_apply N a _ c i k hi hk]
  have hbase : ∀ c : Buf α,
      transpose_simd N a (transpose_matrix N b) c (i * N + k)
        = baseline N a b c (i * N + k) := by
    intro c
    rw [transpose_simd_apply N a _ c i k hi hk, simd_ans_hsum N h8,
      baseline_exact N a b c i k hi hk]
    congr 1
    apply Finset.sum_congr rfl
    intro j hj
    rw [transpose_apply N b k j hk (Finset.mem_range.1 hj)]
  exact ⟨hpar c, (hpar c).trans (hbase c), (hpar zeroBuf).trans (hbase zeroBuf)⟩

/-- Instance of C7: `N = 32`, every tile run in reverse order, cell `(3, 5)`. -/
theorem C7_parallel_eq_transpose_simd_witness :
    32 ∣ 32 ∧
    parallel_tranposed_simd reversedSched 32 sampleA (transpose_matrix 32 sampleB) zeroBuf
        (3 * 32 + 5)
      = baseline 32 sampleA sampleB zeroBuf (3 * 32 + 5) :=
  ⟨by decide,
    (C7_parallel_eq_transpose_simd 32 (by decide) reversedSched
      (fun h v => List.reverse_perm (tileIters v h)) sampleA sampleB sampleC 3 5
      (by decide) (by decide)).2.2⟩

/-- C8. For every tile width `B ≥ 1`, every `N` that is a multiple of `B` and every tile
origin `(x, y)` with `x`, `y` multiples of `B` below `N`, `kernel<N,B>` starts from zero
accumulators, stores `C[x+i][y+j] = Σ_{k<N} A[x+i][k]·B[k][y+j]` for `i, j < B` and leaves
every element of `C` outside the tile unchanged; consequently `blocked<N,B>` terminates
and on a zero-filled `C` equals `baseline` on a zero-filled `C` at every element. -/
theorem C8_register_blocked {α : Type} [CommSemiring α] (N B : Nat) (hB : 1 ≤ B)
    (hdiv : B ∣ N) (a b c : Buf α) :
    (∀ x y, x < N → y < N → B ∣ x → B ∣ y →
      (∀ i j, i < B → j < B → kernel_cx N B a b x y 0 i j = 0) ∧
      (∀ i j, i < B → j < B →
        kernel N B a b c x y ((x + i) * N + (y + j))
          = ∑ k ∈ Finset.range N, a ((x + i) * N + k) * b (k * N + (y + j))) ∧
      (∀ r s, r < N → s < N → ¬ (x ≤ r ∧ r < x + B ∧ y ≤ s ∧ s < y + B) →
        kernel N B a b c x y (r * N + s) = c (r * N + s))) ∧
    (∃ c', blocked N B a b zeroBuf = some c' ∧
      ∀ i k, i < N → k < N → c' (i * N + k) = baseline N a b zeroBuf (i * N + k)) := by
  constructor
  · intro x y hx hy hdx hdy
    have hyB : y + B ≤ N := by
      have h1 := tile_end_le (tile_index_lt hdiv hy)
      rw [Nat.div_mul_cancel hdy] at h1
      exact h1
    refine ⟨?_, ?_, ?_⟩
    · intro i j hi hj
      rw [kernel_cx_apply N B a b x y 0 i j hi hj]
      rfl
    · intro i j hi hj
      rw [kernel_apply N B a b c x y hyB (x + i) (y + j) (by omega), if_pos (by omega),
        dotFrom_eq_sum, zero_add]
    · intro r s _ hs hout
      rw [kernel_apply N B a b c x y hyB r s hs, if_neg hout]
  · obtain ⟨c', hc', hval⟩ := blocked_apply N B (by omega) hdiv a b zeroBuf
    refine ⟨c', hc', ?_⟩
    intro i k hi hk
    rw [hval i k hi hk, baseline_apply N a b zeroBuf i k hi hk]
    rfl

/-- Instance of C8: `N = 4`, `B = 2`, tile origin `(2, 0)`, cell `(1, 1)` of the tile. -/
theorem C8_register_blocked_witness :
    1 ≤ 2 ∧ 2 ∣ 4 ∧
    kernel 4 2 sampleA sampleB sampleC 2 0 ((2 + 1) * 4 + (0 + 1))
      = ∑ k ∈ Finset.range 4, sampleA ((2 + 1) * 4 + k) * sampleB (k * 4 + (0 + 1)) :=
  ⟨by decide, by decide,
    ((C8_register_blocked 4 2 (by decide) (by decide) sampleA sampleB sampleC).1 2 0
      (by decide) (by decide) (by decide) (by decide)).2.1 1 1 (by decide) (by decide)⟩

/-- C9. For every `N` and every `N × N` matrix `M`, `transpose_matrix` yields `M'` with
`M'[i][j] = M[j][i]` for all `i, j < N`, and applying it twice restores the original
buffer exactly. -/
theorem C9_transpose_involution {α : Type} (N : Nat) (m : Buf α) :
    (∀ i j, i < N → j < N → transpose_matrix N m (i * N + j) = m (j * N + i)) ∧
    transpose_matrix N (transpose_matrix N m) = m :=
  ⟨fun i j hi hj => transpose_apply N m i j hi hj, transpose_twice N m⟩

/-- Instance of C9: `N = 3`, cell `(1, 2)`. -/
theorem C9_transpose_involution_witness :
    transpose_matrix 3 sampleA (1 * 3 + 2) = sampleA (2 * 3 + 1) :=
  (C9_transpose_involution 3 sampleA).1 1 2 (by decide) (by decide)

/-- C10. For every `N` (in particular every multiple of 8), every `N × N` matrix `M` and
every 8×8 tile origin `(x, y)` whose columns `y .. y+7` lie inside `M`, packing the tile
with `pack_into_vecs` and unpacking the result with `unpack_from_vecs` at the same
`(x, y)` into any target `T` yields a target whose tile at `(x, y)` equals the tile of
`M` and whose every other element is unchanged; unpacking back into `M` leaves `M`
unchanged. -/
theorem C10_pack_unpack_roundtrip {α : Type} [Zero α] (N : Nat) (m tgt : Buf α)
    (regs : Buf (Vec8 α)) (x y : Nat) (hy : y + 8 ≤ N) :
    (∀ i j, i < 8 → j < 8 →
      unpack_from_vecs N tgt (pack_into_vecs N regs m x y) x y ((x + i) * N + (y + j))
        = m ((x + i) * N + (y + j))) ∧
    (∀ r s, s < N → ¬ (x ≤ r ∧ r < x + 8 ∧ y ≤ s ∧ s < y + 8) →
      unpack_from_vecs N tgt (pack_into_vecs N regs m x y) x y (r * N + s)
        = tgt (r * N + s)) ∧
    unpack_from_vecs N m (pack_into_vecs N regs m x y) x y = m := by
  refine ⟨?_, ?_, ?_⟩
  · intro i j hi hj
    rw [unpack_pack_apply N regs m tgt x y hy (x + i) (y + j) (by omega), if_pos (by omega)]
  · intro r s hs hout
    rw [unpack_pack_apply N regs m tgt x y hy r s hs, if_neg hout]
  · funext t
    obtain ⟨e, hlt⟩ := flat_decomp N t (by omega)
    rw [← e, unpack_pack_apply N regs m m x y hy (t / N) (t % N) hlt]
    simp

/-- Instance of C10: `N = 16`, tile origin `(8, 8)`, cell `(3, 5)` of the tile. -/
theorem C10_pack_unpack_roundtrip_witness :
    8 + 8 ≤ 16 ∧
    unpack_from_vecs 16 sampleC (pack_into_vecs 16 noVecs sampleA 8 8) 8 8
        ((8 + 3) * 16 + (8 + 5))
      = sampleA ((8 + 3) * 16 + (8 + 5)) :=
  ⟨by decide,
    (C10_pack_unpack_roundtrip 16 sampleA sampleC noVecs 8 8 (by decide)).1 3 5
      (by decide) (by decide)⟩

/-- C11. For every `B`, `N` and every tile origin `(x, y)`, `pack_transpose` produces the
transposed layout of the tile that `pack` produces:
`pack_transpose(M, x, y)[j·B+i] = M[x+i][y+j] = pack(M, x, y)[i·B+j]` for all `i, j < B`;
when the tile lies inside `M`, `pack_transpose(M, x, y) = pack(transpose_matrix(M), y, x)`
as whole scratch buffers. -/
theorem C11_pack_transpose {α : Type} (N B : Nat) (m dst : Buf α) (x y : Nat) :
    (∀ i j, i < B → j < B →
      pack_transpose N B dst m x y (j * B + i) = m ((x + i) * N + (y + j)) ∧
      pack N B dst m x y (i * B + j) = m ((x + i) * N + (y + j))) ∧
    (x + B ≤ N → y + B ≤ N →
      pack_transpose N B dst m x y = pack N B dst (transpose_matrix N m) y x) := by
  constructor
  · intro i j hi hj
    exact ⟨pack_transpose_apply N B dst m x y i j hi hj, pack_apply N B dst m x y i j hi hj⟩
  · intro hx hy
    funext t
    by_cases ht : t < B * B
    · obtain ⟨hr, hs, e⟩ := cell_decomp ht
      rw [← e, pack_transpose_apply N B dst m x y (t % B) (t / B) hs hr,
        pack_apply N B dst _ y x (t / B) (t % B) hr hs,
        transpose_apply N m (y + t / B) (x + t % B) (by omega) (by omega)]
    · rw [(pack_outside N B dst m x y t (by omega)).2,
        (pack_outside N B dst (transpose_matrix N m) y x t (by omega)).1]

/-- Instance of C11: `N = 8`, `B = 4`, tile origin `(4, 0)`, cell `(1, 3)` of the tile. -/
theorem C11_pack_transpose_witness :
    pack_transpose 8 4 sampleC sampleA 4 0 (3 * 4 + 1) = sampleA ((4 + 1) * 8 + (0 + 3)) ∧
    (4 + 4 ≤ 8 ∧ 0 + 4 ≤ 8 ∧
      pack_transpose 8 4 sampleC sampleA 4 0
        = pack 8 4 sampleC (transpose_matrix 8 sampleA) 0 4) :=
  ⟨((C11_pack_transpose 8 4 sampleA sampleC 4 0).1 1 3 (by decide) (by decide)).1,
    by decide, by decide,
    (C11_pack_transpose 8 4 sampleA sampleC 4 0).2 (by decide) (by decide)⟩

/-- C12. For every `N` that is a multiple of 8, one call of `blocked3<N,8>` writes every
output element `C[i][j]`, `i, j < N`, exactly once: the 8×8 tiles at the origins visited
by `blocked3` are pairwise disjoint and together cover `[0,N)×[0,N)`, each `kernel_8x8`
call stores exactly the 64 elements of its own tile (and leaves every cell it does not
store as it was), so no element is skipped, none is written twice, and nothing outside
the matrix is written. -/
theorem C12_blocked3_writes_once {α : Type} [CommSemiring α] (N : Nat) (hdiv : 8 ∣ N)
    (a b c : Buf α) :
    (∀ r s, r < N → s < N →
      ∃ x y, x ∈ strideList N 8 ∧ y ∈ strideList N 8 ∧
        (x ≤ r ∧ r < x + 8 ∧ y ≤ s ∧ s < y + 8) ∧
        ∀ x' y', x' ∈ strideList N 8 → y' ∈ strideList N 8 →
          (x' ≤ r ∧ r < x' + 8 ∧ y' ≤ s ∧ s < y' + 8) → x' = x ∧ y' = y) ∧
    (∀ x y, x ∈ strideList N 8 → y ∈ strideList N 8 →
      (cellsWritten (kernel_8x8_trace N 8 x y)).Nodup ∧
      (cellsWritten (kernel_8x8_trace N 8 x y)).length = 64 ∧
      (∀ t, t ∈ cellsWritten (kernel_8x8_trace N 8 x y)
        ↔ ∃ i l, i < 8 ∧ l < 8 ∧ t = (x + i) * N + (y + l)) ∧
      ∃ c', kernel_8x8 N 8 a b c x y = some c' ∧
        ∀ r s, s < N → r * N + s ∉ cellsWritten (kernel_8x8_trace N 8 x y) →
          c' (r * N + s) = c (r * N + s)) ∧
    (∀ r s, r < N → s < N → (cellsWritten (blocked3_trace N 8)).count (r * N + s) = 1) ∧
    (∀ t, t ∈ cellsWritten (blocked3_trace N 8) → t < N * N) := by
  have hB : 0 < 8 := by decide
  refine ⟨?_, ?_, ?_, ?_⟩
  · intro r s hr hs
    have h1 := @tile_hit_iff 8 (r / 8) r hB
    have h2 := @tile_hit_iff 8 (s / 8) s hB
    refine ⟨r / 8 * 8, s / 8 * 8,
      (mem_strideList N 8 hB hdiv _).2 ⟨r / 8, tile_index_lt hdiv hr, rfl⟩,
      (mem_strideList N 8 hB hdiv _).2 ⟨s / 8, tile_index_lt hdiv hs, rfl⟩,
      ⟨(h1.2 rfl).1, (h1.2 rfl).2, (h2.2 rfl).1, (h2.2 rfl).2⟩, ?_⟩
    intro x' y' hx' hy' hin
    obtain ⟨qi, _, rfl⟩ := (mem_strideList N 8 hB hdiv x').1 hx'
    obtain ⟨qj, _, rfl⟩ := (mem_strideList N 8 hB hdiv y').1 hy'
    have e1 := (@tile_hit_iff 8 qi r hB).1 ⟨hin.1, hin.2.1⟩
    have e2 := (@tile_hit_iff 8 qj s hB).1 ⟨hin.2.2.1, hin.2.2.2⟩
    rw [e1, e2]
    exact ⟨rfl, rfl⟩
  · intro x y _ hy
    obtain ⟨qj, hqj, rfl⟩ := (mem_strideList N 8 hB hdiv y).1 hy
    have hyB := tile_end_le hqj
    refine ⟨nodup_kernel_8x8_cells N 8 x _ (by omega), ?_, mem_kernel_8x8_cells N 8 x _, ?_⟩
    · rw [kernel_8x8_cells]
      rfl
    · obtain ⟨c', h1, h2⟩ := kernel_8x8_apply8 N hdiv a b c x (qj * 8) hyB
      refine ⟨c', h1, ?_⟩
      intro r s hs hnot
      rw [h2 r s hs, if_neg]
      intro hin
      apply hnot
      rw [mem_kernel_8x8_cells]
      refine ⟨r - x, s - qj * 8, by omega, by omega, ?_⟩
      have e1 : x + (r - x) = r := by omega
      have e2 : qj * 8 + (s - qj * 8) = s := by omega
      rw [e1, e2]
  · intro r s hr hs
    exact count_one_of_nodup_mem _ _ (nodup_blocked3_cells N hdiv)
      ((mem_blocked3_cells N hdiv _).2 ⟨r, s, hr, hs, rfl⟩)
  · intro t ht
    obtain ⟨r, s, hr, hs, rfl⟩ := (mem_blocked3_cells N hdiv t).1 ht
    exact idx_lt hr hs

/-- Instance of C12: `N = 16`, element `(11, 13)`. -/
theorem C12_blocked3_writes_once_witness :
    8 ∣ 16 ∧ (cellsWritten (blocked3_trace 16 8)).count (11 * 16 + 13) = 1 :=
  ⟨by decide,
    (C12_blocked3_writes_once 16 (by decide) sampleA sampleB sampleC).2.2.1 11 13
      (by decide) (by decide)⟩

/-- C13. For every `N` that is a multiple of `BLOCK_SIZE = 32`, the loop nest of
`parallel_tranposed_simd` is a partition of the output: over one call every pair
`(row, col)` in `[0,N)×[0,N)` is assigned to exactly one iteration and no other pair is
iterated; the iteration for `(row, col)` modifies no memory cell other than
`C[row][col]`, in particular no other element of `C` and no element of `A` or `B`; hence
the final `C` is the same for every execution order of the iterations inside each
parallel loop. -/
theorem C13_parallel_partition {α : Type} [CommSemiring α] (N : Nat) (hdiv : 32 ∣ N)
    (a b c : Buf α) :
    ((parIters N).Nodup ∧ (∀ rc, rc ∈ parIters N ↔ rc.1 < N ∧ rc.2 < N) ∧
      (∀ row col, row < N → col < N → (parIters N).count (row, col) = 1)) ∧
    parallel_tranposed_simd lexSched N a b c
      = (parIters N).foldl (fun c rc => simd_cell N a b rc.1 rc.2 c) c ∧
    (∀ (pa pb pc : Nat) (mem : Buf α) (row col : Nat), row < N → col < N →
      (∀ t, t ≠ pc + (row * N + col) → simd_cell_mem N pa pb pc row col mem t = mem t) ∧
      (apart pc pa (N * N) → ∀ t, t < N * N →
        simd_cell_mem N pa pb pc row col mem (pa + t) = mem (pa + t)) ∧
      (apart pc pb (N * N) → ∀ t, t < N * N →
        simd_cell_mem N pa pb pc row col mem (pb + t) = mem (pb + t)) ∧
      (∀ r s, r < N → s < N → ¬ (r = row ∧ s = col) →
        simd_cell_mem N pa pb pc row col mem (pc + (r * N + s))
          = mem (pc + (r * N + s)))) ∧
    (∀ sched1 sched2 : Nat → Nat → List (Nat × Nat),
      (∀ h v, (sched1 h v).Perm (tileIters v h)) →
      (∀ h v, (sched2 h v).Perm (tileIters v h)) →
      ∀ i k, i < N → k < N →
        parallel_tranposed_simd sched1 N a b c (i * N + k)
          = parallel_tranposed_simd sched2 N a b c (i * N + k)) := by
  refine ⟨⟨nodup_parIters N hdiv, mem_parIters N hdiv, ?_⟩, parallel_lex_eq N a b c, ?_, ?_⟩
  · intro row col hr hc
    exact count_one_of_nodup_mem _ _ (nodup_parIters N hdiv)
      ((mem_parIters N hdiv (row, col)).2 ⟨hr, hc⟩)
  · intro pa pb pc mem row col hr hc
    have hframe := (simd_cell_mem_apply N pa pb pc row col mem).1
    have hcell := idx_lt hr hc
    refine ⟨hframe, ?_, ?_, ?_⟩
    · intro hap t ht
      unfold apart at hap
      exact hframe _ (by omega)
    · intro hap t ht
      unfold apart at hap
      exact hframe _ (by omega)
    · intro r s _ hs hne
      apply hframe
      intro e
      have e' : r * N + s = row * N + col := by omega
      exact hne ((idx_inj hs hc).1 e')
  · intro sched1 sched2 h1 h2 i k hi hk
    rw [parallel_apply N hdiv sched1 h1 a b c i k hi hk,
      parallel_apply N hdiv sched2 h2 a b c i k hi hk]

/-- Instance of C13: `N = 32`, lexical against reversed order, cell `(3, 5)`. -/
theorem C13_parallel_partition_witness :
    32 ∣ 32 ∧ (parIters 32).count (3, 5) = 1 ∧
    parallel_tranposed_simd lexSched 32 sampleA sampleB sampleC (3 * 32 + 5)
      = parallel_tranposed_simd reversedSched 32 sampleA sampleB sampleC (3 * 32 + 5) :=
  ⟨by decide,
    (C13_parallel_partition 32 (by decide) sampleA sampleB sampleC).1.2.2 3 5
      (by decide) (by decide),
    (C13_parallel_partition 32 (by decide) sampleA sampleB sampleC).2.2.2
      lexSched reversedSched (fun _ _ => List.Perm.refl _)
      (fun h v => List.reverse_perm (tileIters v h)) 3 5 (by decide) (by decide)⟩

/-- C14, refuted as stated. With `N = 16` the kernels whose tiles are `BLOCK_SIZE = 32`
wide leave the 16×16 buffers: `tiled` and `parallel` store to `c[16*16+0]`, and
`parallel_tranposed_simd` loads eight floats from `&a[16*16+0]`, all past the last
element `255`. -/
theorem C14_block32_counterexample :
    (wr Region.c (16 * 16 + 0) ∈ tiled_trace 16
      ∧ ¬ (wr Region.c (16 * 16 + 0)).inBounds 16) ∧
    (wr Region.c (16 * 16 + 0) ∈ parallel_trace 16
      ∧ ¬ (wr Region.c (16 * 16 + 0)).inBounds 16) ∧
    (vload Region.a (16 * 16 + 0) ∈ parallel_tranposed_simd_trace 16
      ∧ ¬ (vload Region.a (16 * 16 + 0)).inBounds 16) :=
  ⟨⟨tiled_trace_16_row16,
      fun h => absurd (show 16 * 16 + 0 + 1 ≤ 16 * 16 from h) (by decide)⟩,
    ⟨parallel_trace_16_row16,
      fun h => absurd (show 16 * 16 + 0 + 1 ≤ 16 * 16 from h) (by decide)⟩,
    ⟨parallel_tranposed_simd_trace_16_row16,
      fun h => absurd (show 16 * 16 + 0 + 8 ≤ 16 * 16 from h) (by decide)⟩⟩

/-- C14, amended. With `N = 16`, tile/pack width 8, `A` the 16×16 identity, `B` filled
with 1 and `C` zero-filled, the kernels `baseline`, `transposed`, `blocked_2x2`,
`blocked<16,8>`, `blocked2<16,8>`, `blocked3<16,8>` and `transpose_simd` access only
indices inside the 16×16 buffers and produce `C` filled entirely with 1. The kernels
`tiled`, `parallel` and `parallel_tranposed_simd` step in tiles of `BLOCK_SIZE = 32`: for
every `N` that is a multiple of 32, with `A` the `N × N` identity, `B` filled with 1 and
`C` zero-filled, they access only indices inside the `N × N` buffers and produce `C`
filled entirely with 1 (the parallel ones for every arrangement of the iterations of a
tile). -/
theorem C14_identity_times_ones {α : Type} [CommSemiring α] :
    ((∀ i k, i < 16 → k < 16 →
        baseline 16 (identityBuf 16) allOnes zeroBuf (i * 16 + k) = (1 : α)) ∧
      ∀ acc, acc ∈ baseline_trace 16 → acc.inBounds 16) ∧
    ((∀ i k, i < 16 → k < 16 →
        transposed 16 (identityBuf 16) allOnes zeroBuf (i * 16 + k) = (1 : α)) ∧
      ∀ acc, acc ∈ transposed_trace 16 → acc.inBounds 16) ∧
    ((∀ i k, i < 16 → k < 16 →
        blocked_2x2 16 (identityBuf 16) allOnes zeroBuf (i * 16 + k) = (1 : α)) ∧
      ∀ acc, acc ∈ blocked_2x2_trace 16 → acc.inBounds 16) ∧
    ((∃ c', blocked 16 8 (identityBuf 16) allOnes zeroBuf = some c' ∧
        ∀ i k, i < 16 → k < 16 → c' (i * 16 + k) = (1 : α)) ∧
      ∀ acc, acc ∈ blocked_trace 16 8 → acc.inBounds 16) ∧
    ((∃ c', blocked2 16 8 (identityBuf 16) allOnes zeroBuf = some c' ∧
        ∀ i k, i < 16 → k < 16 → c' (i * 16 + k) = (1 : α)) ∧
      ∀ acc, acc ∈ blocked2_trace 16 8 → acc.inBounds 16) ∧
    ((∃ c', blocked3 16 8 (identityBuf 16) allOnes zeroBuf = some c' ∧
        ∀ i k, i < 16 → k < 16 → c' (i * 16 + k) = (1 : α)) ∧
      ∀ acc, acc ∈ blocked3_trace 16 8 → acc.inBounds 16) ∧
    ((∀ i k, i < 16 → k < 16 →
        transpose_simd 16 (identityBuf 16) allOnes zeroBuf (i * 16 + k) = (1 : α)) ∧
      ∀ acc, acc ∈ transpose_simd_trace 16 → acc.inBounds 16) ∧
    (∀ N, 32 ∣ N →
      (∀ i k, i < N → k < N →
        tiled N (identityBuf N) allOnes zeroBuf (i * N + k) = (1 : α)) ∧
      ∀ acc, acc ∈ tiled_trace N → acc.inBounds N) ∧
    (∀ N (sched : Nat → Nat → List (Nat × Nat)), 32 ∣ N →
      (∀ h v, (sched h v).Perm (tileIters v h)) →
      (∀ i k, i < N → k < N →
        parallel sched N (identityBuf N) allOnes zeroBuf (i * N + k) = (1 : α)) ∧
      ∀ acc, acc ∈ parallel_trace N → acc.inBounds N) ∧
    (∀ N (sched : Nat → Nat → List (Nat × Nat)), 32 ∣ N →
      (∀ h v, (sched h v).Perm (tileIters v h)) →
      (∀ i k, i < N → k < N →
        parallel_tranposed_simd sched N (identityBuf N) allOnes zeroBuf (i * N + k)
          = (1 : α)) ∧
      ∀ acc, acc ∈ parallel_tranposed_simd_trace N → acc.inBounds N) := by
  have z : ∀ t, (zeroBuf : Buf α) t = 0 := fun _ => rfl
  have h8 : 8 ∣ 16 := by decide
  have p8 : 0 < 8 := by decide
  refine ⟨⟨?_, baseline_trace_ok 16⟩, ⟨?_, transposed_trace_ok 16⟩,
    ⟨?_, blocked_2x2_trace_ok 16 (by decide)⟩, ⟨?_, blocked_trace_ok 16 8 p8 h8⟩,
    ⟨?_, blocked2_trace_ok 16 8 p8 h8⟩,
    ⟨?_, fun acc h => (blocked3_trace_ok 16 h8 acc h).1⟩,
    ⟨?_, fun acc h => (transpose_simd_trace_ok 16 h8 acc h).1⟩, ?_, ?_, ?_⟩
  · intro i k hi hk
    rw [baseline_exact 16 _ _ _ i k hi hk, z, zero_add, identity_ones_dot 16 i k hi]
  · intro i k hi hk
    rw [transposed_apply 16 _ _ _ i k hi hk, dotFrom_eq_sum, z, zero_add,
      identity_ones_dotT 16 i k hi]
  · intro i k hi hk
    rw [blocked_2x2_apply 16 (by decide) _ _ _ i k hi hk, dotFrom_eq_sum, zero_add,
      identity_ones_dot 16 i k hi]
  · obtain ⟨c', h1, h2⟩ := blocked_apply 16 8 p8 h8 (identityBuf 16 : Buf α) allOnes zeroBuf
    refine ⟨c', h1, ?_⟩
    intro i k hi hk
    rw [h2 i k hi hk, dotFrom_eq_sum, zero_add, identity_ones_dot 16 i k hi]
  · obtain ⟨c', h1, h2⟩ := blocked2_apply 16 8 p8 h8 (identityBuf 16 : Buf α) allOnes zeroBuf
    refine ⟨c', h1, ?_⟩
    intro i k hi hk
    rw [h2 i k hi hk, identity_ones_dot 16 i k hi]
  · obtain ⟨c', h1, h2⟩ := blocked3_apply8 16 h8 (identityBuf 16 : Buf α) allOnes zeroBuf
    refine ⟨c', h1, ?_⟩
    intro i k hi hk
    rw [h2 i k hi hk, identity_ones_dot 16 i k hi]
  · intro i k hi hk
    rw [transpose_simd_apply 16 _ _ _ i k hi hk, simd_ans_hsum 16 h8, z, zero_add,
      identity_ones_dotT 16 i k hi]
  · intro N hdiv
    refine ⟨?_, tiled_trace_ok N hdiv⟩
    intro i k hi hk
    rw [tiled_apply N hdiv _ _ _ i k hi hk, z, zero_add, identity_ones_dot N i k hi]
  · intro N sched hdiv hsched
    refine ⟨?_, parallel_trace_ok N hdiv⟩
    intro i k hi hk
    rw [parallel_scalar_apply N hdiv sched hsched _ _ _ i k hi hk, z, zero_add,
      identity_ones_dot N i k hi]
  · intro N sched hdiv hsched
    refine ⟨?_, fun acc h => (parallel_tranposed_simd_trace_ok N hdiv acc h).1⟩
    intro i k hi hk
    rw [parallel_apply N hdiv sched hsched _ _ _ i k hi hk,
      simd_ans_hsum N (Nat.dvd_trans (by decide) hdiv), z, zero_add,
      identity_ones_dotT N i k hi]

/-- Instance of C14 (amended): `tiled` at `N = 32`, cell `(31, 5)`. -/
theorem C14_identity_times_ones_witness :
    32 ∣ 32 ∧ tiled 32 (identityBuf 32) allOnes zeroBuf (31 * 32 + 5) = (1 : ℚ) :=
  ⟨by decide,
    ((@C14_identity_times_ones ℚ _).2.2.2.2.2.2.2.1 32 (by decide)).1 31 5
      (by decide) (by decide)⟩

/-- C15. For all `N × N` matrices `mat` and `ans` over exact arithmetic,
`check_matrix(mat, ans)` returns `true` (no mismatch reported) if and only if
`|mat[i][j] − ans[i][j]| ≤ ERR` for every `i, j < N`; when it returns `false`, the
reported location `(i, j)` is the first element in row-major order whose absolute
difference exceeds `ERR`, and the reported magnitude is that difference. The function
only reads the two matrices. -/
theorem C15_check_matrix {α : Type} [LinearOrderedRing α] (N : Nat) (ERR : α)
    (mat ans : Buf α) :
    (check_matrix N ERR mat ans = none ↔
      ∀ i j, i < N → j < N → |mat (i * N + j) - ans (i * N + j)| ≤ ERR) ∧
    (∀ m, check_matrix N ERR mat ans = some m →
      m.i < N ∧ m.j < N ∧ m.diff = |mat (m.i * N + m.j) - ans (m.i * N + m.j)| ∧
      ERR < m.diff ∧
      ∀ i j, i < N → j < N → (i < m.i ∨ (i = m.i ∧ j < m.j)) →
        |mat (i * N + j) - ans (i * N + j)| ≤ ERR) :=
  check_matrix_spec N ERR mat ans

/-- Instance of C15: a matrix agrees with itself within `ERR = 0`. -/
theorem C15_check_matrix_witness :
    check_matrix 2 (0 : Int) sampleA sampleA = none :=
  (C15_check_matrix 2 (0 : Int) sampleA sampleA).1.2 (fun _ _ _ _ => by simp)

/-- C16, evaluated on `main` with `N = 1024`, `A` and `B` filled with 1 and `ans`
zero-filled before the baseline run, assertions enabled. The reference `Naive(A, B, zero)`
is 1024 at element `(0, 0)`. The baseline call passes `ans` as output and as reference, so
the `zero_matrix(c)` that ends `test_program` clears `ans`: at the second `test_program`
call (`transposed`) `ans[0][0] = 0`, and the validation of that kernel's output against
`ans` aborts the run. -/
theorem C16_reference_zeroed :
    ∃ call, (main_calls false lexSched 1024 (1 / 1000 : ℚ) benchZeroAns).get? 1 = some call ∧
      call.kernel = KernelId.transposed ∧
      call.state.ans (0 * 1024 + 0) = 0 ∧
      baseline 1024 benchZeroAns.a benchZeroAns.b zeroBuf (0 * 1024 + 0) = 1024 ∧
      test_program false lexSched 1024 (1 / 1000 : ℚ) KernelId.transposed OutBuf.c
        call.state = none := by
  obtain ⟨call, hget, hk, ha, hb, hc, hans⟩ :=
    main_calls_second false lexSched 1024 (1 / 1000 : ℚ) (by norm_num) benchZeroAns
  have hprod : ∀ (a b : Buf ℚ), (∀ j, j < 1024 → a (0 * 1024 + j) = 1) →
      (∀ j, j < 1024 → b j = 1) →
      ∑ j ∈ Finset.range 1024, a (0 * 1024 + j) * b j = 1024 := by
    intro a b h1 h2
    have h : ∀ j ∈ Finset.range 1024, a (0 * 1024 + j) * b j = 1 := by
      intro j hj
      rw [h1 j (Finset.mem_range.1 hj), h2 j (Finset.mem_range.1 hj), mul_one]
    rw [Finset.sum_congr rfl h]
    simp
  refine ⟨call, hget, hk, hans 0 0 (by decide) (by decide), ?_, ?_⟩
  · rw [baseline_exact 1024 _ _ _ 0 0 (by decide) (by decide),
      hprod benchZeroAns.a (fun j => benchZeroAns.b (j * 1024 + 0)) (fun _ _ => rfl)
        (fun _ _ => rfl)]
    show (0 : ℚ) + 1024 = 1024
    norm_num
  · refine test_program_aborts lexSched 1024 (1 / 1000 : ℚ) KernelId.transposed call.state
      (transposed 1024 call.state.a call.state.b call.state.c) rfl 0 0 (by decide)
      (by decide) ?_
    rw [transposed_apply 1024 _ _ _ 0 0 (by decide) (by decide), dotFrom_eq_sum,
      hc 0 0 (by decide) (by decide), hans 0 0 (by decide) (by decide), ha, hb,
      hprod benchZeroAns.a (fun j => transpose_matrix 1024 benchZeroAns.b (0 * 1024 + j))
        (fun _ _ => rfl)
        (fun j hj => (transpose_apply 1024 benchZeroAns.b 0 j (by decide) hj).trans rfl)]
    norm_num

/-- C17, evaluated on `main` with `N = 1024` and `ans` holding arbitrary values after
allocation. The first kernel invocation is `baseline` with output buffer `ans`, which
nothing has zeroed: `ans[0][0] = 2/5` at the moment of the call. Every later invocation
has output `c`, and `c` is zero-filled at that moment. -/
theorem C17_baseline_output_not_zeroed :
    (∃ call, (main_calls false lexSched 1024 (1 / 1000 : ℚ) benchGarbage).head? = some call ∧
      call.kernel = KernelId.baseline ∧ call.out = OutBuf.ans ∧
      call.state.out call.out (0 * 1024 + 0) = 2 / 5 ∧
      call.state.out call.out (0 * 1024 + 0) ≠ 0) ∧
    (∀ call, call ∈ main_calls false lexSched 1024 (1 / 1000 : ℚ) benchGarbage →
      call.kernel ≠ KernelId.baseline →
      call.out = OutBuf.c ∧
      ∀ i j, i < 1024 → j < 1024 → call.state.out call.out (i * 1024 + j) = 0) := by
  constructor
  · refine ⟨_, main_calls_head false lexSched 1024 (1 / 1000 : ℚ) benchGarbage, rfl, rfl,
      ?_, ?_⟩
    · show sampleQB (0 * 1024 + 0) = 2 / 5
      unfold sampleQB
      norm_num
    · show sampleQB (0 * 1024 + 0) ≠ 0
      unfold sampleQB
      norm_num
  · intro call hcall hne
    obtain ⟨-, -, h⟩ := main_calls_spec false lexSched 1024 (1 / 1000 : ℚ) benchGarbage
      call hcall
    rcases h with ⟨h1, -, -⟩ | ⟨-, ho, hz, -⟩
    · exact absurd h1 hne
    · refine ⟨ho, ?_⟩
      rw [ho]
      exact hz

/-- C18. In the fixed kernel sequence of `main` every kernel receives the second operand
in the layout its precondition requires: at every kernel invocation that takes place,
`a` is as generated and `b` equals the transpose of the generated `B` for `transposed`,
`transpose_simd` and `parallel_tranposed_simd`, and the generated `B` for `baseline` and
`blocked3`; without assertions all five invocations take place; and a returning
`test_program`, kernel run included, leaves `a` and `b` as they were. -/
theorem C18_operand_layout {α : Type} [LinearOrderedRing α] (ndebug : Bool)
    (sched : Nat → Nat → List (Nat × Nat)) (N : Nat) (ERR : α) (s0 : Bench α) :
    (∀ call, call ∈ main_calls ndebug sched N ERR s0 →
      call.state.a = s0.a ∧ call.state.b = required_layout N s0.b call.kernel) ∧
    (main_calls true sched N ERR s0).map Call.kernel
      = [KernelId.baseline, KernelId.transposed, KernelId.transpose_simd,
         KernelId.blocked3_8x8, KernelId.parallel_tranposed_simd] ∧
    (∀ k o s s', test_program ndebug sched N ERR k o s = some s' →
      s'.a = s.a ∧ s'.b = s.b) := by
  refine ⟨?_, main_calls_ndebug sched N ERR s0, ?_⟩
  · intro call hcall
    obtain ⟨h1, h2, -⟩ := main_calls_spec ndebug sched N ERR s0 call hcall
    exact ⟨h1, h2⟩
  · intro k o s s' h
    obtain ⟨h1, h2, -⟩ := test_program_some ndebug sched N ERR k o s s' h
    exact ⟨h1, h2⟩

/-- Instance of C18: the second invocation of `main` on sample buffers, `N = 1024`. -/
theorem C18_operand_layout_witness :
    ∃ call, (main_calls false lexSched 1024 (1 / 1000 : ℚ) benchGarbage).get? 1 = some call ∧
      call.kernel = KernelId.transposed ∧
      call.state.b = required_layout 1024 benchGarbage.b call.kernel :=
  match main_calls_second false lexSched 1024 (1 / 1000 : ℚ) (by norm_num) benchGarbage with
  | ⟨call, hget, hk, _⟩ =>
    ⟨call, hget, hk,
      ((C18_operand_layout false lexSched 1024 (1 / 1000 : ℚ) benchGarbage).1 call
        (List.get?_mem hget)).2⟩

/-- C19. The tile kernels overwrite rather than accumulate: for every `N` that is a
multiple of the tile width and all `A`, `B`, the matrices computed by `blocked<N,B>` and
by `blocked3<N,8>` do not depend on the initial contents of `C` (any two initial `C` give
the same output), so running either kernel again on its own output without zeroing
returns the same matrix. -/
theorem C19_tile_kernels_overwrite {α : Type} [CommSemiring α] (N : Nat)
    (a b c1 c2 : Buf α) :
    (∀ B, 1 ≤ B → B ∣ N →
      ∃ r1 r2 r3, blocked N B a b c1 = some r1 ∧ blocked N B a b c2 = some r2 ∧
        blocked N B a b r1 = some r3 ∧
        ∀ i k, i < N → k < N →
          r1 (i * N + k) = r2 (i * N + k) ∧ r3 (i * N + k) = r1 (i * N + k)) ∧
    (8 ∣ N →
      ∃ r1 r2 r3, blocked3 N 8 a b c1 = some r1 ∧ blocked3 N 8 a b c2 = some r2 ∧
        blocked3 N 8 a b r1 = some r3 ∧
        ∀ i k, i < N → k < N →
          r1 (i * N + k) = r2 (i * N + k) ∧ r3 (i * N + k) = r1 (i * N + k)) := by
  constructor
  · intro B hB hdiv
    obtain ⟨r1, h1, v1⟩ := blocked_apply N B (by omega) hdiv a b c1
    obtain ⟨r2, h2, v2⟩ := blocked_apply N B (by omega) hdiv a b c2
    obtain ⟨r3, h3, v3⟩ := blocked_apply N B (by omega) hdiv a b r1
    refine ⟨r1, r2, r3, h1, h2, h3, ?_⟩
    intro i k hi hk
    rw [v1 i k hi hk, v2 i k hi hk, v3 i k hi hk]
    exact ⟨rfl, rfl⟩
  · intro hdiv
    obtain ⟨r1, h1, v1⟩ := blocked3_apply8 N hdiv a b c1
    obtain ⟨r2, h2, v2⟩ := blocked3_apply8 N hdiv a b c2
    obtain ⟨r3, h3, v3⟩ := blocked3_apply8 N hdiv a b r1
    refine ⟨r1, r2, r3, h1, h2, h3, ?_⟩
    intro i k hi hk
    rw [v1 i k hi hk, v2 i k hi hk, v3 i k hi hk]
    exact ⟨rfl, rfl⟩

/-- Instance of C19: `blocked<4,2>` started from two different `C`, cell `(3, 1)`. -/
theorem C19_tile_kernels_overwrite_witness :
    1 ≤ 2 ∧ 2 ∣ 4 ∧
    ∃ r1 r2, blocked 4 2 sampleA sampleB sampleC = some r1 ∧
      blocked 4 2 sampleA sampleB zeroBuf = some r2 ∧ r1 (3 * 4 + 1) = r2 (3 * 4 + 1) :=
  ⟨by decide, by decide,
    match (C19_tile_kernels_overwrite 4 sampleA sampleB sampleC zeroBuf).1 2
      (by decide) (by decide) with
    | ⟨r1, r2, _, h1, h2, _, hv⟩ => ⟨r1, r2, h1, h2, (hv 3 1 (by decide) (by decide)).1⟩⟩

/-- C20. Under their divisibility preconditions the vectorised kernels never touch an
invalid location: for every `N` that is a multiple of 8, every access of `blocked3<N,8>`
and of `transpose_simd` covers only elements inside its array (`[0, N²)` for the
matrices, `[0, 64)` for the packed scratch tiles, `[0, 8)` for `vec`), and every 8-wide
vector load or store starts at an offset that is a multiple of 8 with all 8 lanes inside
the array; the same holds for `parallel_tranposed_simd` for every `N` that is a multiple
of `BLOCK_SIZE = 32`. -/
theorem C20_vector_access_safety (N : Nat) :
    (8 ∣ N →
      (∀ acc, acc ∈ blocked3_trace N 8 → acc.inBounds N ∧ acc.aligned) ∧
      (∀ acc, acc ∈ transpose_simd_trace N → acc.inBounds N ∧ acc.aligned)) ∧
    (32 ∣ N →
      ∀ acc, acc ∈ parallel_tranposed_simd_trace N → acc.inBounds N ∧ acc.aligned) :=
  ⟨fun hdiv => ⟨fun acc h => blocked3_trace_ok N hdiv acc h,
      fun acc h => transpose_simd_trace_ok N hdiv acc h⟩,
    fun hdiv acc h => parallel_tranposed_simd_trace_ok N hdiv acc h⟩

/-- Instance of C20: `N = 16`, the store of row 3 of the tile at `(8, 8)`. -/
theorem C20_vector_access_safety_witness :
    8 ∣ 16 ∧ vstore Region.c (8 * 16 + 8 + 3 * 16) ∈ blocked3_trace 16 8 ∧
    (vstore Region.c (8 * 16 + 8 + 3 * 16)).inBounds 16 ∧
    (vstore Region.c (8 * 16 + 8 + 3 * 16)).aligned :=
  ⟨by decide,
    unpack_store_mem 16 8 8 8 3 (by decide) (by decide) (by decide),
    ((C20_vector_access_safety 16).1 (by decide)).1 _
      (unpack_store_mem 16 8 8 8 3 (by decide) (by decide) (by decide))⟩

end FastLinalg
